import Mathlib

/-!
# hacmap: a read-optimised, serialisable integer-key index

Shallow embedding of `types.hpp`, `memory.hpp`, `bitarray.hpp`, `hamap.hpp` and
`hacmap.hpp`.

Conventions of the embedding

* Machine integers are natural numbers; wrap-around is written `% 2 ^ w` at the place
  where the C++ type truncates.
* A byte image (`std::vector<uint8_t>`, the memory a searcher owns) is a `List Nat` of
  bytes.  A pointer into the image is a byte offset from its start.
* Operations whose C++ behaviour is undefined (a load outside the image, a shift by at
  least the width of the operand, a division by zero) return `none`.
* Loops that are not structurally recursive take a fuel argument; running out of fuel is
  `none` as well, and the callers pass enough fuel.
-/

namespace Hacmap

/-! ## Integer widths, bytes and loads -/

/-- Key/value pair, `std::pair<Key, Value>`. -/
abbrev KV := Nat × Nat

/-- Integer widths accepted for keys and values (`detail::KVCheck`): 4 or 8 bytes. -/
inductive IntWidth where
  | u32
  | u64
deriving DecidableEq

/-- Result of `sizeof` on an integer of the given width. -/
def IntWidth.bytes : IntWidth → Nat
  | .u32 => 4
  | .u64 => 8

/-- Width in bits, `sizeof(T) * 8`. -/
def IntWidth.bits (w : IntWidth) : Nat := w.bytes * 8

/-- Result of `sizeof(std::pair<Key, Value>)`: the members are aligned to the wider one. -/
def sizeof_kv_pair : IntWidth → IntWidth → Nat
  | .u32, .u32 => 8
  | _, _ => 16

/-- `OStreamProxy::operator<<` on an integer of `w` bytes: its little-endian bytes. -/
def le_bytes : Nat → Nat → List Nat
  | 0, _ => []
  | w + 1, x => x % 256 :: le_bytes w (x / 256)

/-- The integer a little-endian byte string denotes. -/
def le_value : List Nat → Nat
  | [] => 0
  | b :: bs => b + 256 * le_value bs

/-- Dereference of a pointer to a `w`-byte integer at byte offset `off` of the image;
`none` when the object does not lie inside the image. -/
def load (img : List Nat) (off w : Nat) : Option Nat :=
  if off + w ≤ img.length then some (le_value ((img.drop off).take w)) else none

/-- `OStreamProxy::write_range(beg, end, f)`: each `f(*it)` written as a `w`-byte integer. -/
def write_range (w : Nat) (f : KV → Nat) : List KV → List Nat
  | [] => []
  | p :: ps => le_bytes w (f p) ++ write_range w f ps

/-! ## `types.hpp` -/

/-- Number of significant bits among the low `w` bits of `v`, i.e. `w` minus the number of
leading zero bits of a `w`-bit word. -/
def sigbits : Nat → Nat → Nat
  | 0, _ => 0
  | w + 1, v => if v = 0 then 0 else sigbits w (v / 2) + 1

/-- `__builtin_clzl` on a 64-bit word. -/
def clzl (v : Nat) : Nat := 64 - sigbits 64 v

/-- `utils::maxbits` (the three overloads compute the same number). -/
def maxbits (v : Nat) : Nat := if v = 0 then 0 else 64 - clzl v

/-- Value of the macro `DEFAULT_PAGE_SIZE`. -/
def DEFAULT_PAGE_SIZE : Nat := 4096

/-- `struct BucketEntry { uint64_t offset : 43; uint32_t nkeys : 21; }`. -/
structure BucketEntry where
  offset : Nat
  nkeys : Nat
deriving DecidableEq

/-- The 8 bytes of a `BucketEntry` read as one little-endian 64-bit word after assigning
`offset` and `nkeys` to the bit-fields: `offset` in bits [0, 43), `nkeys` in bits [43, 64). -/
def BucketEntry.word (offset nkeys : Nat) : Nat :=
  offset % 2 ^ 43 + 2 ^ 43 * (nkeys % 2 ^ 21)

/-- Reading the two bit-fields back from the 64-bit word. -/
def BucketEntry.ofWord (w : Nat) : BucketEntry :=
  { offset := w % 2 ^ 43, nkeys := w / 2 ^ 43 % 2 ^ 21 }

/-- `detail::calc_buckets_count`.  The division is undefined for `page_size = 0` and the
shift `1U << n` is undefined for `n >= 32`. -/
def calc_buckets_count (kv_sz_total page_size : Nat) : Option Nat :=
  if kv_sz_total ≠ 0 then
    (if kv_sz_total > page_size then
        (if page_size = 0 then none else some (kv_sz_total / page_size))
      else some 1).bind fun ratio =>
    if 64 - clzl ratio < 32 then some (1 <<< (64 - clzl ratio)) else none
  else some 0

/-- `BucketIndex::read_nbuckets`: the pair `(nbuckets, key_bits_store)` parsed from the
footer.  `1UL << nbucket_p2` is undefined for `nbucket_p2 >= 64`. -/
def read_nbuckets (img : List Nat) : Option (Nat × Nat) :=
  if img.length = 0 then none else
  (load img (img.length - 1) 1).bind fun nbucket_p2 =>
  if nbucket_p2 &&& 0x80 ≠ 0 then
    if img.length < 2 then none else
    (load img (img.length - 2) 1).bind fun key_bits_store =>
    if nbucket_p2 &&& 0x7f < 64 then some (1 <<< (nbucket_p2 &&& 0x7f), key_bits_store)
    else none
  else
    if nbucket_p2 < 64 then some (1 <<< nbucket_p2, 0) else none

/-- `detail::BucketIndex`: the image it owns and the two numbers read from the footer. -/
structure BucketIndex where
  data : List Nat
  nbuckets : Nat
  key_bits_store : Nat

/-- Constructor `BucketIndex(utils::MemoryReader rdr)`. -/
def BucketIndex.new (img : List Nat) : Option BucketIndex :=
  (read_nbuckets img).map fun r => { data := img, nbuckets := r.1, key_bits_store := r.2 }

/-- `BucketIndex::get_mask`, in `size_t`. -/
def BucketIndex.get_mask (bi : BucketIndex) : Nat := (bi.nbuckets + 2 ^ 64 - 1) % 2 ^ 64

/-- `BucketIndex::get`: the directory entry `get_entries()[i]`. -/
def BucketIndex.get (bi : BucketIndex) (i : Nat) : Option BucketEntry :=
  (load bi.data (8 * i) 8).map BucketEntry.ofWord

/-- The loop of `BucketIndex::size` over the first `n` directory entries. -/
def BucketIndex.sum_nkeys (bi : BucketIndex) : Nat → Option Nat
  | 0 => some 0
  | n + 1 => (bi.sum_nkeys n).bind fun nrec => (bi.get n).map fun be => (nrec + be.nkeys) % 2 ^ 64

/-- `BucketIndex::size`. -/
def BucketIndex.size (bi : BucketIndex) : Option Nat :=
  if bi.nbuckets ≠ 0 then bi.sum_nkeys bi.nbuckets else some 0

/-- `BucketIndex::get_kcompressed_size`: the product is a 32-bit one, the rest is `size_t`
arithmetic, so that `total_bits - 1` wraps for `total_bits = 0`. -/
def get_kcompressed_size (nrecords key_bits_store : Nat) : Nat :=
  ((((nrecords * key_bits_store) % 2 ^ 32 + 2 ^ 64 - 1) % 2 ^ 64) / 64 + 1) * 8 % 2 ^ 64

/-- `BucketIndex::get_compressed_keys_size`. -/
def BucketIndex.get_compressed_keys_size (bi : BucketIndex) (nrec : Nat) : Nat :=
  get_kcompressed_size nrec bi.key_bits_store

/-! ## `hamap.hpp`: the uncompressed builder -/

/-- The order `std::sort` uses on pairs: `operator<` of `std::pair`, here as `<=`. -/
def kv_le (a b : KV) : Prop := a.1 < b.1 ∨ (a.1 = b.1 ∧ a.2 ≤ b.2)

instance kv_le_decidable : DecidableRel kv_le := fun a b =>
  inferInstanceAs (Decidable (a.1 < b.1 ∨ (a.1 = b.1 ∧ a.2 ≤ b.2)))

/-- `std::sort(b.begin(), b.end())` on a bucket. -/
def sort_bucket (b : List KV) : List KV := b.insertionSort kv_le

/-- `buckets[i].emplace_back(p)`. -/
def emplace_back_at : List (List KV) → Nat → KV → List (List KV)
  | [], _, _ => []
  | b :: bs, 0, p => (b ++ [p]) :: bs
  | b :: bs, i + 1, p => b :: emplace_back_at bs i p

/-- `HAMapIndexer`: the staging list, the pre-sized bucket array and the mask. -/
structure HAMapIndexer where
  unsorted_records : List KV
  buckets : List (List KV)
  hash_mask : Nat

/-- Constructor `HAMapIndexer(total_records_known_at_creation, page_size)`. -/
def HAMapIndexer.new (kw vw : IntWidth) (total_records_known_at_creation page_size : Nat) :
    Option HAMapIndexer :=
  (calc_buckets_count (sizeof_kv_pair kw vw * total_records_known_at_creation % 2 ^ 64)
      page_size).map fun n =>
    { unsorted_records := []
      buckets := List.replicate n []
      hash_mask := if n ≠ 0 then n - 1 else 0 }

/-- `HAMapIndexer::add(Key k, Value v)`. -/
def HAMapIndexer.add (self : HAMapIndexer) (k v : Nat) : HAMapIndexer :=
  if !self.buckets.isEmpty then
    { self with buckets := emplace_back_at self.buckets (k &&& self.hash_mask) (k, v) }
  else
    { self with unsorted_records := self.unsorted_records ++ [(k, v)] }

/-- Adding a list of pairs in order, one `add` call per pair. -/
def HAMapIndexer.add_all (self : HAMapIndexer) (l : List KV) : HAMapIndexer :=
  l.foldl (fun s p => s.add p.1 p.2) self

/-- `HAMapIndexer::size`. -/
def HAMapIndexer.size (self : HAMapIndexer) : Nat :=
  if !self.buckets.isEmpty then
    self.buckets.foldl (fun sz b => (sz + b.length) % 2 ^ 64) 0
  else self.unsorted_records.length

/-- `HAMapIndexer::clear`. -/
def HAMapIndexer.clear (self : HAMapIndexer) : HAMapIndexer :=
  { self with unsorted_records := [] }

/-- `HAMapIndexer::flush_bucket`: sort, then all keys, then all values. -/
def HAMapIndexer.flush_bucket (kw vw : IntWidth) (b : List KV) : List Nat :=
  write_range kw.bytes Prod.fst (sort_bucket b) ++ write_range vw.bytes Prod.snd (sort_bucket b)

/-- The directory loop of `HAMapIndexer::flush_buckets`, started with the running offset
`offs`. -/
def HAMapIndexer.write_index (kw vw : IntWidth) : Nat → List (List KV) → List Nat
  | _, [] => []
  | offs, b :: bs =>
      le_bytes 8 (BucketEntry.word offs (b.length % 2 ^ 32)) ++
        HAMapIndexer.write_index kw vw
          ((offs + (b.length % 2 ^ 32) * (kw.bytes + vw.bytes)) % 2 ^ 64) bs

/-- The second loop of `flush_buckets`: every bucket flushed in turn. -/
def HAMapIndexer.write_buckets (kw vw : IntWidth) : List (List KV) → List Nat
  | [] => []
  | b :: bs => HAMapIndexer.flush_bucket kw vw b ++ HAMapIndexer.write_buckets kw vw bs

/-- `HAMapIndexer::flush_buckets`: directory, buckets, one footer byte. -/
def HAMapIndexer.flush_buckets (kw vw : IntWidth) (buckets : List (List KV)) : List Nat :=
  if buckets.length ≠ 0 then
    HAMapIndexer.write_index kw vw (8 * buckets.length % 2 ^ 64) buckets ++
      HAMapIndexer.write_buckets kw vw buckets ++
      [(maxbits buckets.length + 2 ^ 32 - 1) % 2 ^ 32 % 256]
  else [0]

/-- The loop of `compact_and_store` that distributes the staging list over `nbuckets`
fresh buckets. -/
def partition_records (nbuckets hash_mask : Nat) (records : List KV) : List (List KV) :=
  records.foldl (fun bs p => emplace_back_at bs (p.1 &&& hash_mask) p)
    (List.replicate nbuckets [])

/-- The bucket array `compact_and_store` hands to `flush_buckets`: the pre-sized one, or
the one partitioned from the staging list. -/
def HAMapIndexer.bucket_array (kw vw : IntWidth) (self : HAMapIndexer) (page_size : Nat) :
    Option (List (List KV)) :=
  if !self.buckets.isEmpty then some self.buckets
  else
    (calc_buckets_count ((kw.bytes + vw.bytes) * self.unsorted_records.length % 2 ^ 64)
        page_size).map fun nbuckets =>
      partition_records nbuckets ((nbuckets + 2 ^ 64 - 1) % 2 ^ 64) self.unsorted_records

/-- `HAMapIndexer::compact_and_store` into an empty byte buffer. -/
def HAMapIndexer.compact_and_store (kw vw : IntWidth) (self : HAMapIndexer)
    (page_size : Nat) : Option (List Nat) :=
  (self.bucket_array kw vw page_size).map (HAMapIndexer.flush_buckets kw vw)

/-- `HAMapIndexer::get_compacted`. -/
def HAMapIndexer.get_compacted (kw vw : IntWidth) (self : HAMapIndexer) (page_size : Nat) :
    Option (List Nat) :=
  self.compact_and_store kw vw page_size

/-- A builder constructed with the given count and page size to which the pairs of `l`
are added in order, then serialised with `get_compacted(page_size)`. -/
def HAMapIndexer.image (kw vw : IntWidth) (total_records_known_at_creation page0 : Nat)
    (l : List KV) (page_size : Nat) : Option (List Nat) :=
  (HAMapIndexer.new kw vw total_records_known_at_creation page0).bind fun idx =>
    (idx.add_all l).get_compacted kw vw page_size

/-! ## `hamap.hpp`: the uncompressed searcher -/

/-- `detail::binary_locate`: the index `i` of the returned pointer `keys + i`, or `none`
for `nullptr`.  `keys i` is the load `keys[i]`. -/
def binary_locate (keys : Nat → Option Nat) (k fuel l u : Nat) : Option (Option Nat) :=
  if l < u then
    match fuel with
    | 0 => none
    | fuel + 1 =>
      (keys (((l + u) % 2 ^ 32) >>> 1)).bind fun ki =>
        if ki > k then binary_locate keys k fuel l (((l + u) % 2 ^ 32) >>> 1)
        else if ki < k then
          binary_locate keys k fuel (((((l + u) % 2 ^ 32) >>> 1) + 1) % 2 ^ 32) u
        else some (some (((l + u) % 2 ^ 32) >>> 1))
  else some none

/-- `HAMapSearcher::search`: the byte offset of the value the returned pointer points to,
or `none` for `nullptr`. -/
def HAMapSearcher.search (kw vw : IntWidth) (bi : BucketIndex) (k : Nat) :
    Option (Option Nat) :=
  (bi.get (k &&& (bi.get_mask % 2 ^ kw.bits))).bind fun o =>
  (binary_locate (fun i => load bi.data (o.offset + kw.bytes * i) kw.bytes) k
      o.nkeys 0 o.nkeys).map fun it =>
    it.map fun offs => o.offset + kw.bytes * o.nkeys + vw.bytes * offs

/-- A searcher constructed over `img`, `search(k)`, and the value read through the returned
pointer: `some (some v)` is a hit with `*ptr == v`, `some none` is `nullptr`. -/
def HAMapSearcher.lookup (kw vw : IntWidth) (img : List Nat) (k : Nat) :
    Option (Option Nat) :=
  (BucketIndex.new img).bind fun bi =>
  (HAMapSearcher.search kw vw bi k).bind fun r =>
    match r with
    | none => some none
    | some ptr => (load img ptr vw.bytes).map some

/-- `HAMapSearcher::size` of a searcher constructed over `img`. -/
def HAMapSearcher.size (img : List Nat) : Option Nat :=
  (BucketIndex.new img).bind BucketIndex.size

/-! ## `bitarray.hpp` -/

/-- `BitArrayWriter`: the vector of 64-bit words and the append cursor. -/
structure BitArrayWriter where
  data : List Nat
  last_bit_pos : Nat

/-- Constructor `BitArrayWriter(capacity_in_bits)`. -/
def BitArrayWriter.new (capacity_in_bits : Nat) : BitArrayWriter :=
  { data := List.replicate
      (if capacity_in_bits ≠ 0 then 1 + (capacity_in_bits - 1) / 64 else 0) 0
    last_bit_pos := 0 }

/-- `BitArrayWriter::GetPos`. -/
def BitArrayWriter.GetPos (w : BitArrayWriter) : Nat := w.last_bit_pos

/-- `BitArrayWriter::GetCapacity`, in bytes (a `size_t` product). -/
def BitArrayWriter.GetCapacity (w : BitArrayWriter) : Nat := w.data.length * 8 % 2 ^ 64

/-- `BitArrayWriter::GetBitCapacity` (a `uint64_t` product). -/
def BitArrayWriter.GetBitCapacity (w : BitArrayWriter) : Nat := w.data.length * 64 % 2 ^ 64

/-- `BitArrayWriter::GetData`: the pointer to the words, as the load `data_[i]`; `none`
outside the vector. -/
def BitArrayWriter.GetData (w : BitArrayWriter) : Nat → Option Nat := fun i => w.data[i]?

/-- `std::vector<uint64_t>::resize(n)`: truncate, or pad with zero words. -/
def vector_resize (data : List Nat) (n : Nat) : List Nat :=
  (data ++ List.replicate (n - data.length) 0).take n

/-- `BitArrayWriter::Resize`. -/
def BitArrayWriter.Resize (w : BitArrayWriter) (min_cap : Nat) : BitArrayWriter :=
  let min_sz := max w.data.length (min_cap / 64 + 1)
  let new_sz := ((min_sz <<< 1) % 2 ^ 64 + 2 ^ 64 - (min_sz >>> 1)) % 2 ^ 64
  { w with data := vector_resize w.data new_sz }

/-- The statement `data_[idx] |= x`. -/
def or_word (data : List Nat) (idx x : Nat) : List Nat :=
  data.set idx (data.getD idx 0 ||| x)

/-- The inner loop of `AddBits`: `n` more iterations from loop counter `i` and bit
position `pos`. -/
def add_bits_loop (value : Nat) : Nat → Nat → Nat → List Nat → List Nat
  | 0, _, _, data => data
  | n + 1, i, pos, data =>
      add_bits_loop value n (i + 1) (pos + 1)
        (or_word data (pos / 64) ((((value >>> i) &&& 1) <<< (pos &&& 0x3f)) % 2 ^ 64))

/-- `BitArrayWriter::AddBits(uint64_t value, uint64_t nbits)`. -/
def BitArrayWriter.AddBits (w : BitArrayWriter) (value nbits : Nat) : BitArrayWriter :=
  let pos := w.last_bit_pos
  let last := (w.last_bit_pos + nbits) % 2 ^ 64
  let w1 : BitArrayWriter := { w with last_bit_pos := last }
  let w2 := if w1.GetBitCapacity < last then w1.Resize last else w1
  { w2 with data := add_bits_loop value nbits 0 pos w2.data }

/-- `BitArrayWriter::AddBits(uint64_t const *values, size_t sz, uint64_t nbits)`: the outer
loop over the values, each written by the inner loop from the running position. -/
def add_values_loop (nbits : Nat) : List Nat → Nat → List Nat → List Nat
  | [], _, data => data
  | value :: values, pos, data =>
      add_values_loop nbits values (pos + nbits) (add_bits_loop value nbits 0 pos data)

/-- `BitArrayWriter::AddBits(uint64_t const *values, size_t sz, uint64_t nbits)`, the array
`values[0 .. sz)` given as a list. -/
def BitArrayWriter.AddBits_values (w : BitArrayWriter) (values : List Nat) (nbits : Nat) :
    BitArrayWriter :=
  let pos := w.last_bit_pos
  let last := (w.last_bit_pos + values.length * nbits % 2 ^ 64) % 2 ^ 64
  let w1 : BitArrayWriter := { w with last_bit_pos := last }
  let w2 := if w1.GetBitCapacity < last then w1.Resize last else w1
  { w2 with data := add_values_loop nbits values pos w2.data }

/-- `BitArrayWriter::AddBit`. -/
def BitArrayWriter.AddBit (w : BitArrayWriter) (value : Bool) : BitArrayWriter :=
  let w1 := if w.last_bit_pos = w.GetBitCapacity then w.Resize 0 else w
  let w2 : BitArrayWriter :=
    if value then
      { w1 with data := or_word w1.data (w1.last_bit_pos / 64)
                  ((1 <<< (w1.last_bit_pos % 64)) % 2 ^ 64) }
    else w1
  { w2 with last_bit_pos := (w2.last_bit_pos + 1) % 2 ^ 64 }

/-- The statement `data_[idx] &= x`. -/
def and_word (data : List Nat) (idx x : Nat) : List Nat :=
  data.set idx (data.getD idx 0 &&& x)

/-- `BitArrayWriter::SetBit`; `~(1UL << k)` is `2^64 - 1 - 2^k`. -/
def BitArrayWriter.SetBit (w : BitArrayWriter) (pos : Nat) (value : Bool) : BitArrayWriter :=
  let w1 := if pos ≥ w.GetBitCapacity then w.Resize pos else w
  if value then
    { w1 with data := or_word w1.data (pos / 64) ((1 <<< (pos % 64)) % 2 ^ 64) }
  else
    { w1 with data := and_word w1.data (pos / 64)
                (2 ^ 64 - 1 - (1 <<< (pos % 64)) % 2 ^ 64) }

/-- `BitArrayReader::GetBit`, over the word array `data_` given as the load `data i` of
`data_[i]`. -/
def BitArrayReader.GetBit (data : Nat → Option Nat) (pos : Nat) : Option Bool :=
  (data (pos / 64)).map fun w => decide ((w >>> (pos % 64)) &&& 1 ≠ 0)

/-- `BitArrayReader::GetWord`, over the word array `data_` given as the load `data i` of
`data_[i]`. -/
def BitArrayReader.GetWord (data : Nat → Option Nat) (pos : Nat) : Option Nat :=
  (data (pos / 64)).bind fun w0 =>
    if pos % 64 ≠ 0 then
      (data (pos / 64 + 1)).map fun w1 =>
        (w0 >>> (pos % 64)) ||| ((w1 <<< (64 - pos % 64)) % 2 ^ 64)
    else some (w0 >>> (pos % 64))

/-- `BitArrayReader::GetBits`. -/
def BitArrayReader.GetBits (data : Nat → Option Nat) (pos mask : Nat) : Option Nat :=
  (BitArrayReader.GetWord data pos).map fun w => w &&& mask

/-- The indices `i` of the loads `data_[i]` that `BitArrayReader::GetWord(pos)` performs, and
with it `GetBits(pos, mask)`: `data_[bpos]`, and `data_[bpos + 1]` when `offset` is not 0. -/
def BitArrayReader.GetWord_indices (pos : Nat) : List Nat :=
  if pos % 64 ≠ 0 then [pos / 64, pos / 64 + 1] else [pos / 64]

/-- `BitArrayAdapter::operator[]`. -/
def BitArrayAdapter.get (data : Nat → Option Nat) (elem_width emask offs : Nat) :
    Option Nat :=
  BitArrayReader.GetBits data ((offs * elem_width) % 2 ^ 64) emask

/-- `OStreamProxy::write(bwr.GetData(), bwr.GetCapacity())`: the words as bytes. -/
def write_words : List Nat → List Nat
  | [] => []
  | w :: ws => le_bytes 8 w ++ write_words ws

/-! ## `hacmap.hpp`: the compressed builder -/

/-- `EHCMapIndexer`: the staging list and the OR of all keys. -/
structure EHCMapIndexer where
  unsorted_records : List KV
  kmask : Nat

/-- Constructor `EHCMapIndexer(reserve)`; the reservation has no observable effect. -/
def EHCMapIndexer.new : EHCMapIndexer := { unsorted_records := [], kmask := 0 }

/-- `EHCMapIndexer::add(Key k, Value v)`. -/
def EHCMapIndexer.add (self : EHCMapIndexer) (k v : Nat) : EHCMapIndexer :=
  { unsorted_records := self.unsorted_records ++ [(k, v)], kmask := self.kmask ||| k }

/-- Adding a list of pairs in order, one `add` call per pair. -/
def EHCMapIndexer.add_all (self : EHCMapIndexer) (l : List KV) : EHCMapIndexer :=
  l.foldl (fun s p => s.add p.1 p.2) self

/-- `EHCMapIndexer::size`. -/
def EHCMapIndexer.size (self : EHCMapIndexer) : Nat := self.unsorted_records.length

/-- The packed-key writer of `flush_bucket` after its `AddBits` loop over the sorted
bucket. -/
def EHCMapIndexer.pack_keys (b : List KV) (key_bits_store key_rshift_by : Nat) :
    BitArrayWriter :=
  (sort_bucket b).foldl (fun w p => w.AddBits (p.1 >>> key_rshift_by) key_bits_store)
    (BitArrayWriter.new (b.length * key_bits_store % 2 ^ 64))

/-- `EHCMapIndexer::flush_bucket`.  The mask `(1UL << key_bits_store) - 1` it computes is
undefined for `key_bits_store >= 64`. -/
def EHCMapIndexer.flush_bucket (vw : IntWidth) (b : List KV)
    (key_bits_store key_rshift_by : Nat) : Option (List Nat) :=
  if !b.isEmpty then
    if key_bits_store ≥ 64 then none
    else
      some (write_words (EHCMapIndexer.pack_keys b key_bits_store key_rshift_by).data ++
        write_range vw.bytes Prod.snd (sort_bucket b))
  else some []

/-- The directory loop of `EHCMapIndexer::flush_buckets`. -/
def EHCMapIndexer.write_index (vw : IntWidth) (key_bits_store : Nat) :
    Nat → List (List KV) → List Nat
  | _, [] => []
  | offs, b :: bs =>
      le_bytes 8 (BucketEntry.word offs (b.length % 2 ^ 32)) ++
        EHCMapIndexer.write_index vw key_bits_store
          (if b.length % 2 ^ 32 ≠ 0 then
            (offs + ((b.length % 2 ^ 32) * vw.bytes +
              get_kcompressed_size (b.length % 2 ^ 32) key_bits_store)) % 2 ^ 64
           else offs) bs

/-- The second loop of `EHCMapIndexer::flush_buckets`. -/
def EHCMapIndexer.write_buckets (vw : IntWidth) (key_bits_store key_rshift_by : Nat) :
    List (List KV) → Option (List Nat)
  | [] => some []
  | b :: bs =>
      (EHCMapIndexer.flush_bucket vw b key_bits_store key_rshift_by).bind fun x =>
        (EHCMapIndexer.write_buckets vw key_bits_store key_rshift_by bs).map fun xs => x ++ xs

/-- The `uint8_t nshift = utils::maxbits(nbuckets) - 1` of builder and searcher. -/
def nshift_of (nbuckets : Nat) : Nat := (maxbits nbuckets + 2 ^ 32 - 1) % 2 ^ 32 % 256

/-- The `key_rshift_by` both builder and searcher derive from `nshift`, through
`key_bits_store0 = sizeof(Key) * 8 - nshift` in 32-bit unsigned arithmetic. -/
def key_rshift_by_of (kw : IntWidth) (nshift : Nat) : Nat :=
  (kw.bits + 2 ^ 64 - ((kw.bits + 2 ^ 64 - nshift) % 2 ^ 64 % 2 ^ 32)) % 2 ^ 64 % 2 ^ 32

/-- `EHCMapIndexer::flush_buckets`.  The shift `kmask_ >> key_rshift_by` is undefined when
`key_rshift_by` is not below the key width. -/
def EHCMapIndexer.flush_buckets (kw vw : IntWidth) (kmask : Nat) (buckets : List (List KV)) :
    Option (List Nat) :=
  if key_rshift_by_of kw (nshift_of buckets.length) ≥ kw.bits then none
  else
    (EHCMapIndexer.write_buckets vw
        (maxbits (kmask >>> key_rshift_by_of kw (nshift_of buckets.length)))
        (key_rshift_by_of kw (nshift_of buckets.length)) buckets).map fun payload =>
      EHCMapIndexer.write_index vw
          (maxbits (kmask >>> key_rshift_by_of kw (nshift_of buckets.length)))
          (8 * buckets.length % 2 ^ 64) buckets ++
        payload ++
        [maxbits (kmask >>> key_rshift_by_of kw (nshift_of buckets.length)) % 256,
         nshift_of buckets.length ||| 0x80]

/-- The local `key_rshift_by` of `EHCMapIndexer::flush_buckets`, as computed there from
the number of buckets. -/
def EHCMapIndexer.key_rshift_by (kw : IntWidth) (buckets : List (List KV)) : Nat :=
  key_rshift_by_of kw (nshift_of buckets.length)

/-- The local `key_bits_store` of `EHCMapIndexer::flush_buckets`:
`utils::maxbits(kmask_ >> key_rshift_by)`. -/
def EHCMapIndexer.key_bits_store (kw : IntWidth) (kmask : Nat) (buckets : List (List KV)) :
    Nat :=
  maxbits (kmask >>> EHCMapIndexer.key_rshift_by kw buckets)

/-- The bucket array `EHCMapIndexer::compact_and_store` partitions from the staging list. -/
def EHCMapIndexer.bucket_array (kw vw : IntWidth) (self : EHCMapIndexer) (page_size : Nat) :
    Option (List (List KV)) :=
  (calc_buckets_count ((kw.bytes + vw.bytes) * self.unsorted_records.length % 2 ^ 64)
      page_size).map fun nbuckets =>
    partition_records nbuckets ((nbuckets + 2 ^ 64 - 1) % 2 ^ 64) self.unsorted_records

/-- `EHCMapIndexer::compact_and_store` into an empty byte buffer. -/
def EHCMapIndexer.compact_and_store (kw vw : IntWidth) (self : EHCMapIndexer)
    (page_size : Nat) : Option (List Nat) :=
  (self.bucket_array kw vw page_size).bind (EHCMapIndexer.flush_buckets kw vw self.kmask)

/-- `EHCMapIndexer::get_compacted`. -/
def EHCMapIndexer.get_compacted (kw vw : IntWidth) (self : EHCMapIndexer) (page_size : Nat) :
    Option (List Nat) :=
  self.compact_and_store kw vw page_size

/-- A fresh compressed builder to which the pairs of `l` are added in order, then
serialised with `get_compacted(page_size)`. -/
def EHCMapIndexer.image (kw vw : IntWidth) (l : List KV) (page_size : Nat) :
    Option (List Nat) :=
  (EHCMapIndexer.new.add_all l).get_compacted kw vw page_size

/-! ## `hacmap.hpp`: the compressed searcher -/

/-- `detail::binary_locate_compressed`: the returned index.  Each element read from the
adapter is first stored in `uint32_t kval`. -/
def binary_locate_compressed (keys : Nat → Option Nat) (k fuel l u : Nat) : Option Nat :=
  if l < u then
    match fuel with
    | 0 => none
    | fuel + 1 =>
      (keys (((l + u) % 2 ^ 32) >>> 1)).bind fun elem =>
        if elem % 2 ^ 32 > k then
          binary_locate_compressed keys k fuel l (((l + u) % 2 ^ 32) >>> 1)
        else if elem % 2 ^ 32 < k then
          binary_locate_compressed keys k fuel (((((l + u) % 2 ^ 32) >>> 1) + 1) % 2 ^ 32) u
        else some (((l + u) % 2 ^ 32) >>> 1)
  else some u

/-- `HACMapSearcher`: the bucket index, the mask, the adapter's element width and element
mask, and the key shift. -/
structure HACMapSearcher where
  bi : BucketIndex
  mask : Nat
  elem_width : Nat
  emask : Nat
  key_rshift_by : Nat

/-- Constructor of `HACMapSearcher` followed by `init()`.  The adapter's mask
`(1UL << elem_width) - 1` is undefined for `elem_width >= 64`. -/
def HACMapSearcher.new (kw : IntWidth) (img : List Nat) : Option HACMapSearcher :=
  (BucketIndex.new img).bind fun bi =>
    if bi.key_bits_store ≥ 64 then none
    else
      some { bi := bi
             mask := bi.get_mask % 2 ^ kw.bits
             elem_width := bi.key_bits_store
             emask := (1 <<< bi.key_bits_store) - 1
             key_rshift_by := key_rshift_by_of kw (nshift_of bi.nbuckets) }

/-- `HACMapSearcher::search`: the byte offset of the value the returned pointer points to,
or `none` for `nullptr`.  The shift `k >> key_rshift_by_` is undefined when the shift is
not below the key width. -/
def HACMapSearcher.search (kw vw : IntWidth) (s : HACMapSearcher) (k : Nat) :
    Option (Option Nat) :=
  (s.bi.get (k &&& s.mask)).bind fun p =>
    if p.nkeys = 0 then some none
    else if s.key_rshift_by ≥ kw.bits then none
    else
      (binary_locate_compressed
          (BitArrayAdapter.get (fun j => load s.bi.data (p.offset + 8 * j) 8)
            s.elem_width s.emask)
          (k >>> s.key_rshift_by) p.nkeys 0 p.nkeys).map fun offs =>
        if offs < p.nkeys then
          some (p.offset + s.bi.get_compressed_keys_size p.nkeys + vw.bytes * offs)
        else none

/-- A compressed searcher constructed over `img`, `search(k)`, and the value read through
the returned pointer: `some (some v)` is a hit with `*ptr == v`, `some none` is `nullptr`. -/
def HACMapSearcher.lookup (kw vw : IntWidth) (img : List Nat) (k : Nat) :
    Option (Option Nat) :=
  (HACMapSearcher.new kw img).bind fun s =>
  (HACMapSearcher.search kw vw s k).bind fun r =>
    match r with
    | none => some none
    | some ptr => (load img ptr vw.bytes).map some

/-! ## Predicates used in the statements -/

/-- The bucket array that is serialised when a builder constructed with the given count and
page size receives the pairs of `l` and is asked for `get_compacted(page_size)`. -/
def HAMapIndexer.built_buckets (kw vw : IntWidth) (total_records_known_at_creation page0 : Nat)
    (l : List KV) (page_size : Nat) : Option (List (List KV)) :=
  (HAMapIndexer.new kw vw total_records_known_at_creation page0).bind fun idx =>
    (idx.add_all l).bucket_array kw vw page_size

/-- The call `calc_buckets_count(bytes, page_size)` is defined and its argument did not wrap:
the page size is not zero, the byte total fits `size_t`, and it is below `2^31` pages (so
that the 32-bit shift is by less than 32). -/
def SizedFor (bytes page_size : Nat) : Prop :=
  0 < page_size ∧ bytes < 2 ^ 64 ∧ bytes < 2 ^ 31 * page_size

/-- The byte string `seg` occupies the image from byte offset `off` on. -/
def IsAt (img : List Nat) (off : Nat) (seg : List Nat) : Prop :=
  ∃ pre post, img = pre ++ (seg ++ post) ∧ pre.length = off

/-- The bucket array holds the records `l` partitioned over `2^n` buckets by the low `n` key
bits, each bucket in insertion order. -/
def Partitioned (l : List KV) (n : Nat) (bs : List (List KV)) : Prop :=
  bs.length = 2 ^ n ∧
    ∀ j, j < 2 ^ n → bs[j]? = some (l.filter (fun p => decide (p.1 &&& (2 ^ n - 1) = j)))

/-- Bit `p` of a word array: bit `p mod 64` of word `p / 64` (least significant bit
first); `false` outside the array. -/
def array_bit (data : List Nat) (p : Nat) : Bool := (data.getD (p / 64) 0).testBit (p % 64)

/-- The low `n` bits of `v`, least significant first. -/
def bits_of (v n : Nat) : List Bool := (List.range n).map v.testBit

/-- The bit sequence a list of `(value, nbits)` fields denotes: the low `nbits` bits of each
value, in order. -/
def packed_bits : List (Nat × Nat) → List Bool
  | [] => []
  | e :: es => bits_of e.1 e.2 ++ packed_bits es

/-- The writer holds exactly the bit sequence `bits`: the cursor is after it, it fits the
capacity, the words are 64-bit words, the vector is no longer than `len0` or twice what the
bits need, and bit `p` of the array is `bits[p]` (and clear after the cursor). -/
def BitArrayWriter.Holds (len0 : Nat) (w : BitArrayWriter) (bits : List Bool) : Prop :=
  w.last_bit_pos = bits.length ∧ bits.length ≤ 64 * w.data.length ∧
    w.data.length ≤ max len0 (2 * (bits.length / 64 + 1)) ∧
    (∀ x ∈ w.data, x < 2 ^ 64) ∧ ∀ p, array_bit w.data p = bits.getD p false

/-- The `AddBits` calls of the repository test `BitArrayMultiBits` (bitarray_tests.cpp:41-48):
for `i = 0 .. 99`, `AddBits(i & 1 ? v0 : v1, i & 1 ? 13 : 17)` with `v0 = 0x4545` and
`v1 = 0x131313`, as `(value, nbits)` pairs. -/
def multibits_test : List (Nat × Nat) :=
  (List.range 100).map fun i => if i &&& 1 ≠ 0 then (0x4545, 13) else (0x131313, 17)

instance kv_le_isTotal : IsTotal KV kv_le :=
  ⟨fun a b => by unfold kv_le; omega⟩

instance kv_le_isTrans : IsTrans KV kv_le :=
  ⟨fun a b c h1 h2 => by unfold kv_le at *; omega⟩

instance kv_le_isAntisymm : IsAntisymm KV kv_le :=
  ⟨fun a b h1 h2 => by unfold kv_le at *; exact Prod.ext (by omega) (by omega)⟩

/-! ## Bytes, loads and segments of an image -/

theorem le_bytes_length (w x : Nat) : (le_bytes w x).length = w := by
  induction w generalizing x with
  | zero => rfl
  | succ w ih => simp [le_bytes, ih]

theorem le_value_le_bytes (w x : Nat) : le_value (le_bytes w x) = x % 256 ^ w := by
  induction w generalizing x with
  | zero => simp [le_bytes, le_value, Nat.mod_one]
  | succ w ih =>
    simp only [le_bytes, le_value, ih]
    rw [pow_succ', Nat.mod_mul]

theorem isAt_mid (a b c : List Nat) : IsAt (a ++ (b ++ c)) a.length b :=
  ⟨a, c, rfl, rfl⟩

theorem IsAt.bound {img : List Nat} {off : Nat} {seg : List Nat} (h : IsAt img off seg) :
    off + seg.length ≤ img.length := by
  obtain ⟨pre, post, rfl, rfl⟩ := h
  simp only [List.length_append]
  omega

theorem IsAt.load_seg {img : List Nat} {off : Nat} {seg : List Nat} (h : IsAt img off seg) :
    load img off seg.length = some (le_value seg) := by
  have hb := h.bound
  obtain ⟨pre, post, rfl, rfl⟩ := h
  unfold load
  rw [if_pos hb, List.drop_left, List.take_left]

theorem IsAt.sub {img : List Nat} {off : Nat} {a b c : List Nat}
    (h : IsAt img off (a ++ (b ++ c))) : IsAt img (off + a.length) b := by
  obtain ⟨pre, post, rfl, rfl⟩ := h
  refine ⟨pre ++ a, c ++ post, ?_, ?_⟩
  · simp only [List.append_assoc]
  · simp only [List.length_append]

theorem IsAt.inner {img : List Nat} {off o2 : Nat} {seg s2 : List Nat}
    (h : IsAt img off seg) (h2 : IsAt seg o2 s2) : IsAt img (off + o2) s2 := by
  obtain ⟨pre, post, rfl, rfl⟩ := h2
  exact h.sub

theorem IsAt.load_int {img : List Nat} {off w x : Nat} (h : IsAt img off (le_bytes w x)) :
    load img off w = some (x % 256 ^ w) := by
  have := h.load_seg
  rwa [le_bytes_length, le_value_le_bytes] at this

theorem write_range_length (w : Nat) (f : KV → Nat) (l : List KV) :
    (write_range w f l).length = w * l.length := by
  induction l with
  | nil => rfl
  | cons p ps ih =>
    simp only [write_range, List.length_append, le_bytes_length, ih, List.length_cons]
    ring

theorem write_range_append (w : Nat) (f : KV → Nat) (a b : List KV) :
    write_range w f (a ++ b) = write_range w f a ++ write_range w f b := by
  induction a with
  | nil => rfl
  | cons p ps ih =>
    show le_bytes w (f p) ++ write_range w f (ps ++ b) = _
    rw [ih]
    simp only [write_range, List.append_assoc]

theorem write_range_isAt (w : Nat) (f : KV → Nat) (l : List KV) (j : Nat) (h : j < l.length) :
    IsAt (write_range w f l) (w * j) (le_bytes w (f l[j])) := by
  have hl : l = l.take j ++ (l[j] :: l.drop (j + 1)) := by
    rw [List.getElem_cons_drop, List.take_append_drop]
  have : write_range w f l =
      write_range w f (l.take j) ++ (le_bytes w (f l[j]) ++ write_range w f (l.drop (j + 1))) := by
    conv_lhs => rw [hl]
    rw [write_range_append]
    rfl
  rw [this]
  have hlen : (write_range w f (l.take j)).length = w * j := by
    rw [write_range_length, List.length_take, Nat.min_eq_left (Nat.le_of_lt h)]
  rw [← hlen]
  exact isAt_mid _ _ _

/-! ## `maxbits` and `calc_buckets_count` -/

theorem sigbits_zero (w : Nat) : sigbits w 0 = 0 := by
  cases w <;> simp [sigbits]

theorem sigbits_le (w v : Nat) : sigbits w v ≤ w := by
  induction w generalizing v with
  | zero => simp [sigbits]
  | succ w ih =>
    simp only [sigbits]
    split
    · omega
    · have := ih (v / 2)
      omega

theorem sigbits_two_pow (w n : Nat) (h : n < w) : sigbits w (2 ^ n) = n + 1 := by
  induction w generalizing n with
  | zero => omega
  | succ w ih =>
    have hne : (2 : Nat) ^ n ≠ 0 := by positivity
    simp only [sigbits, hne, if_false]
    cases n with
    | zero => simp [sigbits_zero]
    | succ m =>
      have : 2 ^ (m + 1) / 2 = 2 ^ m := by
        rw [pow_succ]
        exact Nat.mul_div_cancel _ (by decide)
      rw [this, ih m (by omega)]

theorem sigbits_le_of_lt (w v n : Nat) (h : v < 2 ^ n) : sigbits w v ≤ n := by
  induction w generalizing v n with
  | zero => simp [sigbits]
  | succ w ih =>
    simp only [sigbits]
    split
    · omega
    · rename_i hv
      cases n with
      | zero => simp at h; omega
      | succ m =>
        have : v / 2 < 2 ^ m := by
          rw [pow_succ] at h
          omega
        have := ih (v / 2) m this
        omega

theorem sigbits_pos (w v : Nat) (hv : v ≠ 0) : 1 ≤ sigbits (w + 1) v := by
  simp [sigbits, hv]

theorem maxbits_eq_sigbits (v : Nat) : maxbits v = sigbits 64 v := by
  unfold maxbits clzl
  have := sigbits_le 64 v
  split
  · rename_i h
    rw [h, sigbits_zero]
  · omega

theorem maxbits_two_pow (n : Nat) (h : n < 64) : maxbits (2 ^ n) = n + 1 := by
  rw [maxbits_eq_sigbits, sigbits_two_pow 64 n h]

/-- For a defined call (non-zero page size, byte total below `2^31` pages) on a non-zero
byte total, `calc_buckets_count` returns `2^n` with `1 <= n <= 31`. -/
theorem calc_buckets_count_spec (kv page : Nat) (hkv : kv ≠ 0) (hp : 0 < page)
    (hr : kv < 2 ^ 31 * page) :
    ∃ n, 1 ≤ n ∧ n ≤ 31 ∧ calc_buckets_count kv page = some (2 ^ n) := by
  unfold calc_buckets_count
  rw [if_pos hkv]
  have key : ∀ r, 1 ≤ r → r < 2 ^ 31 →
      ∃ n, 1 ≤ n ∧ n ≤ 31 ∧
        (if 64 - clzl r < 32 then some (1 <<< (64 - clzl r)) else none) = some (2 ^ n) := by
    intro r h1 h2
    have e : 64 - clzl r = sigbits 64 r := by
      unfold clzl
      have := sigbits_le 64 r
      omega
    have hle := sigbits_le_of_lt 64 r 31 h2
    have hpos := sigbits_pos 63 r (by omega)
    refine ⟨sigbits 64 r, hpos, hle, ?_⟩
    rw [e, if_pos (by omega), Nat.one_shiftLeft]
  by_cases hgt : kv > page
  · rw [if_pos hgt, if_neg (by omega)]
    simp only [Option.some_bind]
    apply key
    · exact (Nat.one_le_div_iff hp).2 (Nat.le_of_lt hgt)
    · exact (Nat.div_lt_iff_lt_mul hp).2 hr
  · rw [if_neg hgt]
    simp only [Option.some_bind]
    exact key 1 (by omega) (by norm_num)

theorem calc_buckets_count_zero (page : Nat) : calc_buckets_count 0 page = some 0 := by
  simp [calc_buckets_count]

/-! ## Partitioning into buckets -/

theorem emplace_back_at_length (bs : List (List KV)) (i : Nat) (p : KV) :
    (emplace_back_at bs i p).length = bs.length := by
  induction bs generalizing i with
  | nil => rfl
  | cons b bs ih =>
    cases i with
    | zero => rfl
    | succ i => simp [emplace_back_at, ih]

theorem emplace_back_at_getElem? (bs : List (List KV)) (i : Nat) (p : KV) (j : Nat) :
    (emplace_back_at bs i p)[j]? =
      if j = i then bs[j]?.map (fun b => b ++ [p]) else bs[j]? := by
  induction bs generalizing i j with
  | nil => simp [emplace_back_at]
  | cons b bs ih =>
    cases i with
    | zero =>
      cases j with
      | zero => simp [emplace_back_at]
      | succ j => simp [emplace_back_at]
    | succ i =>
      cases j with
      | zero => simp [emplace_back_at]
      | succ j => simp [emplace_back_at, ih]

theorem foldl_emplace_length (m : Nat) (l : List KV) (init : List (List KV)) :
    (l.foldl (fun bs p => emplace_back_at bs (p.1 &&& m) p) init).length = init.length := by
  induction l generalizing init with
  | nil => rfl
  | cons p ps ih => simp [List.foldl_cons, ih, emplace_back_at_length]

theorem foldl_emplace_getElem? (m : Nat) (l : List KV) (init : List (List KV)) (j : Nat) :
    (l.foldl (fun bs p => emplace_back_at bs (p.1 &&& m) p) init)[j]? =
      init[j]?.map (fun b => b ++ l.filter (fun p => decide (p.1 &&& m = j))) := by
  induction l generalizing init with
  | nil => simp
  | cons p ps ih =>
    rw [List.foldl_cons, ih, emplace_back_at_getElem?]
    by_cases h : p.1 &&& m = j
    · rw [if_pos h.symm]
      cases init[j]? <;> simp [List.filter_cons, h]
    · rw [if_neg (fun e => h e.symm)]
      simp [List.filter_cons, h]

/-! ## `detail::binary_locate` -/

theorem binary_locate_step (keys : Nat → Option Nat) (k fuel l u : Nat) :
    binary_locate keys k (fuel + 1) l u =
      if l < u then
        (keys (((l + u) % 2 ^ 32) >>> 1)).bind fun ki =>
          if ki > k then binary_locate keys k fuel l (((l + u) % 2 ^ 32) >>> 1)
          else if ki < k then
            binary_locate keys k fuel (((((l + u) % 2 ^ 32) >>> 1) + 1) % 2 ^ 32) u
          else some (some (((l + u) % 2 ^ 32) >>> 1))
      else some none := by
  conv_lhs => rw [binary_locate.eq_def]

theorem binary_locate_done (keys : Nat → Option Nat) (k fuel l u : Nat) (h : ¬ l < u) :
    binary_locate keys k fuel l u = some none := by
  rw [binary_locate.eq_def, if_neg h]

theorem mid_eq (l u : Nat) (hu : u < 2 ^ 31) (hl : l < u) :
    ((l + u) % 2 ^ 32) >>> 1 = (l + u) / 2 ∧ l ≤ (l + u) / 2 ∧ (l + u) / 2 < u ∧
      ((l + u) / 2 + 1) % 2 ^ 32 = (l + u) / 2 + 1 := by
  have h1 : (l + u) % 2 ^ 32 = l + u := Nat.mod_eq_of_lt (by omega)
  rw [h1, Nat.shiftRight_eq_div_pow]
  refine ⟨by norm_num, by omega, by omega, ?_⟩
  exact Nat.mod_eq_of_lt (by omega)

/-- A key that occurs in no slot of the window is reported as `nullptr`. -/
theorem binary_locate_absent (keys : Nat → Option Nat) (ks : Nat → Nat) (k : Nat) :
    ∀ fuel l u, u < 2 ^ 31 → u - l ≤ fuel →
      (∀ j, l ≤ j → j < u → keys j = some (ks j)) →
      (∀ j, l ≤ j → j < u → ks j ≠ k) →
      binary_locate keys k fuel l u = some none := by
  intro fuel
  induction fuel with
  | zero =>
    intro l u _ hf _ _
    exact binary_locate_done keys k 0 l u (by omega)
  | succ fuel ih =>
    intro l u hu hf hkeys habs
    by_cases hlu : l < u
    · obtain ⟨hm, hm1, hm2, hm3⟩ := mid_eq l u hu hlu
      rw [binary_locate_step, if_pos hlu, hm, hkeys _ hm1 hm2]
      simp only [Option.some_bind]
      by_cases hgt : ks ((l + u) / 2) > k
      · rw [if_pos hgt]
        exact ih l ((l + u) / 2) (by omega) (by omega)
          (fun j h1 h2 => hkeys j h1 (by omega)) (fun j h1 h2 => habs j h1 (by omega))
      · rw [if_neg hgt]
        by_cases hlt : ks ((l + u) / 2) < k
        · rw [if_pos hlt, hm3]
          exact ih ((l + u) / 2 + 1) u hu (by omega)
            (fun j h1 h2 => hkeys j (by omega) h2) (fun j h1 h2 => habs j (by omega) h2)
        · exact absurd (by omega) (habs _ hm1 hm2)
    · exact binary_locate_done keys k _ l u hlu

/-- A key that occurs in a slot of a non-decreasing window is found at a slot holding it. -/
theorem binary_locate_present (keys : Nat → Option Nat) (ks : Nat → Nat) (k : Nat) :
    ∀ fuel l u, u < 2 ^ 31 → u - l ≤ fuel →
      (∀ j, l ≤ j → j < u → keys j = some (ks j)) →
      (∀ a b, l ≤ a → a ≤ b → b < u → ks a ≤ ks b) →
      (∃ j, l ≤ j ∧ j < u ∧ ks j = k) →
      ∃ i, binary_locate keys k fuel l u = some (some i) ∧ l ≤ i ∧ i < u ∧ ks i = k := by
  intro fuel
  induction fuel with
  | zero =>
    intro l u _ hf _ _ hex
    obtain ⟨j, h1, h2, _⟩ := hex
    omega
  | succ fuel ih =>
    intro l u hu hf hkeys hsorted hex
    obtain ⟨j, hj1, hj2, hj3⟩ := hex
    have hlu : l < u := by omega
    obtain ⟨hm, hm1, hm2, hm3⟩ := mid_eq l u hu hlu
    rw [binary_locate_step, if_pos hlu, hm, hkeys _ hm1 hm2]
    simp only [Option.some_bind]
    by_cases hgt : ks ((l + u) / 2) > k
    · rw [if_pos hgt]
      have hji : j < (l + u) / 2 := by
        by_contra hc
        have := hsorted ((l + u) / 2) j hm1 (by omega) hj2
        omega
      obtain ⟨i, e, a, b, c⟩ := ih l ((l + u) / 2) (by omega) (by omega)
        (fun j h1 h2 => hkeys j h1 (by omega))
        (fun a b h1 h2 h3 => hsorted a b h1 h2 (by omega)) ⟨j, hj1, hji, hj3⟩
      exact ⟨i, e, a, by omega, c⟩
    · rw [if_neg hgt]
      by_cases hlt : ks ((l + u) / 2) < k
      · rw [if_pos hlt, hm3]
        have hji : (l + u) / 2 < j := by
          by_contra hc
          have := hsorted j ((l + u) / 2) hj1 (by omega) hm2
          omega
        obtain ⟨i, e, a, b, c⟩ := ih ((l + u) / 2 + 1) u hu (by omega)
          (fun j h1 h2 => hkeys j (by omega) h2)
          (fun a b h1 h2 h3 => hsorted a b (by omega) h2 h3) ⟨j, by omega, hj2, hj3⟩
        exact ⟨i, e, by omega, b, c⟩
      · rw [if_neg hlt]
        exact ⟨_, rfl, hm1, hm2, by omega⟩

/-! ## Layout of the image `HAMapIndexer::flush_buckets` writes -/

theorem IsAt.append_left {img : List Nat} {off : Nat} {seg : List Nat} (pre : List Nat)
    (h : IsAt img off seg) : IsAt (pre ++ img) (pre.length + off) seg := by
  obtain ⟨a, c, rfl, rfl⟩ := h
  refine ⟨pre ++ a, c, ?_, ?_⟩
  · simp only [List.append_assoc]
  · simp only [List.length_append]

theorem IsAt.append_right {img : List Nat} {off : Nat} {seg : List Nat} (post : List Nat)
    (h : IsAt img off seg) : IsAt (img ++ post) off seg := by
  obtain ⟨a, c, rfl, rfl⟩ := h
  refine ⟨a, c ++ post, ?_, rfl⟩
  simp only [List.append_assoc]

theorem isAt_prefix (a b : List Nat) : IsAt (a ++ b) 0 a :=
  ⟨[], b, rfl, rfl⟩

theorem sort_bucket_perm (b : List KV) : (sort_bucket b).Perm b :=
  List.perm_insertionSort _ _

theorem sort_bucket_length (b : List KV) : (sort_bucket b).length = b.length :=
  (sort_bucket_perm b).length_eq

theorem flush_bucket_length (kw vw : IntWidth) (b : List KV) :
    (HAMapIndexer.flush_bucket kw vw b).length = b.length * (kw.bytes + vw.bytes) := by
  unfold HAMapIndexer.flush_bucket
  rw [List.length_append, write_range_length, write_range_length, sort_bucket_length]
  ring

theorem write_buckets_append (kw vw : IntWidth) (a b : List (List KV)) :
    HAMapIndexer.write_buckets kw vw (a ++ b) =
      HAMapIndexer.write_buckets kw vw a ++ HAMapIndexer.write_buckets kw vw b := by
  induction a with
  | nil => rfl
  | cons x xs ih =>
    show HAMapIndexer.flush_bucket kw vw x ++ HAMapIndexer.write_buckets kw vw (xs ++ b) = _
    rw [ih]
    simp only [HAMapIndexer.write_buckets, List.append_assoc]

theorem write_index_length (kw vw : IntWidth) (offs : Nat) (bs : List (List KV)) :
    (HAMapIndexer.write_index kw vw offs bs).length = 8 * bs.length := by
  induction bs generalizing offs with
  | nil => rfl
  | cons b bs ih =>
    simp only [HAMapIndexer.write_index, List.length_append, le_bytes_length, ih,
      List.length_cons]
    ring

/-- Directory entry `i` holds the running offset after the first `i` buckets and the
size of bucket `i`, as long as the counters do not wrap. -/
theorem write_index_isAt (kw vw : IntWidth) (bs : List (List KV)) :
    ∀ (offs i : Nat) (hi : i < bs.length), (∀ b ∈ bs, b.length < 2 ^ 32) →
      offs + (HAMapIndexer.write_buckets kw vw bs).length < 2 ^ 64 →
      IsAt (HAMapIndexer.write_index kw vw offs bs) (8 * i)
        (le_bytes 8 (BucketEntry.word
          (offs + (HAMapIndexer.write_buckets kw vw (bs.take i)).length) bs[i].length)) := by
  induction bs with
  | nil => intro offs i hi; simp at hi
  | cons b bs ih =>
    intro offs i hi hlen hoff
    have hb : b.length % 2 ^ 32 = b.length :=
      Nat.mod_eq_of_lt (hlen b (List.mem_cons_self _ _))
    cases i with
    | zero =>
      simp only [HAMapIndexer.write_index, hb, List.take_zero, HAMapIndexer.write_buckets,
        List.length_nil, Nat.add_zero, Nat.mul_zero, List.getElem_cons_zero]
      exact isAt_prefix _ _
    | succ i =>
      have hi2 : i < bs.length := by simpa using hi
      simp only [HAMapIndexer.write_buckets, List.length_append, flush_bucket_length] at hoff
      have hoffs : (offs + b.length % 2 ^ 32 * (kw.bytes + vw.bytes)) % 2 ^ 64 =
          offs + b.length * (kw.bytes + vw.bytes) := by
        rw [hb]
        exact Nat.mod_eq_of_lt (by omega)
      have := ih (offs + b.length * (kw.bytes + vw.bytes)) i hi2
        (fun x hx => hlen x (List.mem_cons_of_mem _ hx)) (by omega)
      have h2 := this.append_left (le_bytes 8 (BucketEntry.word offs (b.length % 2 ^ 32)))
      simp only [HAMapIndexer.write_index, hoffs, List.take_succ_cons,
        HAMapIndexer.write_buckets, List.length_append, flush_bucket_length,
        List.getElem_cons_succ]
      rw [le_bytes_length] at h2
      have e1 : 8 * (i + 1) = 8 + 8 * i := by ring
      have e2 : offs + (b.length * (kw.bytes + vw.bytes) +
          (HAMapIndexer.write_buckets kw vw (List.take i bs)).length) =
          offs + b.length * (kw.bytes + vw.bytes) +
          (HAMapIndexer.write_buckets kw vw (List.take i bs)).length := by ring
      rw [e1, e2]
      exact h2

/-- The payload of bucket `i` starts right after the payloads of the buckets before it. -/
theorem write_buckets_isAt (kw vw : IntWidth) (bs : List (List KV)) (i : Nat)
    (hi : i < bs.length) :
    IsAt (HAMapIndexer.write_buckets kw vw bs)
      (HAMapIndexer.write_buckets kw vw (bs.take i)).length
      (HAMapIndexer.flush_bucket kw vw bs[i]) := by
  have hl : bs = bs.take i ++ (bs[i] :: bs.drop (i + 1)) := by
    rw [List.getElem_cons_drop, List.take_append_drop]
  have : HAMapIndexer.write_buckets kw vw bs =
      HAMapIndexer.write_buckets kw vw (bs.take i) ++
        (HAMapIndexer.flush_bucket kw vw bs[i] ++
          HAMapIndexer.write_buckets kw vw (bs.drop (i + 1))) := by
    conv_lhs => rw [hl]
    rw [write_buckets_append]
    rfl
  rw [this]
  exact isAt_mid _ _ _

theorem write_buckets_take_le (kw vw : IntWidth) (bs : List (List KV)) (i : Nat) :
    (HAMapIndexer.write_buckets kw vw (bs.take i)).length ≤
      (HAMapIndexer.write_buckets kw vw bs).length := by
  conv_rhs => rw [← List.take_append_drop i bs, write_buckets_append, List.length_append]
  omega

/-! ## The searcher's view of a serialised bucket array -/

theorem IntWidth.pow_bytes (w : IntWidth) : 256 ^ w.bytes = 2 ^ w.bits := by
  cases w <;> norm_num [IntWidth.bytes, IntWidth.bits]

theorem IntWidth.bits_ge (w : IntWidth) : 2 ^ 32 ≤ 2 ^ w.bits := by
  cases w <;> norm_num [IntWidth.bytes, IntWidth.bits]

theorem footer_byte (n : Nat) (hn : n ≤ 31) :
    (maxbits (2 ^ n) + 2 ^ 32 - 1) % 2 ^ 32 % 256 = n := by
  rw [maxbits_two_pow n (by omega)]
  omega

theorem le_value_singleton (b : Nat) : le_value [b] = b := by
  simp [le_value]

theorem read_nbuckets_plain (x : List Nat) (n : Nat) (hn : n ≤ 31) :
    read_nbuckets (x ++ [n]) = some (2 ^ n, 0) := by
  have hat : IsAt (x ++ [n]) x.length [n] := ⟨x, [], by simp, rfl⟩
  have hload := hat.load_seg
  rw [le_value_singleton] at hload
  have hand : n &&& 0x80 = 0 := by
    interval_cases n <;> rfl
  unfold read_nbuckets
  have hlen : (x ++ [n]).length - 1 = x.length := by simp
  rw [if_neg (by simp), hlen]
  simp only [List.length_singleton] at hload
  rw [hload]
  simp only [Option.some_bind, hand, ne_eq, not_true_eq_false, if_false]
  rw [if_pos (by omega), Nat.one_shiftLeft]

theorem word_ofWord (off len : Nat) (ho : off < 2 ^ 43) (hl : len < 2 ^ 21) :
    BucketEntry.ofWord (BucketEntry.word off len % 256 ^ 8) = { offset := off, nkeys := len } := by
  unfold BucketEntry.ofWord BucketEntry.word
  have h1 : off % 2 ^ 43 = off := Nat.mod_eq_of_lt ho
  have h2 : len % 2 ^ 21 = len := Nat.mod_eq_of_lt hl
  rw [h1, h2]
  have h3 : (off + 2 ^ 43 * len) % 256 ^ 8 = off + 2 ^ 43 * len := by
    apply Nat.mod_eq_of_lt
    norm_num at ho hl ⊢
    omega
  rw [h3]
  congr 1
  · norm_num at ho hl ⊢
    omega
  · norm_num at ho hl ⊢
    omega

theorem sort_bucket_sorted (b : List KV) : List.Sorted kv_le (sort_bucket b) :=
  List.sorted_insertionSort kv_le b

theorem sort_bucket_keys_mono (b : List KV) (i j : Nat) (hij : i ≤ j)
    (hj : j < (sort_bucket b).length) :
    ((sort_bucket b)[i]).1 ≤ ((sort_bucket b)[j]).1 := by
  rcases Nat.eq_or_lt_of_le hij with h | h
  · subst h
    exact Nat.le_refl _
  · have hs := sort_bucket_sorted b
    have := (List.pairwise_iff_getElem.1 hs) i j (by omega) hj h
    unfold kv_le at this
    omega

theorem mem_sort_bucket (b : List KV) (p : KV) : p ∈ sort_bucket b ↔ p ∈ b :=
  (sort_bucket_perm b).mem_iff

theorem flush_buckets_eq (kw vw : IntWidth) (n : Nat) (bs : List (List KV)) (hn : n ≤ 31)
    (hlen : bs.length = 2 ^ n) :
    HAMapIndexer.flush_buckets kw vw bs =
      HAMapIndexer.write_index kw vw (8 * bs.length) bs ++
        (HAMapIndexer.write_buckets kw vw bs ++ [n]) := by
  have hB : bs.length ≠ 0 := by
    rw [hlen]
    positivity
  have hle : bs.length ≤ 2 ^ 31 := by
    rw [hlen]
    exact Nat.pow_le_pow_right (by decide) hn
  have h8 : 8 * bs.length % 2 ^ 64 = 8 * bs.length := Nat.mod_eq_of_lt (by omega)
  unfold HAMapIndexer.flush_buckets
  rw [if_pos hB, h8]
  rw [hlen, footer_byte n hn, List.append_assoc]

/-- What a searcher finds in the image of a partitioned bucket array: the bucket count in
the footer, the directory entry of bucket `i`, and the sorted keys and their values at the
places the entry announces. -/
theorem image_view (kw vw : IntWidth) (l : List KV) (n : Nat) (bs : List (List KV))
    (hn : n ≤ 31) (hp : Partitioned l n bs)
    (hsmall : ∀ b ∈ bs, b.length < 2 ^ 21)
    (himg : (HAMapIndexer.flush_buckets kw vw bs).length < 2 ^ 43)
    (hty : ∀ p ∈ l, p.1 < 2 ^ kw.bits ∧ p.2 < 2 ^ vw.bits) (i : Nat) (hi : i < 2 ^ n) :
    ∃ off,
      read_nbuckets (HAMapIndexer.flush_buckets kw vw bs) = some (2 ^ n, 0) ∧
      (load (HAMapIndexer.flush_buckets kw vw bs) (8 * i) 8).map BucketEntry.ofWord =
        some { offset := off
               nkeys := (sort_bucket
                 (l.filter (fun p => decide (p.1 &&& (2 ^ n - 1) = i)))).length } ∧
      (sort_bucket (l.filter (fun p => decide (p.1 &&& (2 ^ n - 1) = i)))).length < 2 ^ 21 ∧
      ∀ j (hj : j < (sort_bucket
            (l.filter (fun p => decide (p.1 &&& (2 ^ n - 1) = i)))).length),
        load (HAMapIndexer.flush_buckets kw vw bs) (off + kw.bytes * j) kw.bytes =
          some ((sort_bucket (l.filter (fun p => decide (p.1 &&& (2 ^ n - 1) = i))))[j]).1 ∧
        load (HAMapIndexer.flush_buckets kw vw bs)
            (off + kw.bytes * (sort_bucket
              (l.filter (fun p => decide (p.1 &&& (2 ^ n - 1) = i)))).length + vw.bytes * j)
            vw.bytes =
          some ((sort_bucket (l.filter (fun p => decide (p.1 &&& (2 ^ n - 1) = i))))[j]).2 := by
  obtain ⟨hlen, hget⟩ := hp
  have hi2 : i < bs.length := by omega
  have hbi : bs[i] = l.filter (fun p => decide (p.1 &&& (2 ^ n - 1) = i)) := by
    have := hget i hi
    rw [List.getElem?_eq_getElem hi2] at this
    exact Option.some.inj this
  have himg_eq := flush_buckets_eq kw vw n bs hn hlen
  rw [himg_eq] at himg ⊢
  rw [← hbi]
  simp only [List.length_append, write_index_length, List.length_singleton] at himg
  have htake := write_buckets_take_le kw vw bs i
  have hsm : bs[i].length < 2 ^ 21 := hsmall _ (List.getElem_mem hi2)
  refine ⟨8 * bs.length + (HAMapIndexer.write_buckets kw vw (bs.take i)).length, ?_, ?_, ?_, ?_⟩
  · rw [← List.append_assoc]
    exact read_nbuckets_plain _ n hn
  · have h1 := write_index_isAt kw vw bs (8 * bs.length) i hi2
      (fun b hb => lt_trans (hsmall b hb) (by norm_num)) (by omega)
    have h2 := (h1.append_right (HAMapIndexer.write_buckets kw vw bs ++ [n])).load_int
    rw [h2, Option.map_some', sort_bucket_length]
    rw [word_ofWord _ _ (by omega) hsm]
  · rw [sort_bucket_length]
    exact hsm
  · intro j hj
    have hpay : IsAt (HAMapIndexer.write_index kw vw (8 * bs.length) bs ++
        (HAMapIndexer.write_buckets kw vw bs ++ [n]))
        (8 * bs.length + (HAMapIndexer.write_buckets kw vw (bs.take i)).length)
        (HAMapIndexer.flush_bucket kw vw bs[i]) := by
      have h1 := ((write_buckets_isAt kw vw bs i hi2).append_right [n]).append_left
        (HAMapIndexer.write_index kw vw (8 * bs.length) bs)
      rwa [write_index_length] at h1
    have hmem : (sort_bucket bs[i])[j] ∈ l := by
      have h1 : (sort_bucket bs[i])[j] ∈ sort_bucket bs[i] := List.getElem_mem hj
      rw [mem_sort_bucket] at h1
      have h3 : (sort_bucket bs[i])[j] ∈
          l.filter (fun p => decide (p.1 &&& (2 ^ n - 1) = i)) := by
        rw [← hbi]
        exact h1
      exact (List.mem_filter.1 h3).1
    obtain ⟨hk, hv⟩ := hty _ hmem
    constructor
    · have h1 := (write_range_isAt kw.bytes Prod.fst (sort_bucket bs[i]) j hj).append_right
        (write_range vw.bytes Prod.snd (sort_bucket bs[i]))
      have h2 := (hpay.inner h1).load_int
      rw [IntWidth.pow_bytes, Nat.mod_eq_of_lt hk] at h2
      rw [← h2, Nat.add_assoc]
    · have h1 := (write_range_isAt vw.bytes Prod.snd (sort_bucket bs[i]) j hj).append_left
        (write_range kw.bytes Prod.fst (sort_bucket bs[i]))
      rw [write_range_length] at h1
      have h2 := (hpay.inner h1).load_int
      rw [IntWidth.pow_bytes, Nat.mod_eq_of_lt hv] at h2
      rw [← h2, Nat.add_assoc, Nat.add_assoc]

theorem searcher_mask (kw : IntWidth) (n : Nat) (hn : n ≤ 31) :
    (2 ^ n + 2 ^ 64 - 1) % 2 ^ 64 % 2 ^ kw.bits = 2 ^ n - 1 := by
  have h1 : 0 < 2 ^ n := by positivity
  have h2 : 2 ^ n ≤ 2 ^ 31 := Nat.pow_le_pow_right (by decide) hn
  have h3 := kw.bits_ge
  have e1 : (2 ^ n + 2 ^ 64 - 1) % 2 ^ 64 = 2 ^ n - 1 := by
    generalize 2 ^ n = B at h1 h2
    omega
  rw [e1]
  apply Nat.mod_eq_of_lt
  generalize 2 ^ n = B at h1 h2
  generalize 2 ^ kw.bits = K at h3
  omega

/-- Over the image of a partitioned bucket array, `lookup` is the binary search over the
sorted keys of the bucket the key hashes to, followed by the load of the value at the same
slot. -/
theorem lookup_partitioned (kw vw : IntWidth) (l : List KV) (n : Nat) (bs : List (List KV))
    (hn : n ≤ 31) (hp : Partitioned l n bs)
    (hsmall : ∀ b ∈ bs, b.length < 2 ^ 21)
    (himg : (HAMapIndexer.flush_buckets kw vw bs).length < 2 ^ 43)
    (hty : ∀ p ∈ l, p.1 < 2 ^ kw.bits ∧ p.2 < 2 ^ vw.bits) (k : Nat) :
    (∀ v, (k, v) ∈ l →
      ∃ v2, (k, v2) ∈ l ∧
        HAMapSearcher.lookup kw vw (HAMapIndexer.flush_buckets kw vw bs) k = some (some v2)) ∧
    ((∀ v, (k, v) ∉ l) →
      HAMapSearcher.lookup kw vw (HAMapIndexer.flush_buckets kw vw bs) k = some none) := by
  have hi : k &&& (2 ^ n - 1) < 2 ^ n := by
    rw [Nat.and_pow_two_sub_one_eq_mod]
    exact Nat.mod_lt _ (by positivity)
  obtain ⟨off, hread, hentry, hlen, hloads⟩ :=
    image_view kw vw l n bs hn hp hsmall himg hty (k &&& (2 ^ n - 1)) hi
  generalize hs : sort_bucket (l.filter (fun p => decide (p.1 &&& (2 ^ n - 1) = k &&& (2 ^ n - 1))))
    = s at hentry hlen hloads
  have hmem : ∀ p, p ∈ s ↔ (p ∈ l ∧ p.1 &&& (2 ^ n - 1) = k &&& (2 ^ n - 1)) := by
    intro p
    rw [← hs, mem_sort_bucket, List.mem_filter]
    simp
  have hmono : ∀ a b, 0 ≤ a → a ≤ b → b < s.length →
      (s.getD a (0, 0)).1 ≤ (s.getD b (0, 0)).1 := by
    intro a b _ hab hb
    rw [List.getD_eq_getElem s (0, 0) hb, List.getD_eq_getElem s (0, 0) (by omega)]
    subst hs
    exact sort_bucket_keys_mono _ a b hab hb
  have hkeys : ∀ j, 0 ≤ j → j < s.length →
      (fun i => load (HAMapIndexer.flush_buckets kw vw bs) (off + kw.bytes * i) kw.bytes) j =
        some ((fun j => (s.getD j (0, 0)).1) j) := by
    intro j _ hj
    simp only [List.getD_eq_getElem s (0, 0) hj]
    exact (hloads j hj).1
  have hunfold : HAMapSearcher.lookup kw vw (HAMapIndexer.flush_buckets kw vw bs) k =
      (binary_locate
        (fun i => load (HAMapIndexer.flush_buckets kw vw bs) (off + kw.bytes * i) kw.bytes)
        k s.length 0 s.length).bind (fun it =>
          match it with
          | none => some none
          | some offs =>
            (load (HAMapIndexer.flush_buckets kw vw bs)
              (off + kw.bytes * s.length + vw.bytes * offs) vw.bytes).map some) := by
    simp only [HAMapSearcher.lookup, BucketIndex.new, hread, Option.map_some',
      Option.some_bind, HAMapSearcher.search, BucketIndex.get, BucketIndex.get_mask,
      searcher_mask kw n hn, hentry]
    cases binary_locate
        (fun i => load (HAMapIndexer.flush_buckets kw vw bs) (off + kw.bytes * i) kw.bytes)
        k s.length 0 s.length with
    | none => rfl
    | some it => cases it <;> rfl
  rw [hunfold]
  constructor
  · intro v hv
    have hin : (k, v) ∈ s := (hmem (k, v)).2 ⟨hv, rfl⟩
    obtain ⟨j, hj, hjv⟩ := List.mem_iff_getElem.1 hin
    obtain ⟨i, hfound, _, hil, hik⟩ := binary_locate_present _ (fun j => (s.getD j (0, 0)).1) k
      s.length 0 s.length (by omega) (by omega) hkeys hmono
      ⟨j, Nat.zero_le _, hj, by simp only [List.getD_eq_getElem s (0, 0) hj, hjv]⟩
    rw [hfound]
    simp only [Option.some_bind]
    rw [(hloads i hil).2]
    simp only [List.getD_eq_getElem s (0, 0) hil] at hik
    refine ⟨(s[i]).2, ?_, rfl⟩
    have h1 : s[i] ∈ s := List.getElem_mem hil
    have h2 : s[i] = (k, (s[i]).2) := Prod.ext hik rfl
    rw [h2] at h1
    exact ((hmem _).1 h1).1
  · intro habs
    have hne : ∀ j, 0 ≤ j → j < s.length → (fun j => (s.getD j (0, 0)).1) j ≠ k := by
      intro j _ hj hjk
      simp only [List.getD_eq_getElem s (0, 0) hj] at hjk
      have h1 : s[j] ∈ s := List.getElem_mem hj
      have h2 : s[j] = (k, (s[j]).2) := Prod.ext hjk rfl
      rw [h2] at h1
      exact habs _ ((hmem _).1 h1).1
    rw [binary_locate_absent _ (fun j => (s.getD j (0, 0)).1) k s.length 0 s.length
      (by omega) (by omega) hkeys hne]
    rfl

/-! ## The bucket array a builder serialises -/

theorem image_eq_built (kw vw : IntWidth) (total page0 : Nat) (l : List KV) (page : Nat) :
    HAMapIndexer.image kw vw total page0 l page =
      (HAMapIndexer.built_buckets kw vw total page0 l page).map
        (HAMapIndexer.flush_buckets kw vw) := by
  unfold HAMapIndexer.image HAMapIndexer.built_buckets HAMapIndexer.get_compacted
    HAMapIndexer.compact_and_store
  cases HAMapIndexer.new kw vw total page0 <;> rfl

theorem add_all_staging (l : List KV) : ∀ (idx : HAMapIndexer), idx.buckets = [] →
    idx.add_all l = { idx with unsorted_records := idx.unsorted_records ++ l } := by
  induction l with
  | nil => intro idx _; simp [HAMapIndexer.add_all]
  | cons p ps ih =>
    intro idx h
    have hadd : idx.add p.1 p.2 =
        { idx with unsorted_records := idx.unsorted_records ++ [(p.1, p.2)] } := by
      simp [HAMapIndexer.add, h]
    have := ih (idx.add p.1 p.2) (by rw [hadd]; exact h)
    unfold HAMapIndexer.add_all at this ⊢
    rw [List.foldl_cons, this, hadd]
    simp

theorem add_all_presized (l : List KV) : ∀ (idx : HAMapIndexer), idx.buckets ≠ [] →
    idx.add_all l =
      { idx with buckets :=
          l.foldl (fun bs p => emplace_back_at bs (p.1 &&& idx.hash_mask) p) idx.buckets } := by
  induction l with
  | nil => intro idx _; simp [HAMapIndexer.add_all]
  | cons p ps ih =>
    intro idx h
    have hadd : idx.add p.1 p.2 =
        { idx with buckets := emplace_back_at idx.buckets (p.1 &&& idx.hash_mask) p } := by
      simp [HAMapIndexer.add, h]
    have hne : (idx.add p.1 p.2).buckets ≠ [] := by
      rw [hadd]
      intro hc
      have := congrArg List.length hc
      simp only [emplace_back_at_length, List.length_nil] at this
      exact h (List.length_eq_zero.1 this)
    have := ih (idx.add p.1 p.2) hne
    unfold HAMapIndexer.add_all at this ⊢
    rw [List.foldl_cons, this, hadd]
    simp only [List.foldl_cons]

theorem partition_spec (l : List KV) (n : Nat) :
    Partitioned l n
      (l.foldl (fun bs p => emplace_back_at bs (p.1 &&& (2 ^ n - 1)) p)
        (List.replicate (2 ^ n) [])) := by
  constructor
  · rw [foldl_emplace_length, List.length_replicate]
  · intro j hj
    rw [foldl_emplace_getElem?, List.getElem?_replicate, if_pos hj]
    simp

theorem size_t_pred (n : Nat) (hn : n ≤ 31) : (2 ^ n + 2 ^ 64 - 1) % 2 ^ 64 = 2 ^ n - 1 := by
  have h1 : 0 < 2 ^ n := by positivity
  have h2 : 2 ^ n ≤ 2 ^ 31 := Nat.pow_le_pow_right (by decide) hn
  generalize 2 ^ n = B at h1 h2
  omega

theorem bytes_pos (kw vw : IntWidth) : 8 ≤ kw.bytes + vw.bytes := by
  cases kw <;> cases vw <;> decide

/-- Both build modes hand `flush_buckets` the records partitioned over `2^n` buckets,
`1 <= n <= 31`, where `2^n` is what `calc_buckets_count` returns: on the announced record
count and the constructor's page size in pre-sized mode, on the number of staged records
and the page size of `get_compacted` in staging mode. -/
theorem built_buckets_count (kw vw : IntWidth) (total page0 page : Nat) (l : List KV)
    (h0 : SizedFor (sizeof_kv_pair kw vw * total) page0)
    (h1 : SizedFor ((kw.bytes + vw.bytes) * l.length) page) (hne : l ≠ []) :
    ∃ n bs, 1 ≤ n ∧ n ≤ 31 ∧
      (if sizeof_kv_pair kw vw * total = 0 then
          calc_buckets_count ((kw.bytes + vw.bytes) * l.length) page
        else calc_buckets_count (sizeof_kv_pair kw vw * total) page0) = some (2 ^ n) ∧
      HAMapIndexer.built_buckets kw vw total page0 l page = some bs ∧ Partitioned l n bs := by
  obtain ⟨hp0, hw0, hr0⟩ := h0
  obtain ⟨hp1, hw1, hr1⟩ := h1
  unfold HAMapIndexer.built_buckets HAMapIndexer.new
  rw [Nat.mod_eq_of_lt hw0]
  by_cases hz : sizeof_kv_pair kw vw * total = 0
  · rw [hz, calc_buckets_count_zero, if_pos rfl]
    simp only [Option.map_some', Option.some_bind]
    rw [add_all_staging l _ rfl]
    have hlen : 0 < l.length := List.length_pos.2 hne
    have hb := bytes_pos kw vw
    have hkv : (kw.bytes + vw.bytes) * l.length ≠ 0 := by
      have := Nat.mul_pos (by omega : 0 < kw.bytes + vw.bytes) hlen
      omega
    obtain ⟨n, hn1, hn2, hcalc⟩ := calc_buckets_count_spec _ page hkv hp1 hr1
    refine ⟨n, _, hn1, hn2, hcalc, ?_, partition_spec l n⟩
    simp only [HAMapIndexer.bucket_array, List.replicate_zero, List.isEmpty_nil, Bool.not_true,
      Bool.false_eq_true, if_false, List.nil_append, Nat.mod_eq_of_lt hw1, hcalc,
      Option.map_some', partition_records, size_t_pred n hn2]
  · obtain ⟨n, hn1, hn2, hcalc⟩ := calc_buckets_count_spec _ page0 hz hp0 hr0
    rw [hcalc, if_neg hz]
    simp only [Option.map_some', Option.some_bind]
    have hpos : (2 : Nat) ^ n ≠ 0 := by positivity
    have hbne : (List.replicate (2 ^ n) ([] : List KV)) ≠ [] := by
      intro hc
      have := congrArg List.length hc
      simp only [List.length_replicate, List.length_nil] at this
      exact hpos this
    rw [add_all_presized l _ hbne]
    refine ⟨n, _, hn1, hn2, rfl, ?_, partition_spec l n⟩
    have hne2 : (l.foldl (fun bs p => emplace_back_at bs (p.1 &&& (2 ^ n - 1)) p)
        (List.replicate (2 ^ n) [])) ≠ [] := by
      intro hc
      have := congrArg List.length hc
      simp only [foldl_emplace_length, List.length_replicate, List.length_nil] at this
      exact hpos this
    simp only [HAMapIndexer.bucket_array, if_pos hpos]
    rw [if_pos]
    simpa [List.isEmpty_iff] using hne2

theorem built_buckets_spec (kw vw : IntWidth) (total page0 page : Nat) (l : List KV)
    (h0 : SizedFor (sizeof_kv_pair kw vw * total) page0)
    (h1 : SizedFor ((kw.bytes + vw.bytes) * l.length) page) (hne : l ≠ []) :
    ∃ n bs, 1 ≤ n ∧ n ≤ 31 ∧
      HAMapIndexer.built_buckets kw vw total page0 l page = some bs ∧ Partitioned l n bs := by
  obtain ⟨n, bs, h1, h2, _, h3, h4⟩ := built_buckets_count kw vw total page0 page l h0 h1 hne
  exact ⟨n, bs, h1, h2, h3, h4⟩

/-! ## Claims on the uncompressed map -/

/-- Both lookup facts for the image a builder serialises, in either build mode. -/
theorem lookup_image (kw vw : IntWidth) (total page0 page : Nat) (l : List KV)
    (h0 : SizedFor (sizeof_kv_pair kw vw * total) page0)
    (h1 : SizedFor ((kw.bytes + vw.bytes) * l.length) page)
    (hne : l ≠ [])
    (hty : ∀ p ∈ l, p.1 < 2 ^ kw.bits ∧ p.2 < 2 ^ vw.bits)
    (hsmall : ∀ bs, HAMapIndexer.built_buckets kw vw total page0 l page = some bs →
      ∀ b ∈ bs, b.length < 2 ^ 21)
    (himg : ∀ img, HAMapIndexer.image kw vw total page0 l page = some img →
      img.length < 2 ^ 43) :
    ∃ img, HAMapIndexer.image kw vw total page0 l page = some img ∧
      ∀ k, (∀ v, (k, v) ∈ l →
          ∃ v2, (k, v2) ∈ l ∧ HAMapSearcher.lookup kw vw img k = some (some v2)) ∧
        ((∀ v, (k, v) ∉ l) → HAMapSearcher.lookup kw vw img k = some none) := by
  obtain ⟨n, bs, _, hn, hbs, hpart⟩ := built_buckets_spec kw vw total page0 page l h0 h1 hne
  have himage : HAMapIndexer.image kw vw total page0 l page =
      some (HAMapIndexer.flush_buckets kw vw bs) := by
    rw [image_eq_built, hbs]
    rfl
  refine ⟨_, himage, fun k => ?_⟩
  exact lookup_partitioned kw vw l n bs hn hpart (hsmall bs hbs) (himg _ himage) hty k

/-- C1 (uncompressed round trip, hit).  A `HAMapIndexer` is constructed with the record
count `total` (`0` is the staging mode, a positive count the pre-sized mode) and page size
`page0`, receives the pairs of the non-empty list `l` with pairwise distinct keys, and is
serialised.  When the calls are defined (`SizedFor`), every bucket holds fewer than `2^21`
pairs and the image is shorter than `2^43` bytes, the image exists and a `HAMapSearcher`
over it returns, for every inserted pair `(k, v)`, a pointer to the value `v`. -/
theorem C1_uncompressed_round_trip (kw vw : IntWidth) (total page0 page : Nat) (l : List KV)
    (h0 : SizedFor (sizeof_kv_pair kw vw * total) page0)
    (h1 : SizedFor ((kw.bytes + vw.bytes) * l.length) page)
    (hne : l ≠ [])
    (hty : ∀ p ∈ l, p.1 < 2 ^ kw.bits ∧ p.2 < 2 ^ vw.bits)
    (hdist : (l.map Prod.fst).Nodup)
    (hsmall : ∀ bs, HAMapIndexer.built_buckets kw vw total page0 l page = some bs →
      ∀ b ∈ bs, b.length < 2 ^ 21)
    (himg : ∀ img, HAMapIndexer.image kw vw total page0 l page = some img →
      img.length < 2 ^ 43) :
    ∃ img, HAMapIndexer.image kw vw total page0 l page = some img ∧
      ∀ p ∈ l, HAMapSearcher.lookup kw vw img p.1 = some (some p.2) := by
  obtain ⟨img, himage, hlook⟩ := lookup_image kw vw total page0 page l h0 h1 hne hty hsmall himg
  refine ⟨img, himage, fun p hp => ?_⟩
  obtain ⟨v2, hv2, hfound⟩ := (hlook p.1).1 p.2 hp
  have := List.inj_on_of_nodup_map hdist hp hv2 rfl
  rw [hfound, this]

/-- C7 (duplicate keys), within the limits of the directory entry.  For every non-empty
list of pairs in which keys may repeat, with keys and values that fit their types, whose
serialisation keeps every bucket below `2^21` pairs and the image below `2^43` bytes (the
widths of the `nkeys` and `offset` fields of `BucketEntry`), a `HAMapSearcher` over the image
returns, for every key `k` that occurs in the list, a pointer to a value `v` such that the
pair `(k, v)` was inserted. -/
theorem C7_duplicate_keys (kw vw : IntWidth) (total page0 page : Nat) (l : List KV)
    (h0 : SizedFor (sizeof_kv_pair kw vw * total) page0)
    (h1 : SizedFor ((kw.bytes + vw.bytes) * l.length) page)
    (hne : l ≠ [])
    (hty : ∀ p ∈ l, p.1 < 2 ^ kw.bits ∧ p.2 < 2 ^ vw.bits)
    (hsmall : ∀ bs, HAMapIndexer.built_buckets kw vw total page0 l page = some bs →
      ∀ b ∈ bs, b.length < 2 ^ 21)
    (himg : ∀ img, HAMapIndexer.image kw vw total page0 l page = some img →
      img.length < 2 ^ 43) :
    ∃ img, HAMapIndexer.image kw vw total page0 l page = some img ∧
      ∀ k ∈ l.map Prod.fst,
        ∃ v, (k, v) ∈ l ∧ HAMapSearcher.lookup kw vw img k = some (some v) := by
  obtain ⟨img, himage, hlook⟩ := lookup_image kw vw total page0 page l h0 h1 hne hty hsmall himg
  refine ⟨img, himage, fun k hk => ?_⟩
  obtain ⟨p, hp, rfl⟩ := List.mem_map.1 hk
  exact (hlook p.1).1 p.2 hp

/-- C1 at a concrete input: three pairs with distinct keys, 32-bit keys, 64-bit values,
staging mode, default page size. -/
theorem C1_witness :
    ∃ img, HAMapIndexer.image .u32 .u64 0 4096 [(5, 7), (2, 9), (4, 1)] 4096 = some img ∧
      ∀ p ∈ [((5 : Nat), (7 : Nat)), (2, 9), (4, 1)],
        HAMapSearcher.lookup .u32 .u64 img p.1 = some (some p.2) :=
  C1_uncompressed_round_trip .u32 .u64 0 4096 4096 [(5, 7), (2, 9), (4, 1)]
    ⟨by decide, by decide, by decide⟩ ⟨by decide, by decide, by decide⟩ (by decide)
    (by decide) (by decide)
    (fun bs h => by
      have e : HAMapIndexer.built_buckets .u32 .u64 0 4096 [(5, 7), (2, 9), (4, 1)] 4096 =
          some [[(2, 9), (4, 1)], [(5, 7)]] := by decide
      rw [e] at h
      cases h
      decide)
    (fun img h => by
      have e : (HAMapIndexer.image .u32 .u64 0 4096 [(5, 7), (2, 9), (4, 1)] 4096).map
          List.length = some 53 := by decide
      rw [h] at e
      simp only [Option.map_some', Option.some.injEq] at e
      omega)

/-! ## Insertion order -/

theorem sort_bucket_congr {a b : List KV} (h : a.Perm b) : sort_bucket a = sort_bucket b :=
  List.eq_of_perm_of_sorted
    (((sort_bucket_perm a).trans h).trans (sort_bucket_perm b).symm)
    (sort_bucket_sorted a) (sort_bucket_sorted b)

theorem length_eq_of_sort_eq {a b : List KV} (h : sort_bucket a = sort_bucket b) :
    a.length = b.length := by
  rw [← sort_bucket_length a, ← sort_bucket_length b, h]

theorem isEmpty_eq_of_sort_eq {a b : List KV} (h : sort_bucket a = sort_bucket b) :
    a.isEmpty = b.isEmpty := by
  have := length_eq_of_sort_eq h
  cases a <;> cases b <;> simp_all

theorem foldl_emplace_sorted_congr (m : Nat) (init : List (List KV)) {l1 l2 : List KV}
    (h : l1.Perm l2) :
    (l1.foldl (fun bs p => emplace_back_at bs (p.1 &&& m) p) init).map sort_bucket =
      (l2.foldl (fun bs p => emplace_back_at bs (p.1 &&& m) p) init).map sort_bucket := by
  apply List.ext_getElem?
  intro j
  rw [List.getElem?_map, List.getElem?_map, foldl_emplace_getElem?, foldl_emplace_getElem?]
  cases init[j]? with
  | none => rfl
  | some b =>
    simp only [Option.map_some', Option.some.injEq]
    exact sort_bucket_congr ((h.filter _).append_left b)

theorem hamap_write_index_congr (kw vw : IntWidth) :
    ∀ (bs1 bs2 : List (List KV)) (offs : Nat), bs1.map sort_bucket = bs2.map sort_bucket →
      HAMapIndexer.write_index kw vw offs bs1 = HAMapIndexer.write_index kw vw offs bs2 := by
  intro bs1
  induction bs1 with
  | nil =>
    intro bs2 offs h
    cases bs2 with
    | nil => rfl
    | cons b bs => simp at h
  | cons a as ih =>
    intro bs2 offs h
    cases bs2 with
    | nil => simp at h
    | cons b bs =>
      simp only [List.map_cons, List.cons.injEq] at h
      simp only [HAMapIndexer.write_index, length_eq_of_sort_eq h.1]
      rw [ih bs _ h.2]

theorem hamap_write_buckets_congr (kw vw : IntWidth) :
    ∀ (bs1 bs2 : List (List KV)), bs1.map sort_bucket = bs2.map sort_bucket →
      HAMapIndexer.write_buckets kw vw bs1 = HAMapIndexer.write_buckets kw vw bs2 := by
  intro bs1
  induction bs1 with
  | nil =>
    intro bs2 h
    cases bs2 with
    | nil => rfl
    | cons b bs => simp at h
  | cons a as ih =>
    intro bs2 h
    cases bs2 with
    | nil => simp at h
    | cons b bs =>
      simp only [List.map_cons, List.cons.injEq] at h
      simp only [HAMapIndexer.write_buckets, HAMapIndexer.flush_bucket, h.1]
      rw [ih bs h.2]

theorem hamap_flush_buckets_congr (kw vw : IntWidth) (bs1 bs2 : List (List KV))
    (h : bs1.map sort_bucket = bs2.map sort_bucket) :
    HAMapIndexer.flush_buckets kw vw bs1 = HAMapIndexer.flush_buckets kw vw bs2 := by
  have hlen : bs1.length = bs2.length := by
    have := congrArg List.length h
    simpa using this
  unfold HAMapIndexer.flush_buckets
  rw [hlen, hamap_write_index_congr kw vw bs1 bs2 _ h, hamap_write_buckets_congr kw vw bs1 bs2 h]

theorem hamap_get_compacted_congr (kw vw : IntWidth) (idx : HAMapIndexer) (page : Nat)
    {l1 l2 : List KV} (h : l1.Perm l2) :
    (idx.add_all l1).get_compacted kw vw page = (idx.add_all l2).get_compacted kw vw page := by
  unfold HAMapIndexer.get_compacted HAMapIndexer.compact_and_store
  by_cases hb : idx.buckets = []
  · rw [add_all_staging l1 idx hb, add_all_staging l2 idx hb]
    simp only [HAMapIndexer.bucket_array, hb, List.isEmpty_nil, Bool.not_true,
      Bool.false_eq_true, if_false, List.length_append, h.length_eq, Option.map_map]
    cases calc_buckets_count
        ((kw.bytes + vw.bytes) * (idx.unsorted_records.length + l2.length) % 2 ^ 64) page with
    | none => simp only [Option.map_none']
    | some nb =>
      simp only [Option.map_some', Function.comp, partition_records, Option.some.injEq]
      have h1 := foldl_emplace_sorted_congr ((nb + 2 ^ 64 - 1) % 2 ^ 64) (List.replicate nb [])
        (h.append_left idx.unsorted_records)
      exact hamap_flush_buckets_congr kw vw _ _ h1
  · rw [add_all_presized l1 idx hb, add_all_presized l2 idx hb]
    have hne : ∀ l : List KV,
        (l.foldl (fun bs p => emplace_back_at bs (p.1 &&& idx.hash_mask) p)
          idx.buckets).isEmpty = false := by
      intro l
      cases hc : l.foldl (fun bs p => emplace_back_at bs (p.1 &&& idx.hash_mask) p) idx.buckets with
      | nil =>
        have := congrArg List.length hc
        simp only [foldl_emplace_length, List.length_nil] at this
        exact absurd (List.length_eq_zero.1 this) hb
      | cons x xs => rfl
    simp only [HAMapIndexer.bucket_array, hne, Bool.not_false, if_true, Option.map_some',
      Option.some.injEq]
    have h1 := foldl_emplace_sorted_congr idx.hash_mask idx.buckets h
    exact hamap_flush_buckets_congr kw vw _ _ h1

theorem ehc_add_all (l : List KV) : ∀ (s : EHCMapIndexer),
    s.add_all l =
      { unsorted_records := s.unsorted_records ++ l
        kmask := l.foldl (fun m p => m ||| p.1) s.kmask } := by
  induction l with
  | nil => intro s; simp [EHCMapIndexer.add_all]
  | cons p ps ih =>
    intro s
    have := ih (s.add p.1 p.2)
    unfold EHCMapIndexer.add_all at this ⊢
    rw [List.foldl_cons, this]
    simp [EHCMapIndexer.add]

theorem kmask_congr (m : Nat) {l1 l2 : List KV} (h : l1.Perm l2) :
    l1.foldl (fun m p => m ||| p.1) m = l2.foldl (fun m p => m ||| p.1) m := by
  apply h.foldl_eq'
  intro x _ y _ z
  simp only [Nat.lor_assoc, Nat.lor_comm x.1 y.1]

theorem ehc_write_index_congr (vw : IntWidth) (kbs : Nat) :
    ∀ (bs1 bs2 : List (List KV)) (offs : Nat), bs1.map sort_bucket = bs2.map sort_bucket →
      EHCMapIndexer.write_index vw kbs offs bs1 = EHCMapIndexer.write_index vw kbs offs bs2 := by
  intro bs1
  induction bs1 with
  | nil =>
    intro bs2 offs h
    cases bs2 with
    | nil => rfl
    | cons b bs => simp at h
  | cons a as ih =>
    intro bs2 offs h
    cases bs2 with
    | nil => simp at h
    | cons b bs =>
      simp only [List.map_cons, List.cons.injEq] at h
      simp only [EHCMapIndexer.write_index, length_eq_of_sort_eq h.1]
      rw [ih bs _ h.2]

theorem ehc_write_buckets_congr (vw : IntWidth) (kbs rsh : Nat) :
    ∀ (bs1 bs2 : List (List KV)), bs1.map sort_bucket = bs2.map sort_bucket →
      EHCMapIndexer.write_buckets vw kbs rsh bs1 = EHCMapIndexer.write_buckets vw kbs rsh bs2 := by
  intro bs1
  induction bs1 with
  | nil =>
    intro bs2 h
    cases bs2 with
    | nil => rfl
    | cons b bs => simp at h
  | cons a as ih =>
    intro bs2 h
    cases bs2 with
    | nil => simp at h
    | cons b bs =>
      simp only [List.map_cons, List.cons.injEq] at h
      simp only [EHCMapIndexer.write_buckets, EHCMapIndexer.flush_bucket,
        EHCMapIndexer.pack_keys, h.1, length_eq_of_sort_eq h.1, isEmpty_eq_of_sort_eq h.1]
      rw [ih bs h.2]

theorem ehc_flush_buckets_congr (kw vw : IntWidth) (kmask : Nat) (bs1 bs2 : List (List KV))
    (h : bs1.map sort_bucket = bs2.map sort_bucket) :
    EHCMapIndexer.flush_buckets kw vw kmask bs1 = EHCMapIndexer.flush_buckets kw vw kmask bs2 := by
  have hlen : bs1.length = bs2.length := by
    have := congrArg List.length h
    simpa using this
  unfold EHCMapIndexer.flush_buckets
  rw [hlen, ehc_write_index_congr vw _ bs1 bs2 _ h, ehc_write_buckets_congr vw _ _ bs1 bs2 h]

theorem ehc_get_compacted_congr (kw vw : IntWidth) (s : EHCMapIndexer) (page : Nat)
    {l1 l2 : List KV} (h : l1.Perm l2) :
    (s.add_all l1).get_compacted kw vw page = (s.add_all l2).get_compacted kw vw page := by
  unfold EHCMapIndexer.get_compacted EHCMapIndexer.compact_and_store
  rw [ehc_add_all l1 s, ehc_add_all l2 s]
  simp only [EHCMapIndexer.bucket_array, List.length_append, h.length_eq, kmask_congr s.kmask h]
  cases calc_buckets_count
      ((kw.bytes + vw.bytes) * (s.unsorted_records.length + l2.length) % 2 ^ 64) page with
  | none => simp only [Option.map_none', Option.none_bind]
  | some nb =>
    simp only [Option.map_some', Option.some_bind, partition_records]
    have h1 := foldl_emplace_sorted_congr ((nb + 2 ^ 64 - 1) % 2 ^ 64) (List.replicate nb [])
      (h.append_left s.unsorted_records)
    exact ehc_flush_buckets_congr kw vw _ _ _ h1

/-- C6 (insertion-order independence).  For every list of pairs `l1` and every permutation
`l2` of it, and every builder configuration (key and value widths, record count and page
size given at construction, page size given to `get_compacted`), the serialised image of a
`HAMapIndexer` (staging mode for `total = 0`, pre-sized mode otherwise) that received `l1`
equals the one of a builder that received `l2`, and likewise for `EHCMapIndexer`; this
includes that the one is defined exactly when the other is. -/
theorem C6_insertion_order_independent (kw vw : IntWidth) (total page0 page : Nat)
    (l1 l2 : List KV) (h : l1.Perm l2) :
    HAMapIndexer.image kw vw total page0 l1 page =
        HAMapIndexer.image kw vw total page0 l2 page ∧
      EHCMapIndexer.image kw vw l1 page = EHCMapIndexer.image kw vw l2 page := by
  constructor
  · unfold HAMapIndexer.image
    cases HAMapIndexer.new kw vw total page0 with
    | none => rfl
    | some idx =>
      simp only [Option.some_bind]
      exact hamap_get_compacted_congr kw vw idx page h
  · exact ehc_get_compacted_congr kw vw EHCMapIndexer.new page h

/-- C6 at a concrete input: a list of three pairs and a rotation of it. -/
theorem C6_witness :
    HAMapIndexer.image .u32 .u32 3 4096 [(5, 7), (2, 9), (4, 1)] 4096 =
        HAMapIndexer.image .u32 .u32 3 4096 [(4, 1), (5, 7), (2, 9)] 4096 ∧
      EHCMapIndexer.image .u32 .u32 [(5, 7), (2, 9), (4, 1)] 4096 =
        EHCMapIndexer.image .u32 .u32 [(4, 1), (5, 7), (2, 9)] 4096 :=
  C6_insertion_order_independent .u32 .u32 3 4096 4096 [(5, 7), (2, 9), (4, 1)]
    [(4, 1), (5, 7), (2, 9)] (by decide)

/-- C7 at a concrete input: the key `6` inserted twice with different values, staging
mode, default page size. -/
theorem C7_witness :
    ∃ img, HAMapIndexer.image .u32 .u32 0 4096 [(6, 7), (2, 9), (6, 1)] 4096 = some img ∧
      ∀ k ∈ [((6 : Nat), (7 : Nat)), (2, 9), (6, 1)].map Prod.fst,
        ∃ v, (k, v) ∈ [((6 : Nat), (7 : Nat)), (2, 9), (6, 1)] ∧
          HAMapSearcher.lookup .u32 .u32 img k = some (some v) :=
  C7_duplicate_keys .u32 .u32 0 4096 4096 [(6, 7), (2, 9), (6, 1)]
    ⟨by decide, by decide, by decide⟩ ⟨by decide, by decide, by decide⟩ (by decide)
    (by decide)
    (fun bs h => by
      have e : HAMapIndexer.built_buckets .u32 .u32 0 4096 [(6, 7), (2, 9), (6, 1)] 4096 =
          some [[(6, 7), (2, 9), (6, 1)], []] := by decide
      rw [e] at h
      cases h
      decide)
    (fun img h => by
      have e : (HAMapIndexer.image .u32 .u32 0 4096 [(6, 7), (2, 9), (6, 1)] 4096).map
          List.length = some 41 := by decide
      rw [h] at e
      simp only [Option.map_some', Option.some.injEq] at e
      omega)

/-! ## Claims on the compressed map: failing inputs -/

/-- C3 (compressed round trip), evaluated at failing inputs.  (a) 64-bit keys, the single
pair `(2^33, 7)`: the reduced key `2^32` is stored in 33 bits, the comparison is made on its
low 32 bits, and `search(2^33)` returns `nullptr`.  (b) 32-bit keys, 64-bit values, the
single pair `(0, 5)`: every key is below the bucket count, so `key_bits_store = 0`,
`get_kcompressed_size` wraps to `2^61`, and the pointer `search(0)` returns lies `2^61`
bytes past the bucket, outside the 26-byte image.  (c) 32-bit keys and values, the pairs
`(0, 5)` and `(1, 6)`: as in (b), and already the word the locate loop loads lies partly
outside the image. -/
theorem C3_compressed_round_trip_fails :
    ((EHCMapIndexer.image .u64 .u64 [(2 ^ 33, 7)] DEFAULT_PAGE_SIZE).bind fun img =>
        HACMapSearcher.lookup .u64 .u64 img (2 ^ 33)) = some none ∧
      ((EHCMapIndexer.image .u32 .u64 [(0, 5)] DEFAULT_PAGE_SIZE).bind fun img =>
        (HACMapSearcher.new .u32 img).bind fun s => HACMapSearcher.search .u32 .u64 s 0) =
          some (some (16 + 2 ^ 61)) ∧
      ((EHCMapIndexer.image .u32 .u64 [(0, 5)] DEFAULT_PAGE_SIZE).map List.length) = some 26 ∧
      ((EHCMapIndexer.image .u32 .u64 [(0, 5)] DEFAULT_PAGE_SIZE).bind fun img =>
        HACMapSearcher.lookup .u32 .u64 img 0) = none ∧
      ((EHCMapIndexer.image .u32 .u32 [(0, 5), (1, 6)] DEFAULT_PAGE_SIZE).bind fun img =>
        HACMapSearcher.lookup .u32 .u32 img 1) = none := by
  refine ⟨by decide, by decide, by decide, by decide, by decide⟩

/-- C4 (compressed miss), evaluated at a failing input: 32-bit keys and values, the single
pair `(2, 7)`.  The key `0` was not inserted, falls into the same bucket, and
`search(0)` returns a pointer to the value `7` instead of `nullptr`: the locate loop ends
with `u = 0`, which the caller reads as a hit at slot `0`. -/
theorem C4_compressed_miss_fails :
    ((EHCMapIndexer.image .u32 .u32 [(2, 7)] DEFAULT_PAGE_SIZE).bind fun img =>
        HACMapSearcher.lookup .u32 .u32 img 0) = some (some 7) ∧
      ((EHCMapIndexer.image .u32 .u32 [(2, 7), (6, 9)] DEFAULT_PAGE_SIZE).bind fun img =>
        HACMapSearcher.lookup .u32 .u32 img 4) = some (some 9) := by
  refine ⟨by decide, by decide⟩

/-- C5 (variant equivalence), evaluated at a failing input: the single pair `(2, 7)` with
32-bit keys and values added to both builders.  For the key `0` the uncompressed searcher
returns `nullptr` and the compressed searcher returns a pointer to `7`. -/
theorem C5_variants_disagree :
    ((HAMapIndexer.image .u32 .u32 0 DEFAULT_PAGE_SIZE [(2, 7)] DEFAULT_PAGE_SIZE).bind
        fun img => HAMapSearcher.lookup .u32 .u32 img 0) = some none ∧
      ((EHCMapIndexer.image .u32 .u32 [(2, 7)] DEFAULT_PAGE_SIZE).bind fun img =>
        HACMapSearcher.lookup .u32 .u32 img 0) = some (some 7) := by
  refine ⟨by decide, by decide⟩

/-! ## Empty and single-element inputs -/

/-- C8 (empty uncompressed image).  A `HAMapIndexer` constructed with unknown count
(`total = 0`), for any key and value width and any page sizes, to which no pair was added,
serialises to exactly one byte, `0x00`. -/
theorem C8_empty_image (kw vw : IntWidth) (page0 page : Nat) :
    HAMapIndexer.image kw vw 0 page0 [] page = some [0] := by
  simp [HAMapIndexer.image, HAMapIndexer.new, calc_buckets_count, HAMapIndexer.add_all,
    HAMapIndexer.get_compacted, HAMapIndexer.compact_and_store, HAMapIndexer.bucket_array,
    partition_records, HAMapIndexer.flush_buckets]

/-- C9 (empty image lookups), evaluated on the one-byte image `[0x00]`: the footer is
parsed as `nbuckets = 2^0 = 1`, so `size()` and `search(k)` load the 8-byte directory entry
`0` from a one-byte image; the load is outside the image for both, for every key. -/
theorem C9_empty_image_reads_outside :
    read_nbuckets [0] = some (1, 0) ∧
      load [0] 0 8 = none ∧
      HAMapSearcher.size [0] = none ∧
      ∀ (kw vw : IntWidth) (k : Nat), HAMapSearcher.lookup kw vw [0] k = none := by
  refine ⟨by decide, by decide, by decide, ?_⟩
  intro kw vw k
  simp [HAMapSearcher.lookup, BucketIndex.new, read_nbuckets, load, le_value,
    HAMapSearcher.search, BucketIndex.get]


theorem calc_single_staging (kw vw : IntWidth) :
    calc_buckets_count ((kw.bytes + vw.bytes) * 1) DEFAULT_PAGE_SIZE = some 2 := by
  cases kw <;> cases vw <;> decide

theorem calc_single_presized (kw vw : IntWidth) :
    calc_buckets_count (sizeof_kv_pair kw vw * 1) DEFAULT_PAGE_SIZE = some 2 := by
  cases kw <;> cases vw <;> decide

theorem sizedFor_single_staging (kw vw : IntWidth) :
    SizedFor ((kw.bytes + vw.bytes) * 1) DEFAULT_PAGE_SIZE := by
  cases kw <;> cases vw <;> exact ⟨by decide, by decide, by decide⟩

theorem sizedFor_single_presized (kw vw : IntWidth) :
    SizedFor (sizeof_kv_pair kw vw * 1) DEFAULT_PAGE_SIZE := by
  cases kw <;> cases vw <;> exact ⟨by decide, by decide, by decide⟩

theorem sizeof_kv_pair_pos (kw vw : IntWidth) : sizeof_kv_pair kw vw * 1 ≠ 0 := by
  cases kw <;> cases vw <;> decide

theorem two_pow_eq_two (n : Nat) (h : some (2 : Nat) = some (2 ^ n)) : n = 1 := by
  have h2 : (2 : Nat) ^ 1 = 2 ^ n := by simpa using h
  exact (Nat.pow_right_injective (le_refl 2) h2).symm

theorem ehc_image_eq (kw vw : IntWidth) (l : List KV) (page : Nat) :
    EHCMapIndexer.image kw vw l page =
      (calc_buckets_count ((kw.bytes + vw.bytes) * l.length % 2 ^ 64) page).bind fun nb =>
        EHCMapIndexer.flush_buckets kw vw (l.foldl (fun m p => m ||| p.1) 0)
          (partition_records nb ((nb + 2 ^ 64 - 1) % 2 ^ 64) l) := by
  unfold EHCMapIndexer.image EHCMapIndexer.get_compacted EHCMapIndexer.compact_and_store
  rw [ehc_add_all]
  simp only [EHCMapIndexer.new, List.nil_append, EHCMapIndexer.bucket_array]
  cases calc_buckets_count ((kw.bytes + vw.bytes) * l.length % 2 ^ 64) page with
  | none => simp only [Option.map_none', Option.none_bind]
  | some nb => simp only [Option.map_some', Option.some_bind]

theorem read_nbuckets_compressed (x : List Nat) (a n : Nat) (hn : n ≤ 31) :
    read_nbuckets (x ++ [a, n ||| 0x80]) = some (2 ^ n, a) := by
  have hat1 : IsAt (x ++ [a, n ||| 0x80]) (x.length + 1) [n ||| 0x80] :=
    ⟨x ++ [a], [], by simp, by simp⟩
  have hat2 : IsAt (x ++ [a, n ||| 0x80]) x.length [a] := ⟨x, [n ||| 0x80], by simp, rfl⟩
  have hload1 := hat1.load_seg
  have hload2 := hat2.load_seg
  rw [le_value_singleton, List.length_singleton] at hload1 hload2
  have hand : (n ||| 0x80) &&& 0x80 ≠ 0 := by
    interval_cases n <;> decide
  have hlow : (n ||| 0x80) &&& 0x7f = n := by
    interval_cases n <;> rfl
  unfold read_nbuckets
  have hlen1 : (x ++ [a, n ||| 0x80]).length - 1 = x.length + 1 := by simp
  have hlen2 : (x ++ [a, n ||| 0x80]).length - 2 = x.length := by simp
  have hlen3 : ¬ (x ++ [a, n ||| 0x80]).length < 2 := by simp
  rw [if_neg (by simp), hlen1, hload1]
  simp only [Option.some_bind]
  rw [if_pos hand, if_neg hlen3, hlen2, hload2]
  simp only [Option.some_bind]
  rw [hlow, if_pos (by omega), Nat.one_shiftLeft]

theorem ehc_write_buckets_some (vw : IntWidth) (kbs rsh : Nat) (hk : kbs < 64) :
    ∀ bs : List (List KV), ∃ payload, EHCMapIndexer.write_buckets vw kbs rsh bs = some payload := by
  intro bs
  induction bs with
  | nil => exact ⟨[], rfl⟩
  | cons b bs ih =>
    obtain ⟨xs, hxs⟩ := ih
    have hfb : ∃ x, EHCMapIndexer.flush_bucket vw b kbs rsh = some x := by
      unfold EHCMapIndexer.flush_bucket
      split
      · rw [if_neg (by omega)]
        exact ⟨_, rfl⟩
      · exact ⟨_, rfl⟩
    obtain ⟨x, hx⟩ := hfb
    exact ⟨x ++ xs, by simp only [EHCMapIndexer.write_buckets, hx, hxs, Option.some_bind,
      Option.map_some']⟩

theorem maxbits_shift_lt (kw : IntWidth) (k : Nat) (hk : k < 2 ^ kw.bits) :
    maxbits (k >>> 1) < 64 := by
  rw [maxbits_eq_sigbits]
  have h64 : k < 2 ^ 64 := by
    refine lt_of_lt_of_le hk ?_
    cases kw <;> norm_num [IntWidth.bits, IntWidth.bytes]
  have : k >>> 1 < 2 ^ 63 := by
    rw [Nat.shiftRight_eq_div_pow]
    omega
  have := sigbits_le_of_lt 64 (k >>> 1) 63 this
  omega

theorem single_pair_buckets_length (m : Nat) (p : KV) :
    (partition_records 2 m [p]).length = 2 := by
  simp [partition_records, emplace_back_at_length]

theorem key_rshift_by_two (kw : IntWidth) : key_rshift_by_of kw (nshift_of 2) = 1 := by
  cases kw <;> decide

theorem getLast?_append_two (x : List Nat) (a b : Nat) : (x ++ [a, b]).getLast? = some b := by
  have : x ++ [a, b] = (x ++ [a]) ++ [b] := by simp
  rw [this, List.getLast?_append]
  simp

/-- C10 as stated fails: for the single pair `(5, 7)` with 32-bit keys and values and the
default page size, the bucket array has two buckets, the footer parses as `nbuckets = 2`,
and the last byte is `1` (uncompressed) resp. `0x81` (compressed), not `B = 1`, `N = 0`. -/
theorem C10_single_pair_not_one_bucket :
    (HAMapIndexer.built_buckets .u32 .u32 0 DEFAULT_PAGE_SIZE [(5, 7)] DEFAULT_PAGE_SIZE).map
        List.length = some 2 ∧
      ((HAMapIndexer.image .u32 .u32 0 DEFAULT_PAGE_SIZE [(5, 7)] DEFAULT_PAGE_SIZE).bind
        read_nbuckets) = some (2, 0) ∧
      ((HAMapIndexer.image .u32 .u32 0 DEFAULT_PAGE_SIZE [(5, 7)] DEFAULT_PAGE_SIZE).bind
        List.getLast?) = some 1 ∧
      ((EHCMapIndexer.image .u32 .u32 [(5, 7)] DEFAULT_PAGE_SIZE).bind read_nbuckets).map
        Prod.fst = some 2 ∧
      ¬ (((HAMapIndexer.image .u32 .u32 0 DEFAULT_PAGE_SIZE [(5, 7)] DEFAULT_PAGE_SIZE).bind
          read_nbuckets).map Prod.fst = some 1 ∧
        ((HAMapIndexer.image .u32 .u32 0 DEFAULT_PAGE_SIZE [(5, 7)] DEFAULT_PAGE_SIZE).bind
          List.getLast?) = some 0) := by
  refine ⟨by decide, by decide, by decide, by decide, by decide⟩

/-- C10 amended.  For an input of exactly one pair `(k, v)` (any key of the key type, any
value, any of the four width combinations, default page size), the sealed image of either
builder has a directory of exactly two buckets: a `HAMapIndexer` in staging mode
(`total = 0`) or pre-sized for one record (`total = 1`) writes an image whose footer byte
is `N = 1` and parses as `nbuckets = 2`, and `EHCMapIndexer` writes an image whose last
byte is `1 | 0x80` and parses as `nbuckets = 2`. -/
theorem C10_single_pair_two_buckets (kw vw : IntWidth) (k v : Nat) (hk : k < 2 ^ kw.bits) :
    (∃ img, HAMapIndexer.image kw vw 0 DEFAULT_PAGE_SIZE [(k, v)] DEFAULT_PAGE_SIZE = some img ∧
        read_nbuckets img = some (2, 0) ∧ img.getLast? = some 1) ∧
      (∃ img, HAMapIndexer.image kw vw 1 DEFAULT_PAGE_SIZE [(k, v)] DEFAULT_PAGE_SIZE = some img ∧
        read_nbuckets img = some (2, 0) ∧ img.getLast? = some 1) ∧
      (∃ img key_bits_store,
        EHCMapIndexer.image kw vw [(k, v)] DEFAULT_PAGE_SIZE = some img ∧
        read_nbuckets img = some (2, key_bits_store) ∧ img.getLast? = some (1 ||| 0x80)) := by
  have hplain : ∀ bs : List (List KV), bs.length = 2 →
      read_nbuckets (HAMapIndexer.flush_buckets kw vw bs) = some (2, 0) ∧
        (HAMapIndexer.flush_buckets kw vw bs).getLast? = some 1 := by
    intro bs hlen
    rw [flush_buckets_eq kw vw 1 bs (by norm_num) (by rw [hlen]; rfl), ← List.append_assoc]
    exact ⟨read_nbuckets_plain _ 1 (by norm_num), by simp⟩
  have hzero : SizedFor (sizeof_kv_pair kw vw * 0) DEFAULT_PAGE_SIZE :=
    ⟨by decide, by norm_num, by norm_num [DEFAULT_PAGE_SIZE]⟩
  refine ⟨?_, ?_, ?_⟩
  · obtain ⟨n, bs, _, _, hcalc, hbs, hpart⟩ := built_buckets_count kw vw 0 DEFAULT_PAGE_SIZE
      DEFAULT_PAGE_SIZE [(k, v)] hzero (sizedFor_single_staging kw vw) (by simp)
    rw [if_pos (Nat.mul_zero _), List.length_singleton, calc_single_staging] at hcalc
    have hn1 := two_pow_eq_two n hcalc
    subst hn1
    refine ⟨HAMapIndexer.flush_buckets kw vw bs, ?_, hplain bs hpart.1⟩
    rw [image_eq_built, hbs, Option.map_some']
  · obtain ⟨n, bs, _, _, hcalc, hbs, hpart⟩ := built_buckets_count kw vw 1 DEFAULT_PAGE_SIZE
      DEFAULT_PAGE_SIZE [(k, v)] (sizedFor_single_presized kw vw)
      (sizedFor_single_staging kw vw) (by simp)
    rw [if_neg (sizeof_kv_pair_pos kw vw), calc_single_presized] at hcalc
    have hn1 := two_pow_eq_two n hcalc
    subst hn1
    refine ⟨HAMapIndexer.flush_buckets kw vw bs, ?_, hplain bs hpart.1⟩
    rw [image_eq_built, hbs, Option.map_some']
  · obtain ⟨payload, hpay⟩ := ehc_write_buckets_some vw (maxbits (k >>> 1)) 1
      (maxbits_shift_lt kw k hk) (partition_records 2 ((2 + 2 ^ 64 - 1) % 2 ^ 64) [(k, v)])
    have hbits : ¬ (1 ≥ kw.bits) := by
      cases kw <;> decide
    have hn : nshift_of 2 = 1 := by decide
    have hw : (kw.bytes + vw.bytes) * 1 % 2 ^ 64 = (kw.bytes + vw.bytes) * 1 := by
      cases kw <;> cases vw <;> decide
    refine ⟨_, maxbits (k >>> 1) % 256, ?_, read_nbuckets_compressed
      (EHCMapIndexer.write_index vw (maxbits (k >>> 1)) (8 * 2 % 2 ^ 64)
        (partition_records 2 ((2 + 2 ^ 64 - 1) % 2 ^ 64) [(k, v)]) ++ payload)
      (maxbits (k >>> 1) % 256) 1 (by norm_num), getLast?_append_two _ _ _⟩
    rw [ehc_image_eq, List.length_singleton, hw, calc_single_staging, Option.some_bind]
    unfold EHCMapIndexer.flush_buckets
    rw [single_pair_buckets_length, key_rshift_by_two, if_neg hbits]
    simp only [List.foldl_cons, List.foldl_nil, Nat.zero_or]
    rw [hpay, Option.map_some', hn, List.append_assoc]

/-- C10 amended, at the pair `(5, 7)` with 64-bit keys and 32-bit values. -/
theorem C10_witness :
    (∃ img, HAMapIndexer.image .u64 .u32 0 DEFAULT_PAGE_SIZE [(5, 7)] DEFAULT_PAGE_SIZE =
        some img ∧ read_nbuckets img = some (2, 0) ∧ img.getLast? = some 1) ∧
      (∃ img, HAMapIndexer.image .u64 .u32 1 DEFAULT_PAGE_SIZE [(5, 7)] DEFAULT_PAGE_SIZE =
        some img ∧ read_nbuckets img = some (2, 0) ∧ img.getLast? = some 1) ∧
      (∃ img key_bits_store,
        EHCMapIndexer.image .u64 .u32 [(5, 7)] DEFAULT_PAGE_SIZE = some img ∧
        read_nbuckets img = some (2, key_bits_store) ∧ img.getLast? = some (1 ||| 0x80)) :=
  C10_single_pair_two_buckets .u64 .u32 5 7 (by decide)

/-! ## The bucket count formula -/

theorem sigbits_lt_two_pow (w v : Nat) (h : v < 2 ^ w) : v < 2 ^ sigbits w v := by
  induction w generalizing v with
  | zero => simpa [sigbits] using h
  | succ w ih =>
    simp only [sigbits]
    split
    · rename_i hv
      rw [hv]
      exact Nat.two_pow_pos _
    · have h2 : v / 2 < 2 ^ w := by
        rw [pow_succ] at h
        omega
      have := ih (v / 2) h2
      rw [pow_succ]
      omega

theorem two_pow_sigbits_le (w v : Nat) (hv : v ≠ 0) : 2 ^ (sigbits w v - 1) ≤ v ∨ w = 0 := by
  induction w generalizing v with
  | zero => exact Or.inr rfl
  | succ w ih =>
    left
    simp only [sigbits, hv, if_false, Nat.add_sub_cancel]
    by_cases h2 : v / 2 = 0
    · rw [h2, sigbits_zero]
      simp only [pow_zero]
      omega
    · cases w with
      | zero =>
        simp only [sigbits, pow_zero]
        omega
      | succ w =>
        rcases ih (v / 2) h2 with h | h
        · have hpos := sigbits_pos w _ h2
          have e : sigbits (w + 1) (v / 2) = (sigbits (w + 1) (v / 2) - 1) + 1 := by omega
          rw [e, pow_succ]
          omega
        · omega

/-- For a non-zero `v` below `2^64`, `maxbits v` is the position of the highest set bit
plus one. -/
theorem maxbits_eq_log2 (v : Nat) (hv : v ≠ 0) (h : v < 2 ^ 64) : maxbits v = Nat.log2 v + 1 := by
  rw [maxbits_eq_sigbits]
  have h1 := sigbits_lt_two_pow 64 v h
  have h2 : 2 ^ (sigbits 64 v - 1) ≤ v := by
    rcases two_pow_sigbits_le 64 v hv with h | h
    · exact h
    · omega
  have hpos := sigbits_pos 63 v hv
  have a : Nat.log2 v < sigbits 64 v := (Nat.log2_lt hv).2 h1
  have b : ¬ Nat.log2 v < sigbits 64 v - 1 := by
    intro hc
    have := (Nat.log2_lt hv).1 hc
    omega
  omega

/-- C11 (bucket count formula).  For every `kv_sz_total > 0` and `page_size >= 1` whose
`ratio = max(1, kv_sz_total / page_size)` is below `2^31`, `calc_buckets_count` returns
`2^(floor(log2 ratio) + 1)`; this is the smallest power of two strictly greater than
`ratio`, and `ratio < B <= 2 * ratio`. -/
theorem C11_bucket_count_formula (kv_sz_total page_size : Nat) (hkv : 0 < kv_sz_total)
    (hp : 1 ≤ page_size) (hr : max 1 (kv_sz_total / page_size) < 2 ^ 31) :
    calc_buckets_count kv_sz_total page_size =
        some (2 ^ (Nat.log2 (max 1 (kv_sz_total / page_size)) + 1)) ∧
      max 1 (kv_sz_total / page_size) < 2 ^ (Nat.log2 (max 1 (kv_sz_total / page_size)) + 1) ∧
      2 ^ (Nat.log2 (max 1 (kv_sz_total / page_size)) + 1) ≤
        2 * max 1 (kv_sz_total / page_size) ∧
      ∀ m, max 1 (kv_sz_total / page_size) < 2 ^ m →
        2 ^ (Nat.log2 (max 1 (kv_sz_total / page_size)) + 1) ≤ 2 ^ m := by
  have hratio : (if kv_sz_total > page_size then
        (if page_size = 0 then none else some (kv_sz_total / page_size))
      else some 1) = some (max 1 (kv_sz_total / page_size)) := by
    by_cases hgt : kv_sz_total > page_size
    · rw [if_pos hgt, if_neg (by omega)]
      have : 1 ≤ kv_sz_total / page_size := (Nat.one_le_div_iff hp).2 (Nat.le_of_lt hgt)
      rw [Nat.max_eq_right this]
    · rw [if_neg hgt]
      have : kv_sz_total / page_size ≤ 1 := by
        rcases Nat.lt_or_ge kv_sz_total page_size with h | h
        · rw [Nat.div_eq_of_lt h]
          omega
        · have e : kv_sz_total = page_size := by omega
          rw [e, Nat.div_self hp]
      rw [Nat.max_eq_left this]
  generalize max 1 (kv_sz_total / page_size) = r at hr hratio ⊢
  have hr0 : r ≠ 0 := by
    intro hc
    subst hc
    by_cases hgt : kv_sz_total > page_size
    · rw [if_pos hgt, if_neg (by omega)] at hratio
      have : 1 ≤ kv_sz_total / page_size := (Nat.one_le_div_iff hp).2 (Nat.le_of_lt hgt)
      simp only [Option.some.injEq] at hratio
      omega
    · rw [if_neg hgt] at hratio
      simp at hratio
  have hmb := maxbits_eq_log2 r hr0 (lt_trans hr (by norm_num))
  have hclz : 64 - clzl r = Nat.log2 r + 1 := by
    rw [← hmb]
    unfold maxbits
    rw [if_neg hr0]
  have hlog : Nat.log2 r < 31 := (Nat.log2_lt hr0).2 hr
  refine ⟨?_, Nat.lt_log2_self, ?_, ?_⟩
  · unfold calc_buckets_count
    rw [if_pos (by omega), hratio]
    simp only [Option.some_bind]
    rw [hclz, if_pos (by omega), Nat.one_shiftLeft]
  · have := Nat.log2_self_le hr0
    rw [pow_succ]
    omega
  · intro m hm
    have : Nat.log2 r < m := (Nat.log2_lt hr0).2 hm
    exact Nat.pow_le_pow_right (by decide) this

/-- C11 at `kv_sz_total = 400656` (50082 pairs of 8 bytes) and the default page size:
`ratio = 97`, `B = 128`. -/
theorem C11_witness :
    calc_buckets_count 400656 4096 = some (2 ^ (Nat.log2 (max 1 (400656 / 4096)) + 1)) ∧
      max 1 (400656 / 4096) < 2 ^ (Nat.log2 (max 1 (400656 / 4096)) + 1) ∧
      2 ^ (Nat.log2 (max 1 (400656 / 4096)) + 1) ≤ 2 * max 1 (400656 / 4096) ∧
      ∀ m, max 1 (400656 / 4096) < 2 ^ m →
        2 ^ (Nat.log2 (max 1 (400656 / 4096)) + 1) ≤ 2 ^ m :=
  C11_bucket_count_formula 400656 4096 (by decide) (by decide) (by decide)

/-! ## Footer parsing and entry packing -/

set_option maxRecDepth 100000 in
theorem byte_plain (f : Nat) : f < 256 → f &&& 0x80 = 0 → f &&& 0x7f = f := by
  revert f
  decide

/-- C13 (footer parsing).  Let the last byte of the image be `f` with `N = f & 0x7F < 64`.
If `f & 0x80` is clear, `read_nbuckets` returns `nbuckets = 2^N` and `key_bits_store = 0`
whatever the bytes `x` before `f` are; if it is set and the image has a byte `a` before
`f`, it returns `nbuckets = 2^N` and `key_bits_store = a` whatever the bytes `y` before `a`
are. -/
theorem C13_footer_parsing (f : Nat) (hf : f < 256) (hN : f &&& 0x7f < 64) :
    (f &&& 0x80 = 0 → ∀ x : List Nat, read_nbuckets (x ++ [f]) = some (2 ^ (f &&& 0x7f), 0)) ∧
      (f &&& 0x80 ≠ 0 → ∀ (y : List Nat) (a : Nat),
        read_nbuckets (y ++ [a, f]) = some (2 ^ (f &&& 0x7f), a)) := by
  constructor
  · intro hclear x
    have hat : IsAt (x ++ [f]) x.length [f] := ⟨x, [], by simp, rfl⟩
    have hload := hat.load_seg
    rw [le_value_singleton, List.length_singleton] at hload
    have hlen : (x ++ [f]).length - 1 = x.length := by simp
    have hlow := byte_plain f hf hclear
    unfold read_nbuckets
    rw [if_neg (by simp), hlen, hload]
    simp only [Option.some_bind]
    rw [if_neg (by simpa using hclear), if_pos (by omega), Nat.one_shiftLeft, hlow]
  · intro hset y a
    have hat1 : IsAt (y ++ [a, f]) (y.length + 1) [f] := ⟨y ++ [a], [], by simp, by simp⟩
    have hat2 : IsAt (y ++ [a, f]) y.length [a] := ⟨y, [f], by simp, rfl⟩
    have hload1 := hat1.load_seg
    have hload2 := hat2.load_seg
    rw [le_value_singleton, List.length_singleton] at hload1 hload2
    have hlen1 : (y ++ [a, f]).length - 1 = y.length + 1 := by simp
    have hlen2 : (y ++ [a, f]).length - 2 = y.length := by simp
    have hlen3 : ¬ (y ++ [a, f]).length < 2 := by simp
    unfold read_nbuckets
    rw [if_neg (by simp), hlen1, hload1]
    simp only [Option.some_bind]
    rw [if_pos hset, if_neg hlen3, hlen2, hload2]
    simp only [Option.some_bind]
    rw [if_pos hN, Nat.one_shiftLeft]

/-- C13 at the footer byte `0x85` (compressed flag set, `N = 5`). -/
theorem C13_witness :
    (0x85 &&& 0x80 = 0 → ∀ x : List Nat,
        read_nbuckets (x ++ [0x85]) = some (2 ^ (0x85 &&& 0x7f), 0)) ∧
      (0x85 &&& 0x80 ≠ 0 → ∀ (y : List Nat) (a : Nat),
        read_nbuckets (y ++ [a, 0x85]) = some (2 ^ (0x85 &&& 0x7f), a)) :=
  C13_footer_parsing 0x85 (by decide) (by decide)

theorem word_lt (offset nkeys : Nat) : BucketEntry.word offset nkeys < 2 ^ 64 := by
  unfold BucketEntry.word
  have h1 : offset % 2 ^ 43 < 2 ^ 43 := Nat.mod_lt _ (by norm_num)
  have h2 : nkeys % 2 ^ 21 < 2 ^ 21 := Nat.mod_lt _ (by norm_num)
  norm_num at h1 h2 ⊢
  omega

theorem ofWord_word (offset nkeys : Nat) :
    BucketEntry.ofWord (BucketEntry.word offset nkeys) =
      { offset := offset % 2 ^ 43, nkeys := nkeys % 2 ^ 21 } := by
  unfold BucketEntry.ofWord BucketEntry.word
  have h1 : offset % 2 ^ 43 < 2 ^ 43 := Nat.mod_lt _ (by norm_num)
  have h2 : nkeys % 2 ^ 21 < 2 ^ 21 := Nat.mod_lt _ (by norm_num)
  generalize offset % 2 ^ 43 = o at h1
  generalize nkeys % 2 ^ 21 = k at h2
  congr 1
  · norm_num at h1 h2 ⊢
    omega
  · norm_num at h1 h2 ⊢
    omega

/-- C16 (BucketEntry packing).  The 8 bytes written for `BucketEntry{offset, nkeys}` are the
little-endian bytes of a 64-bit word; reading an entry back from these bytes (anywhere in
an image) gives `(offset mod 2^43, nkeys mod 2^21)`; and for `offset < 2^43`,
`nkeys < 2^21` the word is `offset + nkeys * 2^43` and the entry read back is exactly
`(offset, nkeys)`. -/
theorem C16_bucket_entry_packing (offset nkeys : Nat) :
    (le_bytes 8 (BucketEntry.word offset nkeys)).length = 8 ∧
      (∀ (pre post : List Nat) (i : Nat), pre.length = 8 * i →
        BucketIndex.get
            { data := pre ++ (le_bytes 8 (BucketEntry.word offset nkeys) ++ post)
              nbuckets := 0, key_bits_store := 0 } i =
          some { offset := offset % 2 ^ 43, nkeys := nkeys % 2 ^ 21 }) ∧
      (offset < 2 ^ 43 → nkeys < 2 ^ 21 →
        le_value (le_bytes 8 (BucketEntry.word offset nkeys)) = offset + nkeys * 2 ^ 43 ∧
        BucketEntry.ofWord (le_value (le_bytes 8 (BucketEntry.word offset nkeys))) =
          { offset := offset, nkeys := nkeys }) := by
  have hw : BucketEntry.word offset nkeys % 256 ^ 8 = BucketEntry.word offset nkeys :=
    Nat.mod_eq_of_lt (by
      have := word_lt offset nkeys
      norm_num at this ⊢
      exact this)
  refine ⟨le_bytes_length _ _, ?_, ?_⟩
  · intro pre post i hpre
    have hat : IsAt (pre ++ (le_bytes 8 (BucketEntry.word offset nkeys) ++ post)) (8 * i)
        (le_bytes 8 (BucketEntry.word offset nkeys)) := ⟨pre, post, rfl, hpre⟩
    unfold BucketIndex.get
    simp only
    rw [hat.load_int, hw, Option.map_some', ofWord_word]
  · intro ho hk
    rw [le_value_le_bytes, hw, ofWord_word, Nat.mod_eq_of_lt ho, Nat.mod_eq_of_lt hk]
    refine ⟨?_, rfl⟩
    unfold BucketEntry.word
    rw [Nat.mod_eq_of_lt ho, Nat.mod_eq_of_lt hk, Nat.mul_comm]


/-! ## The serialised bucket array, pre-sized or staged -/

/-- As `built_buckets_count`, for every build with at least one bucket: a builder
pre-sized for `total > 0` records (with or without records added) or a staging builder
with at least one record. -/
theorem built_buckets_nonempty (kw vw : IntWidth) (total page0 page : Nat) (l : List KV)
    (h0 : SizedFor (sizeof_kv_pair kw vw * total) page0)
    (h1 : SizedFor ((kw.bytes + vw.bytes) * l.length) page) (hB : total ≠ 0 ∨ l ≠ []) :
    ∃ n bs, 1 ≤ n ∧ n ≤ 31 ∧
      HAMapIndexer.built_buckets kw vw total page0 l page = some bs ∧ Partitioned l n bs := by
  by_cases hne : l = []
  · have ht : total ≠ 0 := by
      rcases hB with h | h
      · exact h
      · exact absurd hne h
    have hz : sizeof_kv_pair kw vw * total ≠ 0 := by
      have : 0 < sizeof_kv_pair kw vw := by cases kw <;> cases vw <;> decide
      exact Nat.ne_of_gt (Nat.mul_pos this (Nat.pos_of_ne_zero ht))
    obtain ⟨hp0, hw0, hr0⟩ := h0
    obtain ⟨n, hn1, hn2, hcalc⟩ := calc_buckets_count_spec _ page0 hz hp0 hr0
    have hpos : (2 : Nat) ^ n ≠ 0 := by positivity
    refine ⟨n, List.replicate (2 ^ n) [], hn1, hn2, ?_, ?_⟩
    · subst hne
      unfold HAMapIndexer.built_buckets HAMapIndexer.new
      rw [Nat.mod_eq_of_lt hw0, hcalc]
      simp only [Option.map_some', Option.some_bind, HAMapIndexer.add_all, List.foldl_nil,
        HAMapIndexer.bucket_array]
      rw [if_pos]
      cases hc : List.replicate (2 ^ n) ([] : List KV) with
      | nil =>
        have := congrArg List.length hc
        simp only [List.length_replicate, List.length_nil] at this
        exact absurd this hpos
      | cons x xs => rfl
    · subst hne
      exact partition_spec [] n
  · exact built_buckets_spec kw vw total page0 page l h0 h1 hne

theorem image_of_built (kw vw : IntWidth) (total page0 page : Nat) (l : List KV)
    (bs : List (List KV))
    (h : HAMapIndexer.built_buckets kw vw total page0 l page = some bs) :
    HAMapIndexer.image kw vw total page0 l page = some (HAMapIndexer.flush_buckets kw vw bs) := by
  rw [image_eq_built, h, Option.map_some']

theorem sum_lengths_emplace (bs : List (List KV)) (i : Nat) (p : KV) (hi : i < bs.length) :
    ((emplace_back_at bs i p).map List.length).sum = (bs.map List.length).sum + 1 := by
  induction bs generalizing i with
  | nil => simp at hi
  | cons b bs ih =>
    cases i with
    | zero =>
      simp only [emplace_back_at, List.map_cons, List.sum_cons, List.length_append,
        List.length_singleton]
      omega
    | succ i =>
      have hi2 : i < bs.length := by simpa using hi
      simp only [emplace_back_at, List.map_cons, List.sum_cons, ih i hi2]
      omega

theorem sum_lengths_foldl (m : Nat) (l : List KV) : ∀ (init : List (List KV)),
    (∀ p ∈ l, p.1 &&& m < init.length) →
    ((l.foldl (fun bs p => emplace_back_at bs (p.1 &&& m) p) init).map List.length).sum =
      (init.map List.length).sum + l.length := by
  induction l with
  | nil => intro init _; simp
  | cons p ps ih =>
    intro init h
    rw [List.foldl_cons, ih]
    · rw [sum_lengths_emplace init _ p (h p (List.mem_cons_self _ _)), List.length_cons]
      omega
    · intro q hq
      rw [emplace_back_at_length]
      exact h q (List.mem_cons_of_mem _ hq)

theorem partitioned_unique (l : List KV) (n : Nat) (a b : List (List KV))
    (ha : Partitioned l n a) (hb : Partitioned l n b) : a = b := by
  apply List.ext_getElem?
  intro j
  by_cases hj : j < 2 ^ n
  · rw [ha.2 j hj, hb.2 j hj]
  · rw [List.getElem?_eq_none (by rw [ha.1]; omega), List.getElem?_eq_none (by rw [hb.1]; omega)]

theorem and_mask_lt (k n : Nat) : k &&& (2 ^ n - 1) < 2 ^ n := by
  rw [Nat.and_pow_two_sub_one_eq_mod]
  exact Nat.mod_lt _ (Nat.two_pow_pos n)

/-- The buckets of a partitioned array hold as many pairs as were inserted. -/
theorem partitioned_sum (l : List KV) (n : Nat) (bs : List (List KV))
    (h : Partitioned l n bs) : (bs.map List.length).sum = l.length := by
  rw [partitioned_unique l n bs _ h (partition_spec l n), sum_lengths_foldl]
  · simp
  · intro p _
    rw [List.length_replicate]
    exact and_mask_lt _ _

theorem write_buckets_length (kw vw : IntWidth) (bs : List (List KV)) :
    (HAMapIndexer.write_buckets kw vw bs).length =
      (bs.map (fun b => b.length * (kw.bytes + vw.bytes))).sum := by
  induction bs with
  | nil => rfl
  | cons b bs ih =>
    simp only [HAMapIndexer.write_buckets, List.length_append, flush_bucket_length, ih,
      List.map_cons, List.sum_cons]

theorem sum_bucket_bytes (w : Nat) (bs : List (List KV)) :
    (bs.map (fun b => b.length * w)).sum = w * (bs.map List.length).sum := by
  induction bs with
  | nil => simp
  | cons b bs ih =>
    simp only [List.map_cons, List.sum_cons, ih]
    ring

/-- C14 (uncompressed footer).  For every defined `HAMapIndexer` serialisation with at
least one bucket (a builder pre-sized for `total > 0` records, or a staging builder with at
least one record), the bucket count is `B = 2^n` with `n = log2(B)`, the image is the
`8 * B` directory bytes, the bucket payloads (one key and one value per record), and then
exactly one footer byte whose value is `n`, with the bit `0x80` clear; `read_nbuckets` on
the image returns `nbuckets = B` (and `key_bits_store = 0`). -/
theorem C14_uncompressed_footer (kw vw : IntWidth) (total page0 page : Nat) (l : List KV)
    (h0 : SizedFor (sizeof_kv_pair kw vw * total) page0)
    (h1 : SizedFor ((kw.bytes + vw.bytes) * l.length) page) (hB : total ≠ 0 ∨ l ≠ []) :
    ∃ bs img, HAMapIndexer.built_buckets kw vw total page0 l page = some bs ∧
      0 < bs.length ∧ 2 ^ Nat.log2 bs.length = bs.length ∧
      HAMapIndexer.image kw vw total page0 l page = some img ∧
      img = HAMapIndexer.write_index kw vw (8 * bs.length) bs ++
        HAMapIndexer.write_buckets kw vw bs ++ [Nat.log2 bs.length] ∧
      img.length = 8 * bs.length + (kw.bytes + vw.bytes) * l.length + 1 ∧
      img.getLast? = some (Nat.log2 bs.length) ∧
      Nat.log2 bs.length &&& 0x80 = 0 ∧
      read_nbuckets img = some (bs.length, 0) := by
  obtain ⟨n, bs, _, hn, hbs, hpart⟩ := built_buckets_nonempty kw vw total page0 page l h0 h1 hB
  have hlen := hpart.1
  have hlog : Nat.log2 bs.length = n := by rw [hlen, Nat.log2_two_pow]
  have himg := flush_buckets_eq kw vw n bs hn hlen
  refine ⟨bs, _, hbs, ?_, ?_, image_of_built kw vw total page0 page l bs hbs, ?_, ?_, ?_, ?_, ?_⟩
  · rw [hlen]
    exact Nat.two_pow_pos n
  · rw [hlog, hlen]
  · rw [himg, hlog, List.append_assoc]
  · rw [himg]
    simp only [List.length_append, write_index_length, write_buckets_length,
      List.length_singleton, sum_bucket_bytes, partitioned_sum l n bs hpart]
    omega
  · rw [himg, hlog, ← List.append_assoc, List.getLast?_concat]
  · rw [hlog]
    interval_cases n <;> rfl
  · rw [himg, ← List.append_assoc, read_nbuckets_plain _ n hn, hlen]

/-- C14 at a concrete input: three pairs, staging mode, default page size. -/
theorem C14_witness :
    ∃ bs img, HAMapIndexer.built_buckets .u32 .u32 0 4096 [(5, 7), (2, 9), (4, 1)] 4096 =
        some bs ∧
      0 < bs.length ∧ 2 ^ Nat.log2 bs.length = bs.length ∧
      HAMapIndexer.image .u32 .u32 0 4096 [(5, 7), (2, 9), (4, 1)] 4096 = some img ∧
      img = HAMapIndexer.write_index .u32 .u32 (8 * bs.length) bs ++
        HAMapIndexer.write_buckets .u32 .u32 bs ++ [Nat.log2 bs.length] ∧
      img.length = 8 * bs.length + (IntWidth.u32.bytes + IntWidth.u32.bytes) *
        [((5 : Nat), (7 : Nat)), (2, 9), (4, 1)].length + 1 ∧
      img.getLast? = some (Nat.log2 bs.length) ∧
      Nat.log2 bs.length &&& 0x80 = 0 ∧
      read_nbuckets img = some (bs.length, 0) :=
  C14_uncompressed_footer .u32 .u32 0 4096 4096 [(5, 7), (2, 9), (4, 1)]
    ⟨by decide, by decide, by decide⟩ ⟨by decide, by decide, by decide⟩ (Or.inr (by decide))

/-! ## The partition invariant -/

theorem ehc_bucket_array_eq (kw vw : IntWidth) (l : List KV) (page : Nat) :
    (EHCMapIndexer.new.add_all l).bucket_array kw vw page =
      (calc_buckets_count ((kw.bytes + vw.bytes) * l.length % 2 ^ 64) page).map fun nb =>
        partition_records nb ((nb + 2 ^ 64 - 1) % 2 ^ 64) l := by
  rw [ehc_add_all]
  simp only [EHCMapIndexer.new, List.nil_append, EHCMapIndexer.bucket_array]

/-- The compressed builder partitions a non-empty staging list over `2^n` buckets,
`1 <= n <= 31`. -/
theorem ehc_bucket_array_spec (kw vw : IntWidth) (l : List KV) (page : Nat)
    (h1 : SizedFor ((kw.bytes + vw.bytes) * l.length) page) (hne : l ≠ []) :
    ∃ n, 1 ≤ n ∧ n ≤ 31 ∧
      calc_buckets_count ((kw.bytes + vw.bytes) * l.length % 2 ^ 64) page = some (2 ^ n) ∧
      (EHCMapIndexer.new.add_all l).bucket_array kw vw page =
        some (partition_records (2 ^ n) ((2 ^ n + 2 ^ 64 - 1) % 2 ^ 64) l) ∧
      Partitioned l n (partition_records (2 ^ n) ((2 ^ n + 2 ^ 64 - 1) % 2 ^ 64) l) := by
  obtain ⟨hp1, hw1, hr1⟩ := h1
  have hlen : 0 < l.length := List.length_pos.2 hne
  have hb := bytes_pos kw vw
  have hkv : (kw.bytes + vw.bytes) * l.length ≠ 0 := by
    have := Nat.mul_pos (by omega : 0 < kw.bytes + vw.bytes) hlen
    omega
  obtain ⟨n, hn1, hn2, hcalc⟩ := calc_buckets_count_spec _ page hkv hp1 hr1
  refine ⟨n, hn1, hn2, ?_, ?_, ?_⟩
  · rw [Nat.mod_eq_of_lt hw1, hcalc]
  · rw [ehc_bucket_array_eq, Nat.mod_eq_of_lt hw1, hcalc, Option.map_some']
  · rw [size_t_pred n hn2]
    exact partition_spec l n

theorem partitioned_invariant (l : List KV) (n : Nat) (bs : List (List KV))
    (h : Partitioned l n bs) :
    (∀ p ∈ l, p.1 &&& (bs.length - 1) < bs.length) ∧
      ∀ i, i < bs.length →
        bs[i]? = some (l.filter (fun p => decide (p.1 &&& (bs.length - 1) = i))) := by
  rw [h.1]
  exact ⟨fun p _ => and_mask_lt _ _, h.2⟩

/-- C19 (partition invariant).  In the bucket array a `HAMapIndexer` serialises
(pre-sized buckets filled by `add` for `total > 0`, buckets partitioned from the staging
list for `total = 0`) and in the one `EHCMapIndexer` serialises, with `B` the number of
buckets: the index `k & (B - 1)` of every inserted pair is below `B`, and bucket `i` holds
exactly the inserted pairs whose key satisfies `k & (B - 1) = i`, in insertion order and
with their multiplicity; so each pair is stored in bucket `k & (B - 1)` and in no other. -/
theorem C19_partition_invariant (kw vw : IntWidth) (total page0 page : Nat) (l : List KV)
    (h0 : SizedFor (sizeof_kv_pair kw vw * total) page0)
    (h1 : SizedFor ((kw.bytes + vw.bytes) * l.length) page) :
    (∃ bs, HAMapIndexer.built_buckets kw vw total page0 l page = some bs ∧
        (∀ p ∈ l, p.1 &&& (bs.length - 1) < bs.length) ∧
        ∀ i, i < bs.length →
          bs[i]? = some (l.filter (fun p => decide (p.1 &&& (bs.length - 1) = i)))) ∧
      (∃ bs, (EHCMapIndexer.new.add_all l).bucket_array kw vw page = some bs ∧
        (∀ p ∈ l, p.1 &&& (bs.length - 1) < bs.length) ∧
        ∀ i, i < bs.length →
          bs[i]? = some (l.filter (fun p => decide (p.1 &&& (bs.length - 1) = i)))) := by
  constructor
  · by_cases hB : total ≠ 0 ∨ l ≠ []
    · obtain ⟨n, bs, _, _, hbs, hpart⟩ :=
        built_buckets_nonempty kw vw total page0 page l h0 h1 hB
      exact ⟨bs, hbs, partitioned_invariant l n bs hpart⟩
    · have ht : total = 0 := by
        by_contra hc
        exact hB (Or.inl hc)
      have hl : l = [] := by
        by_contra hc
        exact hB (Or.inr hc)
      subst ht
      subst hl
      refine ⟨[], ?_, ?_, ?_⟩
      · simp [HAMapIndexer.built_buckets, HAMapIndexer.new, calc_buckets_count,
          HAMapIndexer.add_all, HAMapIndexer.bucket_array, partition_records]
      · intro p hp
        simp at hp
      · intro i hi
        simp at hi
  · by_cases hne : l = []
    · subst hne
      refine ⟨[], ?_, ?_, ?_⟩
      · simp [ehc_bucket_array_eq, calc_buckets_count, partition_records]
      · intro p hp
        simp at hp
      · intro i hi
        simp at hi
    · obtain ⟨n, _, _, _, hbs, hpart⟩ := ehc_bucket_array_spec kw vw l page h1 hne
      exact ⟨_, hbs, partitioned_invariant l n _ hpart⟩

/-- C19 at a concrete input: three pairs added to a builder pre-sized for three records
and to a compressed builder. -/
theorem C19_witness :
    (∃ bs, HAMapIndexer.built_buckets .u32 .u32 3 4096 [(5, 7), (2, 9), (4, 1)] 4096 = some bs ∧
        (∀ p ∈ [((5 : Nat), (7 : Nat)), (2, 9), (4, 1)], p.1 &&& (bs.length - 1) < bs.length) ∧
        ∀ i, i < bs.length →
          bs[i]? = some ([((5 : Nat), (7 : Nat)), (2, 9), (4, 1)].filter
            (fun p => decide (p.1 &&& (bs.length - 1) = i)))) ∧
      (∃ bs, (EHCMapIndexer.new.add_all [(5, 7), (2, 9), (4, 1)]).bucket_array .u32 .u32 4096 =
          some bs ∧
        (∀ p ∈ [((5 : Nat), (7 : Nat)), (2, 9), (4, 1)], p.1 &&& (bs.length - 1) < bs.length) ∧
        ∀ i, i < bs.length →
          bs[i]? = some ([((5 : Nat), (7 : Nat)), (2, 9), (4, 1)].filter
            (fun p => decide (p.1 &&& (bs.length - 1) = i)))) :=
  C19_partition_invariant .u32 .u32 3 4096 4096 [(5, 7), (2, 9), (4, 1)]
    ⟨by decide, by decide, by decide⟩ ⟨by decide, by decide, by decide⟩


/-! ## Directory offsets and bucket payloads of the uncompressed image -/

/-- Directory entry `i` of the image and the payload it points to, with the offset written
out: `8 * B` plus the payload bytes of the buckets before `i`. -/
theorem image_layout (kw vw : IntWidth) (n : Nat) (bs : List (List KV)) (hn : n ≤ 31)
    (hlen : bs.length = 2 ^ n) (hsmall : ∀ b ∈ bs, b.length < 2 ^ 21)
    (himg : (HAMapIndexer.flush_buckets kw vw bs).length < 2 ^ 43) (i : Nat)
    (hi : i < bs.length) :
    BucketIndex.get
        { data := HAMapIndexer.flush_buckets kw vw bs, nbuckets := bs.length,
          key_bits_store := 0 } i =
      some { offset := 8 * bs.length +
               ((bs.take i).map (fun b => b.length * (kw.bytes + vw.bytes))).sum
             nkeys := bs[i].length } ∧
    IsAt (HAMapIndexer.flush_buckets kw vw bs)
      (8 * bs.length + ((bs.take i).map (fun b => b.length * (kw.bytes + vw.bytes))).sum)
      (HAMapIndexer.flush_bucket kw vw bs[i]) := by
  have himg_eq := flush_buckets_eq kw vw n bs hn hlen
  rw [himg_eq] at himg ⊢
  simp only [List.length_append, write_index_length, List.length_singleton] at himg
  have htake := write_buckets_take_le kw vw bs i
  have hsm : bs[i].length < 2 ^ 21 := hsmall _ (List.getElem_mem hi)
  rw [← write_buckets_length]
  constructor
  · have h1 := write_index_isAt kw vw bs (8 * bs.length) i hi
      (fun b hb => lt_trans (hsmall b hb) (by norm_num)) (by omega)
    have h2 := (h1.append_right (HAMapIndexer.write_buckets kw vw bs ++ [n])).load_int
    unfold BucketIndex.get
    simp only
    rw [h2, Option.map_some', word_ofWord _ _ (by omega) hsm]
  · have h1 := ((write_buckets_isAt kw vw bs i hi).append_right [n]).append_left
      (HAMapIndexer.write_index kw vw (8 * bs.length) bs)
    rwa [write_index_length] at h1

/-- The loads of the keys and values of a bucket block `keys ++ values` found at `off`. -/
theorem payload_loads (kw vw : IntWidth) (img : List Nat) (off : Nat) (s : List KV)
    (hat : IsAt img off
      (write_range kw.bytes Prod.fst s ++ write_range vw.bytes Prod.snd s))
    (hty : ∀ p ∈ s, p.1 < 2 ^ kw.bits ∧ p.2 < 2 ^ vw.bits) (j : Nat) (hj : j < s.length) :
    load img (off + kw.bytes * j) kw.bytes = some (s[j]).1 ∧
      load img (off + kw.bytes * s.length + vw.bytes * j) vw.bytes = some (s[j]).2 := by
  obtain ⟨hk, hv⟩ := hty _ (List.getElem_mem hj)
  constructor
  · have h1 := (write_range_isAt kw.bytes Prod.fst s j hj).append_right
      (write_range vw.bytes Prod.snd s)
    have h2 := (hat.inner h1).load_int
    rw [IntWidth.pow_bytes, Nat.mod_eq_of_lt hk] at h2
    exact h2
  · have h1 := (write_range_isAt vw.bytes Prod.snd s j hj).append_left
      (write_range kw.bytes Prod.fst s)
    rw [write_range_length] at h1
    have h2 := (hat.inner h1).load_int
    rw [IntWidth.pow_bytes, Nat.mod_eq_of_lt hv] at h2
    rw [← h2, Nat.add_assoc]

/-- C17 (uncompressed directory offsets).  For every defined `HAMapIndexer` serialisation
with `B > 0` buckets, every bucket below `2^21` pairs and the image below `2^43` bytes: the
image starts with the `8 * B` bytes of the directory, and the entry the searcher reads at
index `i` is `(8 * B + sum over j < i of nkeys_j * (sizeof(K) + sizeof(V)), nkeys_i)`,
where `nkeys_j` is the size of bucket `j`; the payload of bucket `i` occupies the image
from exactly that byte offset on. -/
theorem C17_directory_offsets (kw vw : IntWidth) (total page0 page : Nat) (l : List KV)
    (h0 : SizedFor (sizeof_kv_pair kw vw * total) page0)
    (h1 : SizedFor ((kw.bytes + vw.bytes) * l.length) page) (hB : total ≠ 0 ∨ l ≠ [])
    (hsmall : ∀ bs, HAMapIndexer.built_buckets kw vw total page0 l page = some bs →
      ∀ b ∈ bs, b.length < 2 ^ 21)
    (himg : ∀ img, HAMapIndexer.image kw vw total page0 l page = some img →
      img.length < 2 ^ 43) :
    ∃ bs img, HAMapIndexer.built_buckets kw vw total page0 l page = some bs ∧
      HAMapIndexer.image kw vw total page0 l page = some img ∧
      0 < bs.length ∧
      (∃ rest, img = HAMapIndexer.write_index kw vw (8 * bs.length) bs ++ rest) ∧
      (HAMapIndexer.write_index kw vw (8 * bs.length) bs).length = 8 * bs.length ∧
      ∀ i (hi : i < bs.length),
        BucketIndex.get { data := img, nbuckets := bs.length, key_bits_store := 0 } i =
          some { offset := 8 * bs.length +
                   ((bs.take i).map (fun b => b.length * (kw.bytes + vw.bytes))).sum
                 nkeys := bs[i].length } ∧
        IsAt img
          (8 * bs.length + ((bs.take i).map (fun b => b.length * (kw.bytes + vw.bytes))).sum)
          (HAMapIndexer.flush_bucket kw vw bs[i]) := by
  obtain ⟨n, bs, _, hn, hbs, hpart⟩ := built_buckets_nonempty kw vw total page0 page l h0 h1 hB
  have himage := image_of_built kw vw total page0 page l bs hbs
  refine ⟨bs, _, hbs, himage, ?_, ?_, write_index_length _ _ _ _, ?_⟩
  · rw [hpart.1]
    exact Nat.two_pow_pos n
  · exact ⟨_, flush_buckets_eq kw vw n bs hn hpart.1⟩
  · intro i hi
    exact image_layout kw vw n bs hn hpart.1 (hsmall bs hbs) (himg _ himage) i hi

/-- C17 at a concrete input: three pairs, 32-bit keys, 64-bit values, staging mode. -/
theorem C17_witness :
    ∃ bs img, HAMapIndexer.built_buckets .u32 .u64 0 4096 [(5, 7), (2, 9), (4, 1)] 4096 =
        some bs ∧
      HAMapIndexer.image .u32 .u64 0 4096 [(5, 7), (2, 9), (4, 1)] 4096 = some img ∧
      0 < bs.length ∧
      (∃ rest, img = HAMapIndexer.write_index .u32 .u64 (8 * bs.length) bs ++ rest) ∧
      (HAMapIndexer.write_index .u32 .u64 (8 * bs.length) bs).length = 8 * bs.length ∧
      ∀ i (hi : i < bs.length),
        BucketIndex.get { data := img, nbuckets := bs.length, key_bits_store := 0 } i =
          some { offset := 8 * bs.length +
                   ((bs.take i).map
                     (fun b => b.length * (IntWidth.u32.bytes + IntWidth.u64.bytes))).sum
                 nkeys := bs[i].length } ∧
        IsAt img
          (8 * bs.length + ((bs.take i).map
            (fun b => b.length * (IntWidth.u32.bytes + IntWidth.u64.bytes))).sum)
          (HAMapIndexer.flush_bucket .u32 .u64 bs[i]) :=
  C17_directory_offsets .u32 .u64 0 4096 4096 [(5, 7), (2, 9), (4, 1)]
    ⟨by decide, by decide, by decide⟩ ⟨by decide, by decide, by decide⟩ (Or.inr (by decide))
    (fun bs h => by
      have e : HAMapIndexer.built_buckets .u32 .u64 0 4096 [(5, 7), (2, 9), (4, 1)] 4096 =
          some [[(2, 9), (4, 1)], [(5, 7)]] := by decide
      rw [e] at h
      cases h
      decide)
    (fun img h => by
      have e : (HAMapIndexer.image .u32 .u64 0 4096 [(5, 7), (2, 9), (4, 1)] 4096).map
          List.length = some 53 := by decide
      rw [h] at e
      simp only [Option.map_some', Option.some.injEq] at e
      omega)

/-- The payload of bucket `i` in the image: it starts at `8 * B` plus the payload bytes of
the buckets before `i`, whatever the sizes of the buckets are. -/
theorem payload_isAt (kw vw : IntWidth) (n : Nat) (bs : List (List KV)) (hn : n ≤ 31)
    (hlen : bs.length = 2 ^ n) (i : Nat) (hi : i < bs.length) :
    IsAt (HAMapIndexer.flush_buckets kw vw bs)
      (8 * bs.length + ((bs.take i).map (fun b => b.length * (kw.bytes + vw.bytes))).sum)
      (HAMapIndexer.flush_bucket kw vw bs[i]) := by
  rw [flush_buckets_eq kw vw n bs hn hlen, ← write_buckets_length]
  have h1 := ((write_buckets_isAt kw vw bs i hi).append_right [n]).append_left
    (HAMapIndexer.write_index kw vw (8 * bs.length) bs)
  rwa [write_index_length] at h1

/-- C18 (uncompressed bucket payload layout).  For every defined `HAMapIndexer`
serialisation with `B > 0` buckets and keys and values that fit their types, and for every
bucket `i`, there is a list `s`, the pairs of the bucket sorted ascending by `(key, value)`,
such that the bytes of the image from `off = 8 * B + (payload bytes of the buckets before
i)` on are the keys of `s` (`sizeof(K)` bytes each, in non-decreasing order) immediately
followed by the values of `s` (`sizeof(V)` bytes each); the `j`-th key and the `j`-th value
loaded from there are the two components of the `j`-th pair of `s`; and when every bucket is
below `2^21` pairs and the image below `2^43` bytes, the directory entry `i` the searcher
reads is `(off, nkeys)` with `nkeys` the length of `s`. -/
theorem C18_bucket_payload_layout (kw vw : IntWidth) (total page0 page : Nat) (l : List KV)
    (h0 : SizedFor (sizeof_kv_pair kw vw * total) page0)
    (h1 : SizedFor ((kw.bytes + vw.bytes) * l.length) page) (hB : total ≠ 0 ∨ l ≠ [])
    (hty : ∀ p ∈ l, p.1 < 2 ^ kw.bits ∧ p.2 < 2 ^ vw.bits) :
    ∃ bs img, HAMapIndexer.built_buckets kw vw total page0 l page = some bs ∧
      HAMapIndexer.image kw vw total page0 l page = some img ∧
      ∀ i (hi : i < bs.length), ∃ off s,
        off = 8 * bs.length +
          ((bs.take i).map (fun b => b.length * (kw.bytes + vw.bytes))).sum ∧
        s.Perm bs[i] ∧ List.Sorted kv_le s ∧ List.Sorted (fun a b => a ≤ b) (s.map Prod.fst) ∧
        IsAt img off (write_range kw.bytes Prod.fst s ++ write_range vw.bytes Prod.snd s) ∧
        (write_range kw.bytes Prod.fst s).length = kw.bytes * s.length ∧
        (write_range vw.bytes Prod.snd s).length = vw.bytes * s.length ∧
        (∀ j (hj : j < s.length),
          load img (off + kw.bytes * j) kw.bytes = some (s[j]).1 ∧
          load img (off + kw.bytes * s.length + vw.bytes * j) vw.bytes = some (s[j]).2) ∧
        ((∀ b ∈ bs, b.length < 2 ^ 21) → img.length < 2 ^ 43 →
          BucketIndex.get { data := img, nbuckets := bs.length, key_bits_store := 0 } i =
            some { offset := off, nkeys := s.length }) := by
  obtain ⟨n, bs, _, hn, hbs, hpart⟩ := built_buckets_nonempty kw vw total page0 page l h0 h1 hB
  have himage := image_of_built kw vw total page0 page l bs hbs
  refine ⟨bs, _, hbs, himage, fun i hi => ?_⟩
  have hat := payload_isAt kw vw n bs hn hpart.1 i hi
  have hbi : bs[i] = l.filter (fun p => decide (p.1 &&& (2 ^ n - 1) = i)) := by
    have := hpart.2 i (by rw [← hpart.1]; exact hi)
    rw [List.getElem?_eq_getElem hi] at this
    exact Option.some.inj this
  have htys : ∀ p ∈ sort_bucket bs[i], p.1 < 2 ^ kw.bits ∧ p.2 < 2 ^ vw.bits := by
    intro p hp
    rw [mem_sort_bucket] at hp
    have h3 : p ∈ l.filter (fun p => decide (p.1 &&& (2 ^ n - 1) = i)) := by
      rw [← hbi]
      exact hp
    exact hty p (List.mem_filter.1 h3).1
  refine ⟨_, sort_bucket bs[i], rfl, sort_bucket_perm _, sort_bucket_sorted _, ?_, hat,
    write_range_length _ _ _, write_range_length _ _ _,
    fun j hj => payload_loads kw vw _ _ _ hat htys j hj, ?_⟩
  · rw [List.Sorted, List.pairwise_map]
    refine (sort_bucket_sorted bs[i]).imp ?_
    intro a b hab
    unfold kv_le at hab
    omega
  · intro hsmall himg
    rw [(image_layout kw vw n bs hn hpart.1 hsmall himg i hi).1, sort_bucket_length]

/-- C18 at a concrete input: three pairs, 64-bit keys, 32-bit values, a builder pre-sized
for three records. -/
theorem C18_witness :
    ∃ bs img, HAMapIndexer.built_buckets .u64 .u32 3 4096 [(5, 7), (2, 9), (4, 1)] 4096 =
        some bs ∧
      HAMapIndexer.image .u64 .u32 3 4096 [(5, 7), (2, 9), (4, 1)] 4096 = some img ∧
      ∀ i (hi : i < bs.length), ∃ off s,
        off = 8 * bs.length +
          ((bs.take i).map
            (fun b => b.length * (IntWidth.u64.bytes + IntWidth.u32.bytes))).sum ∧
        s.Perm bs[i] ∧ List.Sorted kv_le s ∧ List.Sorted (fun a b => a ≤ b) (s.map Prod.fst) ∧
        IsAt img off
          (write_range IntWidth.u64.bytes Prod.fst s ++
            write_range IntWidth.u32.bytes Prod.snd s) ∧
        (write_range IntWidth.u64.bytes Prod.fst s).length = IntWidth.u64.bytes * s.length ∧
        (write_range IntWidth.u32.bytes Prod.snd s).length = IntWidth.u32.bytes * s.length ∧
        (∀ j (hj : j < s.length),
          load img (off + IntWidth.u64.bytes * j) IntWidth.u64.bytes = some (s[j]).1 ∧
          load img (off + IntWidth.u64.bytes * s.length + IntWidth.u32.bytes * j)
            IntWidth.u32.bytes = some (s[j]).2) ∧
        ((∀ b ∈ bs, b.length < 2 ^ 21) → img.length < 2 ^ 43 →
          BucketIndex.get { data := img, nbuckets := bs.length, key_bits_store := 0 } i =
            some { offset := off, nkeys := s.length }) :=
  C18_bucket_payload_layout .u64 .u32 3 4096 4096 [(5, 7), (2, 9), (4, 1)]
    ⟨by decide, by decide, by decide⟩ ⟨by decide, by decide, by decide⟩ (Or.inr (by decide))
    (by decide)


/-! ## Record counts -/

/-- Directory entry `i` carries the size of bucket `i`, whatever the running offset is. -/
theorem write_index_entry (kw vw : IntWidth) (bs : List (List KV)) :
    ∀ (offs i : Nat) (hi : i < bs.length), (∀ b ∈ bs, b.length < 2 ^ 32) →
      ∃ o, IsAt (HAMapIndexer.write_index kw vw offs bs) (8 * i)
        (le_bytes 8 (BucketEntry.word o bs[i].length)) := by
  induction bs with
  | nil => intro offs i hi; simp at hi
  | cons b bs ih =>
    intro offs i hi hlen
    have hb : b.length % 2 ^ 32 = b.length :=
      Nat.mod_eq_of_lt (hlen b (List.mem_cons_self _ _))
    cases i with
    | zero =>
      refine ⟨offs, ?_⟩
      simp only [HAMapIndexer.write_index, hb, Nat.mul_zero, List.getElem_cons_zero]
      exact isAt_prefix _ _
    | succ i =>
      have hi2 : i < bs.length := by simpa using hi
      obtain ⟨o, ho⟩ := ih ((offs + b.length % 2 ^ 32 * (kw.bytes + vw.bytes)) % 2 ^ 64) i hi2
        (fun x hx => hlen x (List.mem_cons_of_mem _ hx))
      refine ⟨o, ?_⟩
      have h2 := ho.append_left (le_bytes 8 (BucketEntry.word offs (b.length % 2 ^ 32)))
      rw [le_bytes_length] at h2
      have e1 : 8 * (i + 1) = 8 + 8 * i := by ring
      simp only [HAMapIndexer.write_index, List.getElem_cons_succ]
      rw [e1]
      exact h2

theorem sum_lengths_le (bs : List (List KV)) (K : Nat) (h : ∀ b ∈ bs, b.length < K) :
    (bs.map List.length).sum ≤ bs.length * K := by
  induction bs with
  | nil => simp
  | cons b bs ih =>
    have h1 := h b (List.mem_cons_self _ _)
    have h2 := ih (fun x hx => h x (List.mem_cons_of_mem _ hx))
    simp only [List.map_cons, List.sum_cons, List.length_cons]
    have : (bs.length + 1) * K = bs.length * K + K := by ring
    omega

theorem take_succ_sum (bs : List (List KV)) (m : Nat) (hm : m < bs.length) :
    ((bs.take (m + 1)).map List.length).sum =
      ((bs.take m).map List.length).sum + bs[m].length := by
  rw [List.take_succ, List.getElem?_eq_getElem hm]
  simp only [Option.toList, List.map_append, List.sum_append, List.map_cons, List.map_nil,
    List.sum_cons, List.sum_nil, Nat.add_zero]

/-- The loop of `BucketIndex::size` over the directory of a serialised bucket array adds up
the bucket sizes. -/
theorem sum_nkeys_image (kw vw : IntWidth) (bs : List (List KV)) (rest : List Nat) (nb kbs : Nat)
    (hlen : bs.length ≤ 2 ^ 31) (hsmall : ∀ b ∈ bs, b.length < 2 ^ 21) :
    ∀ m, m ≤ bs.length →
      BucketIndex.sum_nkeys
          { data := HAMapIndexer.write_index kw vw (8 * bs.length) bs ++ rest
            nbuckets := nb, key_bits_store := kbs } m =
        some ((bs.take m).map List.length).sum := by
  intro m
  induction m with
  | zero => intro _; simp [BucketIndex.sum_nkeys]
  | succ m ih =>
    intro hm
    have hm2 : m < bs.length := by omega
    obtain ⟨o, ho⟩ := write_index_entry kw vw bs (8 * bs.length) m hm2
      (fun b hb => lt_trans (hsmall b hb) (by norm_num))
    have hload := (ho.append_right rest).load_int
    have hw : BucketEntry.word o bs[m].length % 256 ^ 8 = BucketEntry.word o bs[m].length :=
      Nat.mod_eq_of_lt (by
        have := word_lt o bs[m].length
        norm_num at this ⊢
        exact this)
    have hsm : bs[m].length < 2 ^ 21 := hsmall _ (List.getElem_mem hm2)
    have hbound := sum_lengths_le (bs.take m) (2 ^ 21)
      (fun b hb => hsmall b (List.mem_of_mem_take hb))
    have hlt : (bs.take m).length ≤ 2 ^ 31 := by
      rw [List.length_take]
      omega
    have hmul : (bs.take m).length * 2 ^ 21 ≤ 2 ^ 31 * 2 ^ 21 := Nat.mul_le_mul_right _ hlt
    rw [BucketIndex.sum_nkeys, ih (by omega)]
    simp only [Option.some_bind, BucketIndex.get]
    rw [hload, hw, Option.map_some', Option.map_some', ofWord_word, take_succ_sum bs m hm2]
    simp only [Nat.mod_eq_of_lt hsm]
    congr 1
    apply Nat.mod_eq_of_lt
    omega

theorem foldl_size_sum (bs : List (List KV)) : ∀ acc : Nat,
    acc + (bs.map List.length).sum < 2 ^ 64 →
    bs.foldl (fun sz b => (sz + b.length) % 2 ^ 64) acc = acc + (bs.map List.length).sum := by
  induction bs with
  | nil => intro acc _; simp
  | cons b bs ih =>
    intro acc h
    simp only [List.map_cons, List.sum_cons] at h
    rw [List.foldl_cons, Nat.mod_eq_of_lt (by omega), ih _ (by omega)]
    simp only [List.map_cons, List.sum_cons]
    omega

/-- The builder exists and its `size()` is the number of pairs added, in both modes. -/
theorem builder_size (kw vw : IntWidth) (total page0 page : Nat) (l : List KV)
    (h0 : SizedFor (sizeof_kv_pair kw vw * total) page0)
    (h1 : SizedFor ((kw.bytes + vw.bytes) * l.length) page) :
    ∃ idx, HAMapIndexer.new kw vw total page0 = some idx ∧ (idx.add_all l).size = l.length := by
  obtain ⟨hp0, hw0, hr0⟩ := h0
  obtain ⟨_, hw1, _⟩ := h1
  have hl : l.length < 2 ^ 64 := by
    have := bytes_pos kw vw
    have h2 : l.length ≤ (kw.bytes + vw.bytes) * l.length :=
      Nat.le_mul_of_pos_left _ (by omega)
    omega
  unfold HAMapIndexer.new
  rw [Nat.mod_eq_of_lt hw0]
  by_cases hz : sizeof_kv_pair kw vw * total = 0
  · rw [hz, calc_buckets_count_zero]
    refine ⟨_, rfl, ?_⟩
    rw [add_all_staging l _ rfl]
    simp [HAMapIndexer.size]
  · obtain ⟨n, _, _, hcalc⟩ := calc_buckets_count_spec _ page0 hz hp0 hr0
    rw [hcalc]
    refine ⟨_, rfl, ?_⟩
    have hpos : (2 : Nat) ^ n ≠ 0 := by positivity
    have hbne : (List.replicate (2 ^ n) ([] : List KV)) ≠ [] := by
      intro hc
      have := congrArg List.length hc
      simp only [List.length_replicate, List.length_nil] at this
      exact hpos this
    rw [add_all_presized l _ hbne]
    simp only [if_pos hpos]
    have hsum := sum_lengths_foldl (2 ^ n - 1) l (List.replicate (2 ^ n) [])
      (fun p _ => by rw [List.length_replicate]; exact and_mask_lt _ _)
    have hzero : ((List.replicate (2 ^ n) ([] : List KV)).map List.length).sum = 0 := by simp
    rw [hzero, Nat.zero_add] at hsum
    have hne2 : (l.foldl (fun bs p => emplace_back_at bs (p.1 &&& (2 ^ n - 1)) p)
        (List.replicate (2 ^ n) [])).isEmpty = false := by
      cases hc : l.foldl (fun bs p => emplace_back_at bs (p.1 &&& (2 ^ n - 1)) p)
          (List.replicate (2 ^ n) []) with
      | nil =>
        have := congrArg List.length hc
        simp only [foldl_emplace_length, List.length_replicate, List.length_nil] at this
        exact absurd this hpos
      | cons x xs => rfl
    unfold HAMapIndexer.size
    simp only [hne2, Bool.not_false, if_true]
    rw [foldl_size_sum _ 0 (by omega), hsum, Nat.zero_add]

/-- C12 (record count is preserved by sealing).  For a non-empty list of `n` pairs added to
a `HAMapIndexer` (staging mode for `total = 0`, pre-sized mode otherwise) with defined
sizing calls and every bucket below `2^21` pairs, the builder exists, its `size()` is `n`,
it serialises to an image, and `size()` of a `HAMapSearcher` over that image, the sum of
`nkeys` over the directory, is `n` as well. -/
theorem C12_record_count_preserved (kw vw : IntWidth) (total page0 page : Nat) (l : List KV)
    (h0 : SizedFor (sizeof_kv_pair kw vw * total) page0)
    (h1 : SizedFor ((kw.bytes + vw.bytes) * l.length) page) (hne : l ≠ [])
    (hsmall : ∀ bs, HAMapIndexer.built_buckets kw vw total page0 l page = some bs →
      ∀ b ∈ bs, b.length < 2 ^ 21) :
    ∃ idx img, HAMapIndexer.new kw vw total page0 = some idx ∧
      (idx.add_all l).size = l.length ∧
      (idx.add_all l).get_compacted kw vw page = some img ∧
      HAMapSearcher.size img = some l.length := by
  obtain ⟨idx, hnew, hsize⟩ := builder_size kw vw total page0 page l h0 h1
  obtain ⟨n, bs, _, hn, hbs, hpart⟩ := built_buckets_spec kw vw total page0 page l h0 h1 hne
  have himage := image_of_built kw vw total page0 page l bs hbs
  have hget : (idx.add_all l).get_compacted kw vw page =
      some (HAMapIndexer.flush_buckets kw vw bs) := by
    rw [← himage]
    simp only [HAMapIndexer.image, hnew, Option.some_bind]
  refine ⟨idx, _, hnew, hsize, hget, ?_⟩
  have himg_eq := flush_buckets_eq kw vw n bs hn hpart.1
  have hread : read_nbuckets (HAMapIndexer.flush_buckets kw vw bs) = some (2 ^ n, 0) := by
    rw [himg_eq, ← List.append_assoc]
    exact read_nbuckets_plain _ n hn
  have hle : bs.length ≤ 2 ^ 31 := by
    rw [hpart.1]
    exact Nat.pow_le_pow_right (by decide) hn
  have hpos : (2 : Nat) ^ n ≠ 0 := by positivity
  unfold HAMapSearcher.size BucketIndex.new
  rw [hread]
  simp only [Option.map_some', Option.some_bind, BucketIndex.size, if_pos hpos]
  rw [himg_eq, ← hpart.1, sum_nkeys_image kw vw bs _ _ _ hle (hsmall bs hbs) bs.length
    (le_refl _), List.take_length, partitioned_sum l n bs hpart]

/-- C12 at a concrete input: three pairs added to a builder pre-sized for three records. -/
theorem C12_witness :
    ∃ idx img, HAMapIndexer.new .u64 .u32 3 4096 = some idx ∧
      (idx.add_all [(5, 7), (2, 9), (4, 1)]).size = [((5 : Nat), (7 : Nat)), (2, 9), (4, 1)].length ∧
      (idx.add_all [(5, 7), (2, 9), (4, 1)]).get_compacted .u64 .u32 4096 = some img ∧
      HAMapSearcher.size img = some [((5 : Nat), (7 : Nat)), (2, 9), (4, 1)].length :=
  C12_record_count_preserved .u64 .u32 3 4096 4096 [(5, 7), (2, 9), (4, 1)]
    ⟨by decide, by decide, by decide⟩ ⟨by decide, by decide, by decide⟩ (by decide)
    (fun bs h => by
      have e : HAMapIndexer.built_buckets .u64 .u32 3 4096 [(5, 7), (2, 9), (4, 1)] 4096 =
          some [[(2, 9), (4, 1)], [(5, 7)]] := by decide
      rw [e] at h
      cases h
      decide)

/-! ## The compressed image: footer and compression parameters -/

theorem key_rshift_by_pow (kw : IntWidth) (n : Nat) (hn : n ≤ 31) :
    key_rshift_by_of kw (nshift_of (2 ^ n)) = n := by
  unfold nshift_of
  rw [footer_byte n hn]
  unfold key_rshift_by_of
  cases kw <;> simp only [IntWidth.bits, IntWidth.bytes] <;> omega

theorem kmask_lt (b : Nat) (l : List KV) (h : ∀ p ∈ l, p.1 < 2 ^ b) : ∀ m, m < 2 ^ b →
    l.foldl (fun m p => m ||| p.1) m < 2 ^ b := by
  induction l with
  | nil => intro m hm; exact hm
  | cons p ps ih =>
    intro m hm
    rw [List.foldl_cons]
    exact ih (fun q hq => h q (List.mem_cons_of_mem _ hq)) _
      (Nat.or_lt_two_pow hm (h p (List.mem_cons_self _ _)))

theorem ehc_kmask (l : List KV) :
    (EHCMapIndexer.new.add_all l).kmask = l.foldl (fun m p => m ||| p.1) 0 := by
  rw [ehc_add_all]
  rfl

theorem maxbits_shift_lt_of (kw : IntWidth) (k n : Nat) (hk : k < 2 ^ kw.bits) (hn : 1 ≤ n) :
    maxbits (k >>> n) < 64 := by
  rw [maxbits_eq_sigbits]
  have h64 : k < 2 ^ 64 := by
    refine lt_of_lt_of_le hk ?_
    cases kw <;> norm_num [IntWidth.bits, IntWidth.bytes]
  have hle : k >>> n ≤ k >>> 1 := by
    rw [Nat.shiftRight_eq_div_pow, Nat.shiftRight_eq_div_pow]
    exact Nat.div_le_div_left (Nat.pow_le_pow_right (by decide) hn) (by norm_num)
  have : k >>> n < 2 ^ 63 := by
    have h1 : k >>> 1 < 2 ^ 63 := by
      rw [Nat.shiftRight_eq_div_pow]
      omega
    omega
  have := sigbits_le_of_lt 64 (k >>> n) 63 this
  omega

theorem ehc_write_index_length (vw : IntWidth) (kbs offs : Nat) (bs : List (List KV)) :
    (EHCMapIndexer.write_index vw kbs offs bs).length = 8 * bs.length := by
  induction bs generalizing offs with
  | nil => rfl
  | cons b bs ih =>
    simp only [EHCMapIndexer.write_index, List.length_append, le_bytes_length, ih,
      List.length_cons]
    ring

theorem partition_records_length (nb m : Nat) (l : List KV) :
    (partition_records nb m l).length = nb := by
  unfold partition_records
  rw [foldl_emplace_length, List.length_replicate]

/-- The image the compressed builder writes for a non-empty input: directory, bucket
blocks, and the two footer bytes, with `B = 2^n` buckets. -/
theorem ehc_image_spec (kw vw : IntWidth) (l : List KV) (page : Nat)
    (h1 : SizedFor ((kw.bytes + vw.bytes) * l.length) page) (hne : l ≠ [])
    (hty : ∀ p ∈ l, p.1 < 2 ^ kw.bits) :
    ∃ n bs payload, 1 ≤ n ∧ n ≤ 31 ∧
      (EHCMapIndexer.new.add_all l).bucket_array kw vw page = some bs ∧
      Partitioned l n bs ∧
      EHCMapIndexer.key_rshift_by kw bs = n ∧
      EHCMapIndexer.key_bits_store kw (EHCMapIndexer.new.add_all l).kmask bs < 64 ∧
      EHCMapIndexer.write_buckets vw
          (EHCMapIndexer.key_bits_store kw (EHCMapIndexer.new.add_all l).kmask bs)
          (EHCMapIndexer.key_rshift_by kw bs) bs = some payload ∧
      EHCMapIndexer.image kw vw l page =
        some (EHCMapIndexer.write_index vw
            (EHCMapIndexer.key_bits_store kw (EHCMapIndexer.new.add_all l).kmask bs)
            (8 * bs.length) bs ++ payload ++
          [EHCMapIndexer.key_bits_store kw (EHCMapIndexer.new.add_all l).kmask bs,
           n ||| 0x80]) := by
  obtain ⟨n, hn1, hn2, hcalc, hbs, hpart⟩ := ehc_bucket_array_spec kw vw l page h1 hne
  have hlen := hpart.1
  generalize partition_records (2 ^ n) ((2 ^ n + 2 ^ 64 - 1) % 2 ^ 64) l = bs at hbs hpart hlen
  have hrsh : EHCMapIndexer.key_rshift_by kw bs = n := by
    unfold EHCMapIndexer.key_rshift_by
    rw [hlen, key_rshift_by_pow kw n hn2]
  have hkm : (EHCMapIndexer.new.add_all l).kmask < 2 ^ kw.bits := by
    rw [ehc_kmask]
    exact kmask_lt kw.bits l hty 0 (Nat.two_pow_pos _)
  have hkbs : EHCMapIndexer.key_bits_store kw (EHCMapIndexer.new.add_all l).kmask bs < 64 := by
    unfold EHCMapIndexer.key_bits_store
    rw [hrsh]
    exact maxbits_shift_lt_of kw _ n hkm hn1
  obtain ⟨payload, hpay⟩ := ehc_write_buckets_some vw
    (EHCMapIndexer.key_bits_store kw (EHCMapIndexer.new.add_all l).kmask bs)
    (EHCMapIndexer.key_rshift_by kw bs) hkbs bs
  refine ⟨n, bs, payload, hn1, hn2, hbs, hpart, hrsh, hkbs, hpay, ?_⟩
  have hbits : ¬ (EHCMapIndexer.key_rshift_by kw bs ≥ kw.bits) := by
    rw [hrsh]
    have := kw.bits_ge
    intro hc
    have h2 : (2 : Nat) ^ 32 ≤ 2 ^ n := le_trans this (Nat.pow_le_pow_right (by decide) hc)
    have h3 : (2 : Nat) ^ n ≤ 2 ^ 31 := Nat.pow_le_pow_right (by decide) hn2
    omega
  have h8 : 8 * bs.length % 2 ^ 64 = 8 * bs.length := by
    apply Nat.mod_eq_of_lt
    have h3 : (2 : Nat) ^ n ≤ 2 ^ 31 := Nat.pow_le_pow_right (by decide) hn2
    omega
  have hns : nshift_of bs.length = n := by
    unfold nshift_of
    rw [hlen, footer_byte n hn2]
  have hflush : EHCMapIndexer.flush_buckets kw vw (EHCMapIndexer.new.add_all l).kmask bs =
      some (EHCMapIndexer.write_index vw
            (EHCMapIndexer.key_bits_store kw (EHCMapIndexer.new.add_all l).kmask bs)
            (8 * bs.length) bs ++ payload ++
          [EHCMapIndexer.key_bits_store kw (EHCMapIndexer.new.add_all l).kmask bs,
           n ||| 0x80]) := by
    have hdef : EHCMapIndexer.flush_buckets kw vw (EHCMapIndexer.new.add_all l).kmask bs =
        if EHCMapIndexer.key_rshift_by kw bs ≥ kw.bits then none
        else
          (EHCMapIndexer.write_buckets vw
              (EHCMapIndexer.key_bits_store kw (EHCMapIndexer.new.add_all l).kmask bs)
              (EHCMapIndexer.key_rshift_by kw bs) bs).map fun payload =>
            EHCMapIndexer.write_index vw
                (EHCMapIndexer.key_bits_store kw (EHCMapIndexer.new.add_all l).kmask bs)
                (8 * bs.length % 2 ^ 64) bs ++
              payload ++
              [EHCMapIndexer.key_bits_store kw (EHCMapIndexer.new.add_all l).kmask bs % 256,
               nshift_of bs.length ||| 0x80] := rfl
    rw [hdef, if_neg hbits, hpay, Option.map_some', h8, hns, Nat.mod_eq_of_lt (by omega)]
  unfold EHCMapIndexer.image EHCMapIndexer.get_compacted EHCMapIndexer.compact_and_store
  rw [hbs, Option.some_bind, hflush]


/-- The compressed searcher constructed over an image that ends with the footer bytes
`a`, `n | 0x80`. -/
theorem searcher_new_compressed (kw : IntWidth) (x : List Nat) (a n : Nat) (hn : n ≤ 31)
    (ha : a < 64) :
    ∃ s, HACMapSearcher.new kw (x ++ [a, n ||| 0x80]) = some s ∧ s.bi.nbuckets = 2 ^ n ∧
      s.key_rshift_by = n ∧ s.bi.key_bits_store = a ∧ s.elem_width = a := by
  unfold HACMapSearcher.new BucketIndex.new
  rw [read_nbuckets_compressed x a n hn]
  simp only [Option.map_some', Option.some_bind]
  rw [if_neg (by omega)]
  exact ⟨_, rfl, rfl, key_rshift_by_pow kw n hn, rfl, rfl⟩

/-- C15 (compressed footer).  For every non-empty input with defined sizing call and keys
that fit the key type, the image `EHCMapIndexer` writes is the directory of `B` entries
(`8 * B` bytes, `B = 2^log2(B)` the length of the bucket array), the bucket blocks, and
then exactly two footer bytes: first the builder's `key_bits_store`, then
`log2(B) | 0x80`.  Both are bytes, and the last one has the bit `0x80` set. -/
theorem C15_compressed_footer (kw vw : IntWidth) (l : List KV) (page : Nat)
    (h1 : SizedFor ((kw.bytes + vw.bytes) * l.length) page) (hne : l ≠ [])
    (hty : ∀ p ∈ l, p.1 < 2 ^ kw.bits) :
    ∃ bs payload img,
      (EHCMapIndexer.new.add_all l).bucket_array kw vw page = some bs ∧
      2 ^ Nat.log2 bs.length = bs.length ∧
      EHCMapIndexer.write_buckets vw
          (EHCMapIndexer.key_bits_store kw (EHCMapIndexer.new.add_all l).kmask bs)
          (EHCMapIndexer.key_rshift_by kw bs) bs = some payload ∧
      EHCMapIndexer.image kw vw l page = some img ∧
      img = EHCMapIndexer.write_index vw
            (EHCMapIndexer.key_bits_store kw (EHCMapIndexer.new.add_all l).kmask bs)
            (8 * bs.length) bs ++ payload ++
          [EHCMapIndexer.key_bits_store kw (EHCMapIndexer.new.add_all l).kmask bs,
           Nat.log2 bs.length ||| 0x80] ∧
      (EHCMapIndexer.write_index vw
          (EHCMapIndexer.key_bits_store kw (EHCMapIndexer.new.add_all l).kmask bs)
          (8 * bs.length) bs).length = 8 * bs.length ∧
      EHCMapIndexer.key_bits_store kw (EHCMapIndexer.new.add_all l).kmask bs < 256 ∧
      Nat.log2 bs.length ||| 0x80 < 256 ∧
      (Nat.log2 bs.length ||| 0x80) &&& 0x80 ≠ 0 := by
  obtain ⟨n, bs, payload, _, hn, hbs, hpart, _, hkbs, hpay, himg⟩ :=
    ehc_image_spec kw vw l page h1 hne hty
  have hlog : Nat.log2 bs.length = n := by rw [hpart.1, Nat.log2_two_pow]
  refine ⟨bs, payload, _, hbs, ?_, hpay, himg, ?_, ehc_write_index_length _ _ _ _, by omega,
    ?_, ?_⟩
  · rw [hlog, hpart.1]
  · rw [hlog]
  · rw [hlog]
    interval_cases n <;> decide
  · rw [hlog]
    interval_cases n <;> decide

/-- C15 at a concrete input: three pairs with 32-bit keys and values. -/
theorem C15_witness :
    ∃ bs payload img,
      (EHCMapIndexer.new.add_all [(5, 7), (2, 9), (4, 1)]).bucket_array .u32 .u32 4096 =
        some bs ∧
      2 ^ Nat.log2 bs.length = bs.length ∧
      EHCMapIndexer.write_buckets .u32
          (EHCMapIndexer.key_bits_store .u32
            (EHCMapIndexer.new.add_all [(5, 7), (2, 9), (4, 1)]).kmask bs)
          (EHCMapIndexer.key_rshift_by .u32 bs) bs = some payload ∧
      EHCMapIndexer.image .u32 .u32 [(5, 7), (2, 9), (4, 1)] 4096 = some img ∧
      img = EHCMapIndexer.write_index .u32
            (EHCMapIndexer.key_bits_store .u32
              (EHCMapIndexer.new.add_all [(5, 7), (2, 9), (4, 1)]).kmask bs)
            (8 * bs.length) bs ++ payload ++
          [EHCMapIndexer.key_bits_store .u32
              (EHCMapIndexer.new.add_all [(5, 7), (2, 9), (4, 1)]).kmask bs,
           Nat.log2 bs.length ||| 0x80] ∧
      (EHCMapIndexer.write_index .u32
          (EHCMapIndexer.key_bits_store .u32
            (EHCMapIndexer.new.add_all [(5, 7), (2, 9), (4, 1)]).kmask bs)
          (8 * bs.length) bs).length = 8 * bs.length ∧
      EHCMapIndexer.key_bits_store .u32
        (EHCMapIndexer.new.add_all [(5, 7), (2, 9), (4, 1)]).kmask bs < 256 ∧
      Nat.log2 bs.length ||| 0x80 < 256 ∧
      (Nat.log2 bs.length ||| 0x80) &&& 0x80 ≠ 0 :=
  C15_compressed_footer .u32 .u32 [(5, 7), (2, 9), (4, 1)] 4096
    ⟨by decide, by decide, by decide⟩ (by decide) (by decide)

/-- C20 (compression parameters agree).  For every non-empty input with defined sizing
call and keys that fit the key type, with `B = 2^N` the bucket count and `kmask` the
bitwise OR of all inserted keys: the compressed builder uses `key_rshift_by = N` and
`key_bits_store = maxbits(kmask >> N)`, which is `0` for `kmask >> N = 0` and the position
of the highest set bit plus one otherwise; and the `HACMapSearcher` constructed from the
image exists, sees `B` buckets, derives `key_rshift_by = N` and reads back the same
`key_bits_store` (as the width of the elements of its bit-array adapter). -/
theorem C20_compression_parameters (kw vw : IntWidth) (l : List KV) (page : Nat)
    (h1 : SizedFor ((kw.bytes + vw.bytes) * l.length) page) (hne : l ≠ [])
    (hty : ∀ p ∈ l, p.1 < 2 ^ kw.bits) :
    ∃ N bs img s,
      (EHCMapIndexer.new.add_all l).bucket_array kw vw page = some bs ∧
      bs.length = 2 ^ N ∧
      (EHCMapIndexer.new.add_all l).kmask = l.foldl (fun m p => m ||| p.1) 0 ∧
      EHCMapIndexer.key_rshift_by kw bs = N ∧
      EHCMapIndexer.key_bits_store kw (EHCMapIndexer.new.add_all l).kmask bs =
        maxbits ((EHCMapIndexer.new.add_all l).kmask >>> N) ∧
      maxbits ((EHCMapIndexer.new.add_all l).kmask >>> N) =
        (if (EHCMapIndexer.new.add_all l).kmask >>> N = 0 then 0
         else Nat.log2 ((EHCMapIndexer.new.add_all l).kmask >>> N) + 1) ∧
      EHCMapIndexer.image kw vw l page = some img ∧
      HACMapSearcher.new kw img = some s ∧
      s.bi.nbuckets = 2 ^ N ∧
      s.key_rshift_by = N ∧
      s.bi.key_bits_store = maxbits ((EHCMapIndexer.new.add_all l).kmask >>> N) ∧
      s.elem_width = maxbits ((EHCMapIndexer.new.add_all l).kmask >>> N) := by
  obtain ⟨n, bs, payload, _, hn, hbs, hpart, hrsh, hkbs, _, himg⟩ :=
    ehc_image_spec kw vw l page h1 hne hty
  have hkbs_eq : EHCMapIndexer.key_bits_store kw (EHCMapIndexer.new.add_all l).kmask bs =
      maxbits ((EHCMapIndexer.new.add_all l).kmask >>> n) := by
    unfold EHCMapIndexer.key_bits_store
    rw [hrsh]
  have hkm : (EHCMapIndexer.new.add_all l).kmask < 2 ^ 64 := by
    rw [ehc_kmask]
    refine lt_of_lt_of_le (kmask_lt kw.bits l hty 0 (Nat.two_pow_pos _)) ?_
    cases kw <;> norm_num [IntWidth.bits, IntWidth.bytes]
  obtain ⟨s, hnew, hs1, hs2, hs3, hs4⟩ := searcher_new_compressed kw
    (EHCMapIndexer.write_index vw
      (EHCMapIndexer.key_bits_store kw (EHCMapIndexer.new.add_all l).kmask bs)
      (8 * bs.length) bs ++ payload)
    (EHCMapIndexer.key_bits_store kw (EHCMapIndexer.new.add_all l).kmask bs) n hn hkbs
  refine ⟨n, bs, _, s, hbs, hpart.1, ehc_kmask l, hrsh, hkbs_eq, ?_, himg, hnew, hs1, hs2,
    hs3.trans hkbs_eq, hs4.trans hkbs_eq⟩
  split
  · rename_i hz
    rw [hz]
    rfl
  · rename_i hz
    refine maxbits_eq_log2 _ hz (lt_of_le_of_lt ?_ hkm)
    rw [Nat.shiftRight_eq_div_pow]
    exact Nat.div_le_self _ _

/-- C20 at a concrete input: three pairs with 64-bit keys and 32-bit values. -/
theorem C20_witness :
    ∃ N bs img s,
      (EHCMapIndexer.new.add_all [(5, 7), (2, 9), (4, 1)]).bucket_array .u64 .u32 4096 =
        some bs ∧
      bs.length = 2 ^ N ∧
      (EHCMapIndexer.new.add_all [(5, 7), (2, 9), (4, 1)]).kmask =
        [((5 : Nat), (7 : Nat)), (2, 9), (4, 1)].foldl (fun m p => m ||| p.1) 0 ∧
      EHCMapIndexer.key_rshift_by .u64 bs = N ∧
      EHCMapIndexer.key_bits_store .u64
          (EHCMapIndexer.new.add_all [(5, 7), (2, 9), (4, 1)]).kmask bs =
        maxbits ((EHCMapIndexer.new.add_all [(5, 7), (2, 9), (4, 1)]).kmask >>> N) ∧
      maxbits ((EHCMapIndexer.new.add_all [(5, 7), (2, 9), (4, 1)]).kmask >>> N) =
        (if (EHCMapIndexer.new.add_all [(5, 7), (2, 9), (4, 1)]).kmask >>> N = 0 then 0
         else Nat.log2 ((EHCMapIndexer.new.add_all [(5, 7), (2, 9), (4, 1)]).kmask >>> N) + 1) ∧
      EHCMapIndexer.image .u64 .u32 [(5, 7), (2, 9), (4, 1)] 4096 = some img ∧
      HACMapSearcher.new .u64 img = some s ∧
      s.bi.nbuckets = 2 ^ N ∧
      s.key_rshift_by = N ∧
      s.bi.key_bits_store =
        maxbits ((EHCMapIndexer.new.add_all [(5, 7), (2, 9), (4, 1)]).kmask >>> N) ∧
      s.elem_width =
        maxbits ((EHCMapIndexer.new.add_all [(5, 7), (2, 9), (4, 1)]).kmask >>> N) :=
  C20_compression_parameters .u64 .u32 [(5, 7), (2, 9), (4, 1)] 4096
    ⟨by decide, by decide, by decide⟩ (by decide) (by decide)

/-- Witness for C16: the entry `{offset = 16, nkeys = 2}` written as the second entry of a
directory is read back as such, and its word is `16 + 2 * 2^43`. -/
theorem C16_witness :
    BucketIndex.get
        { data := [0, 0, 0, 0, 0, 0, 0, 0] ++ (le_bytes 8 (BucketEntry.word 16 2) ++ [9])
          nbuckets := 0, key_bits_store := 0 } 1 =
      some { offset := 16 % 2 ^ 43, nkeys := 2 % 2 ^ 21 } ∧
    le_value (le_bytes 8 (BucketEntry.word 16 2)) = 16 + 2 * 2 ^ 43 :=
  ⟨(C16_bucket_entry_packing 16 2).2.1 [0, 0, 0, 0, 0, 0, 0, 0] [9] 1 (by decide),
    ((C16_bucket_entry_packing 16 2).2.2 (by decide) (by decide)).1⟩

/-! ## Bits of a word array -/

theorem array_bit_or_word (data : List Nat) (idx x p : Nat) (h : idx < data.length) :
    array_bit (or_word data idx x) p =
      (array_bit data p || (decide (p / 64 = idx) && x.testBit (p % 64))) := by
  unfold array_bit or_word
  simp only [List.getD_eq_getElem?_getD, List.getElem?_set]
  by_cases hp : idx = p / 64
  · subst hp
    simp [h, Nat.testBit_or]
  · have hp2 : ¬ p / 64 = idx := fun e => hp e.symm
    simp [hp, hp2]

theorem array_bit_and_word (data : List Nat) (idx x p : Nat) (h : idx < data.length) :
    array_bit (and_word data idx x) p =
      (array_bit data p && (!decide (p / 64 = idx) || x.testBit (p % 64))) := by
  unfold array_bit and_word
  simp only [List.getD_eq_getElem?_getD, List.getElem?_set]
  by_cases hp : idx = p / 64
  · subst hp
    simp [h, Nat.testBit_and]
  · have hp2 : ¬ p / 64 = idx := fun e => hp e.symm
    simp [hp, hp2]

theorem or_word_length (data : List Nat) (idx x : Nat) :
    (or_word data idx x).length = data.length := by
  simp [or_word]

theorem and_word_length (data : List Nat) (idx x : Nat) :
    (and_word data idx x).length = data.length := by
  simp [and_word]

theorem or_word_lt (data : List Nat) (idx x : Nat) (hd : ∀ y ∈ data, y < 2 ^ 64)
    (hx : x < 2 ^ 64) : ∀ y ∈ or_word data idx x, y < 2 ^ 64 := by
  intro y hy
  unfold or_word at hy
  rcases List.mem_or_eq_of_mem_set hy with h | h
  · exact hd y h
  · subst h
    refine Nat.or_lt_two_pow ?_ hx
    rw [List.getD_eq_getElem?_getD]
    cases hg : data[idx]? with
    | none => simp
    | some v => exact hd v (List.getElem?_mem hg)

theorem testBit_one_shift (k j : Nat) (hj : j < 64) :
    ((1 <<< k) % 2 ^ 64).testBit j = decide (j = k) := by
  rw [Nat.testBit_mod_two_pow, Nat.one_shiftLeft, Nat.testBit_two_pow]
  simp [hj, eq_comm]

theorem bit_and_one (v i : Nat) : (v >>> i) &&& 1 = if v.testBit i then 1 else 0 := by
  rw [Nat.and_one_is_mod, Nat.shiftRight_eq_div_pow, Nat.testBit_to_div_mod]
  by_cases h : v / 2 ^ i % 2 = 1
  · simp [h]
  · have : v / 2 ^ i % 2 = 0 := by omega
    simp [this]

theorem pos_eq_iff (p pos : Nat) : (p / 64 = pos / 64 ∧ p % 64 = pos % 64) ↔ p = pos := by
  omega

theorem array_bit_or_bit (data : List Nat) (pos p : Nat) (b : Bool)
    (h : pos / 64 < data.length) :
    array_bit (or_word data (pos / 64) (((if b then 1 else 0) <<< (pos % 64)) % 2 ^ 64)) p =
      (array_bit data p || (decide (p = pos) && b)) := by
  rw [array_bit_or_word _ _ _ _ h]
  congr 1
  have hj : p % 64 < 64 := Nat.mod_lt _ (by norm_num)
  cases b with
  | false => simp
  | true =>
    simp only [if_true, testBit_one_shift _ _ hj, Bool.and_true]
    rw [← Bool.decide_and, decide_eq_decide]
    exact pos_eq_iff p pos

theorem and_0x3f (pos : Nat) : pos &&& 0x3f = pos % 64 :=
  Nat.and_pow_two_sub_one_eq_mod pos 6

theorem add_bits_loop_length (value : Nat) :
    ∀ (n i pos : Nat) (data : List Nat),
      (add_bits_loop value n i pos data).length = data.length := by
  intro n
  induction n with
  | zero => intro i pos data; rfl
  | succ n ih =>
    intro i pos data
    rw [add_bits_loop, ih, or_word_length]

theorem add_bits_loop_lt (value : Nat) :
    ∀ (n i pos : Nat) (data : List Nat), (∀ y ∈ data, y < 2 ^ 64) →
      ∀ y ∈ add_bits_loop value n i pos data, y < 2 ^ 64 := by
  intro n
  induction n with
  | zero => intro i pos data hd; exact hd
  | succ n ih =>
    intro i pos data hd
    rw [add_bits_loop]
    exact ih _ _ _ (or_word_lt _ _ _ hd (Nat.mod_lt _ (by norm_num)))

theorem add_bits_loop_bit (value : Nat) :
    ∀ (n i pos : Nat) (data : List Nat), pos + n ≤ 64 * data.length →
      ∀ p, array_bit (add_bits_loop value n i pos data) p =
        (array_bit data p ||
          (decide (pos ≤ p ∧ p < pos + n) && value.testBit (i + (p - pos)))) := by
  intro n
  induction n with
  | zero =>
    intro i pos data _ p
    have : ¬ (pos ≤ p ∧ p < pos + 0) := by omega
    simp [add_bits_loop, this]
  | succ n ih =>
    intro i pos data h p
    have hpos : pos / 64 < data.length := by omega
    rw [add_bits_loop, ih _ _ _ (by rw [or_word_length]; omega), bit_and_one, and_0x3f,
      array_bit_or_bit _ _ _ _ hpos]
    by_cases h1 : p = pos
    · subst h1
      have e1 : ¬ (p + 1 ≤ p ∧ p < p + 1 + n) := by omega
      have e2 : p ≤ p ∧ p < p + (n + 1) := by omega
      simp [e1, e2]
    · by_cases h2 : pos + 1 ≤ p ∧ p < pos + 1 + n
      · have e2 : pos ≤ p ∧ p < pos + (n + 1) := by omega
        have e3 : i + 1 + (p - (pos + 1)) = i + (p - pos) := by omega
        simp [h1, h2, e2, e3]
      · have e2 : ¬ (pos ≤ p ∧ p < pos + (n + 1)) := by omega
        simp [h1, h2, e2]

/-! ## `BitArrayWriter::Resize` -/

theorem array_bit_append_zeros (data : List Nat) (k p : Nat) :
    array_bit (data ++ List.replicate k 0) p = array_bit data p := by
  unfold array_bit
  simp only [List.getD_eq_getElem?_getD, List.getElem?_append, List.getElem?_replicate]
  by_cases h : p / 64 < data.length
  · simp [h]
  · have hn : data[p / 64]? = none := List.getElem?_eq_none (by omega)
    rw [if_neg h, hn]
    by_cases h2 : p / 64 - data.length < k <;> simp [h2]

theorem vector_resize_grow (data : List Nat) (n : Nat) (h : data.length ≤ n) :
    vector_resize data n = data ++ List.replicate (n - data.length) 0 := by
  unfold vector_resize
  apply List.take_of_length_le
  simp
  omega

theorem resize_data (w : BitArrayWriter) (min_cap : Nat) (hlen : w.data.length < 2 ^ 62)
    (hcap : min_cap < 2 ^ 64) :
    (w.Resize min_cap).data =
      w.data ++ List.replicate
        (2 * max w.data.length (min_cap / 64 + 1) - max w.data.length (min_cap / 64 + 1) / 2 -
          w.data.length) 0 := by
  have hm : max w.data.length (min_cap / 64 + 1) < 2 ^ 62 := by
    rcases Nat.le_total w.data.length (min_cap / 64 + 1) with h | h
    · rw [Nat.max_eq_right h]; omega
    · rw [Nat.max_eq_left h]; exact hlen
  have hle : w.data.length ≤ max w.data.length (min_cap / 64 + 1) := Nat.le_max_left _ _
  unfold BitArrayWriter.Resize
  simp only
  generalize max w.data.length (min_cap / 64 + 1) = m at hm hle
  have hnew : ((m <<< 1) % 2 ^ 64 + 2 ^ 64 - (m >>> 1)) % 2 ^ 64 = 2 * m - m / 2 := by
    rw [Nat.shiftLeft_eq, Nat.shiftRight_eq_div_pow]
    omega
  rw [hnew]
  exact vector_resize_grow _ _ (by omega)

theorem resize_spec (w : BitArrayWriter) (min_cap : Nat) (hlen : w.data.length < 2 ^ 62)
    (hcap : min_cap < 2 ^ 64) :
    (w.Resize min_cap).last_bit_pos = w.last_bit_pos ∧
      w.data.length < (w.Resize min_cap).data.length ∧
      min_cap / 64 + 1 < (w.Resize min_cap).data.length ∧
      (w.Resize min_cap).data.length ≤ 2 * max w.data.length (min_cap / 64 + 1) ∧
      ((∀ x ∈ w.data, x < 2 ^ 64) → ∀ x ∈ (w.Resize min_cap).data, x < 2 ^ 64) ∧
      ∀ p, array_bit (w.Resize min_cap).data p = array_bit w.data p := by
  have hd := resize_data w min_cap hlen hcap
  have hle : w.data.length ≤ max w.data.length (min_cap / 64 + 1) := Nat.le_max_left _ _
  have hle2 : min_cap / 64 + 1 ≤ max w.data.length (min_cap / 64 + 1) := Nat.le_max_right _ _
  generalize max w.data.length (min_cap / 64 + 1) = m at hd hle hle2
  have hl : (w.Resize min_cap).data.length = 2 * m - m / 2 := by
    rw [hd, List.length_append, List.length_replicate]
    omega
  refine ⟨rfl, by omega, by omega, by omega, ?_, ?_⟩
  · intro hw x hx
    rw [hd, List.mem_append] at hx
    rcases hx with hx | hx
    · exact hw x hx
    · rw [List.eq_of_mem_replicate hx]
      norm_num
  · intro p
    rw [hd, array_bit_append_zeros]

/-! ## The bit sequence a writer holds -/

theorem bits_of_length (v n : Nat) : (bits_of v n).length = n := by
  simp [bits_of]

theorem bits_of_getD (v n j : Nat) :
    (bits_of v n).getD j false = (decide (j < n) && v.testBit j) := by
  unfold bits_of
  rw [List.getD_eq_getElem?_getD, List.getElem?_map]
  by_cases h : j < n
  · rw [List.getElem?_range h]
    simp [h]
  · rw [List.getElem?_eq_none (by simpa using h)]
    simp [h]

theorem getD_append_bits (bits ext : List Bool) (p : Nat) :
    (bits ++ ext).getD p false =
      (bits.getD p false || (decide (bits.length ≤ p) && ext.getD (p - bits.length) false)) := by
  simp only [List.getD_eq_getElem?_getD, List.getElem?_append]
  by_cases h : p < bits.length
  · have h2 : ¬ bits.length ≤ p := by omega
    simp [h, h2]
  · have h2 : bits.length ≤ p := by omega
    have hn : bits[p]? = none := List.getElem?_eq_none h2
    simp [h, h2, hn]

theorem array_bit_replicate (n p : Nat) : array_bit (List.replicate n 0) p = false := by
  unfold array_bit
  rw [List.getD_eq_getElem?_getD, List.getElem?_replicate]
  by_cases h : p / 64 < n <;> simp [h]

theorem new_length (c : Nat) : (BitArrayWriter.new c).data.length = (c + 63) / 64 := by
  unfold BitArrayWriter.new
  simp only [List.length_replicate]
  split <;> omega

theorem holds_new (c : Nat) : (BitArrayWriter.new c).Holds ((c + 63) / 64) [] := by
  refine ⟨rfl, Nat.zero_le _, ?_, ?_, ?_⟩
  · rw [new_length]
    exact Nat.le_max_left _ _
  · intro x hx
    unfold BitArrayWriter.new at hx
    rw [List.eq_of_mem_replicate hx]
    norm_num
  · intro p
    unfold BitArrayWriter.new
    simp [array_bit_replicate]

theorem holds_length_lt (len0 : Nat) (w : BitArrayWriter) (bits : List Bool)
    (h : w.Holds len0 bits) (hl0 : len0 < 2 ^ 57) (hn : bits.length < 2 ^ 62) :
    w.data.length < 2 ^ 58 := by
  have := h.2.2.1
  omega

theorem holds_addBits (len0 : Nat) (w : BitArrayWriter) (bits : List Bool) (value nbits : Nat)
    (h : w.Holds len0 bits) (hl0 : len0 < 2 ^ 57) (hn : bits.length + nbits < 2 ^ 62) :
    (w.AddBits value nbits).Holds len0 (bits ++ bits_of value nbits) ∧
      w.data.length ≤ (w.AddBits value nbits).data.length ∧
      (bits.length + nbits ≤ 64 * w.data.length →
        (w.AddBits value nbits).data.length = w.data.length) := by
  have hlen := holds_length_lt len0 w bits h hl0 (by omega)
  obtain ⟨hpos, hfit, hbound, hwords, hbits⟩ := h
  have hlast : (w.last_bit_pos + nbits) % 2 ^ 64 = bits.length + nbits := by
    rw [hpos]
    exact Nat.mod_eq_of_lt (by omega)
  have hcap : w.data.length * 64 % 2 ^ 64 = w.data.length * 64 := Nat.mod_eq_of_lt (by omega)
  have key : ∀ data : List Nat, bits.length + nbits ≤ 64 * data.length →
      data.length ≤ max len0 (2 * ((bits.length + nbits) / 64 + 1)) →
      (∀ x ∈ data, x < 2 ^ 64) → (∀ p, array_bit data p = array_bit w.data p) →
      BitArrayWriter.Holds len0
        { data := add_bits_loop value nbits 0 bits.length data,
          last_bit_pos := bits.length + nbits } (bits ++ bits_of value nbits) := by
    intro data hfit2 hbound2 hwords2 hbits2
    refine ⟨?_, ?_, ?_, ?_, ?_⟩
    · simp [bits_of_length]
    · simp only [add_bits_loop_length, List.length_append, bits_of_length]
      exact hfit2
    · simp only [add_bits_loop_length, List.length_append, bits_of_length]
      exact hbound2
    · exact add_bits_loop_lt _ _ _ _ _ hwords2
    · intro p
      rw [add_bits_loop_bit _ _ _ _ _ hfit2, hbits2, hbits, getD_append_bits, bits_of_getD,
        Nat.zero_add]
      congr 1
      by_cases h1 : bits.length ≤ p <;> by_cases h2 : p < bits.length + nbits
      · have : p - bits.length < nbits := by omega
        simp [h1, h2, this]
      · have : ¬ p - bits.length < nbits := by omega
        simp [h1, h2, this]
      · simp [h1, h2]
      · simp [h1, h2]
  unfold BitArrayWriter.AddBits
  simp only [BitArrayWriter.GetBitCapacity, hlast, hcap]
  by_cases hc : w.data.length * 64 < bits.length + nbits
  · rw [if_pos hc]
    obtain ⟨_, hr1, hr2, hr3, hr4, hr5⟩ := resize_spec
      { w with last_bit_pos := bits.length + nbits } (bits.length + nbits) (by simpa using by omega)
      (by omega)
    simp only at hr1 hr2 hr3
    rw [hpos]
    refine ⟨key _ ?_ ?_ (hr4 hwords) hr5, ?_, ?_⟩
    · omega
    · omega
    · simp only [add_bits_loop_length]
      exact Nat.le_of_lt hr1
    · intro hfit3
      omega
  · rw [if_neg hc, hpos]
    dsimp only
    refine ⟨key _ (by omega) ?_ hwords (fun _ => rfl), ?_, ?_⟩
    · have : bits.length / 64 ≤ (bits.length + nbits) / 64 := Nat.div_le_div_right (by omega)
      omega
    · simp only [add_bits_loop_length]
      exact Nat.le_refl _
    · intro _
      simp only [add_bits_loop_length]

theorem getD_append_single (bits : List Bool) (b : Bool) (p : Nat) :
    (bits ++ [b]).getD p false = (bits.getD p false || (decide (p = bits.length) && b)) := by
  rw [getD_append_bits]
  congr 1
  by_cases h1 : p = bits.length
  · subst h1
    simp
  · by_cases h2 : bits.length ≤ p
    · have h3 : p - bits.length = (p - bits.length - 1) + 1 := by omega
      rw [h3]
      simp [h1, h2]
    · simp [h1, h2]

theorem holds_addBit (len0 : Nat) (w : BitArrayWriter) (bits : List Bool) (b : Bool)
    (h : w.Holds len0 bits) (hl0 : len0 < 2 ^ 57) (hn : bits.length + 1 < 2 ^ 62) :
    (w.AddBit b).Holds len0 (bits ++ [b]) ∧
      w.data.length ≤ (w.AddBit b).data.length ∧
      (bits.length < 64 * w.data.length → (w.AddBit b).data.length = w.data.length) := by
  have hlen := holds_length_lt len0 w bits h hl0 (by omega)
  obtain ⟨hpos, hfit, hbound, hwords, hbits⟩ := h
  have hlast : (bits.length + 1) % 2 ^ 64 = bits.length + 1 := Nat.mod_eq_of_lt (by omega)
  have hcap : w.data.length * 64 % 2 ^ 64 = w.data.length * 64 := Nat.mod_eq_of_lt (by omega)
  have key : ∀ data : List Nat, bits.length < 64 * data.length →
      data.length ≤ max len0 (2 * ((bits.length + 1) / 64 + 1)) →
      (∀ x ∈ data, x < 2 ^ 64) → (∀ p, array_bit data p = array_bit w.data p) →
      BitArrayWriter.Holds len0
        { data := (if b = true then
            or_word data (bits.length / 64) ((1 <<< (bits.length % 64)) % 2 ^ 64)
            else data),
          last_bit_pos := bits.length + 1 } (bits ++ [b]) := by
    intro data hfit2 hbound2 hwords2 hbits2
    have hidx : bits.length / 64 < data.length := by omega
    cases b with
    | false =>
      refine ⟨by simp, ?_, ?_, hwords2, ?_⟩
      · simp only [List.length_append, List.length_singleton]
        simp
        omega
      · simp only [List.length_append, List.length_singleton]
        simpa using hbound2
      · intro p
        rw [getD_append_single]
        simp [hbits2, hbits]
    | true =>
      refine ⟨by simp, ?_, ?_, ?_, ?_⟩
      · simp only [List.length_append, List.length_singleton, if_true, or_word_length]
        omega
      · simp only [List.length_append, List.length_singleton, if_true, or_word_length]
        exact hbound2
      · simp only [if_true]
        exact or_word_lt _ _ _ hwords2 (Nat.mod_lt _ (by norm_num))
      · intro p
        have := array_bit_or_bit data bits.length p true hidx
        simp only [if_true] at this ⊢
        rw [this, getD_append_single, hbits2, hbits]
  have hmono : bits.length / 64 ≤ (bits.length + 1) / 64 := Nat.div_le_div_right (by omega)
  unfold BitArrayWriter.AddBit
  simp only [BitArrayWriter.GetBitCapacity, hcap, hpos]
  by_cases hc : bits.length = w.data.length * 64
  · rw [if_pos hc]
    obtain ⟨hr0, hr1, hr2, hr3, hr4, hr5⟩ := resize_spec w 0 (by omega) (by norm_num)
    have k := key (w.Resize 0).data (by omega) (by omega) (hr4 hwords) hr5
    cases b with
    | false =>
      simp only [Bool.false_eq_true, if_false, hr0, hpos, hlast] at k ⊢
      exact ⟨k, Nat.le_of_lt hr1, fun h => by omega⟩
    | true =>
      simp only [if_true, hr0, hpos, hlast, or_word_length] at k ⊢
      exact ⟨k, Nat.le_of_lt hr1, fun h => by omega⟩
  · rw [if_neg hc]
    have k := key w.data (by omega) (by omega) hwords (fun _ => rfl)
    cases b with
    | false =>
      simp only [Bool.false_eq_true, if_false, hpos, hlast] at k ⊢
      exact ⟨k, Nat.le_refl _, fun _ => trivial⟩
    | true =>
      simp only [if_true, hpos, hlast, or_word_length] at k ⊢
      exact ⟨k, Nat.le_refl _, fun _ => trivial⟩

theorem packed_bits_length (l : List (Nat × Nat)) :
    (packed_bits l).length = (l.map Prod.snd).sum := by
  induction l with
  | nil => rfl
  | cons e es ih => simp [packed_bits, bits_of_length, ih]

theorem holds_foldl_addBit (len0 : Nat) (hl0 : len0 < 2 ^ 57) :
    ∀ (bs : List Bool) (w : BitArrayWriter) (bits : List Bool), w.Holds len0 bits →
      bits.length + bs.length < 2 ^ 62 →
      (bs.foldl BitArrayWriter.AddBit w).Holds len0 (bits ++ bs) ∧
        w.data.length ≤ (bs.foldl BitArrayWriter.AddBit w).data.length ∧
        (bits.length + bs.length ≤ 64 * w.data.length →
          (bs.foldl BitArrayWriter.AddBit w).data.length = w.data.length) := by
  intro bs
  induction bs with
  | nil =>
    intro w bits h _
    simp only [List.foldl_nil, List.append_nil]
    exact ⟨h, Nat.le_refl _, fun _ => trivial⟩
  | cons b bs ih =>
    intro w bits h hn
    simp only [List.length_cons] at hn
    obtain ⟨h1, h2, h3⟩ := holds_addBit len0 w bits b h hl0 (by omega)
    obtain ⟨k1, k2, k3⟩ := ih (w.AddBit b) (bits ++ [b]) h1 (by simp; omega)
    simp only [List.foldl_cons]
    refine ⟨by simpa using k1, by omega, fun hfit => ?_⟩
    simp only [List.length_cons] at hfit
    have e1 := h3 (by omega)
    rw [k3 (by simp; omega), e1]

theorem holds_foldl_addBits (len0 : Nat) (hl0 : len0 < 2 ^ 57) :
    ∀ (l : List (Nat × Nat)) (w : BitArrayWriter) (bits : List Bool), w.Holds len0 bits →
      bits.length + (l.map Prod.snd).sum < 2 ^ 62 →
      (l.foldl (fun w e => w.AddBits e.1 e.2) w).Holds len0 (bits ++ packed_bits l) ∧
        w.data.length ≤ (l.foldl (fun w e => w.AddBits e.1 e.2) w).data.length ∧
        (bits.length + (l.map Prod.snd).sum ≤ 64 * w.data.length →
          (l.foldl (fun w e => w.AddBits e.1 e.2) w).data.length = w.data.length) := by
  intro l
  induction l with
  | nil =>
    intro w bits h _
    simp only [List.foldl_nil, packed_bits, List.append_nil]
    exact ⟨h, Nat.le_refl _, fun _ => trivial⟩
  | cons e es ih =>
    intro w bits h hn
    simp only [List.map_cons, List.sum_cons] at hn
    obtain ⟨h1, h2, h3⟩ := holds_addBits len0 w bits e.1 e.2 h hl0 (by omega)
    obtain ⟨k1, k2, k3⟩ := ih (w.AddBits e.1 e.2) (bits ++ bits_of e.1 e.2) h1
      (by simp only [List.length_append, bits_of_length]; omega)
    simp only [List.foldl_cons, packed_bits]
    refine ⟨by simpa using k1, by omega, fun hfit => ?_⟩
    simp only [List.map_cons, List.sum_cons] at hfit
    have e1 := h3 (by omega)
    rw [k3 (by simp only [List.length_append, bits_of_length]; omega), e1]

/-! ## Reading bits back -/

theorem getBit_data (data : List Nat) (p : Nat) (h : p / 64 < data.length) :
    BitArrayReader.GetBit (fun i => data[i]?) p = some (array_bit data p) := by
  unfold BitArrayReader.GetBit array_bit
  simp only [List.getElem?_eq_getElem h, Option.map_some', List.getD_eq_getElem?_getD,
    Option.getD_some, bit_and_one]
  cases (data[p / 64]).testBit (p % 64) <;> simp

theorem getWord_testBit (d : Nat → Option Nat) (pos w0 : Nat) (h0 : d (pos / 64) = some w0)
    (hw0 : w0 < 2 ^ 64) (h1 : pos % 64 ≠ 0 → ∃ w1, d (pos / 64 + 1) = some w1) :
    ∃ r, BitArrayReader.GetWord d pos = some r ∧ r < 2 ^ 64 ∧
      ∀ j, j < 64 → r.testBit j =
        if pos % 64 + j < 64 then w0.testBit (pos % 64 + j)
        else ((d (pos / 64 + 1)).getD 0).testBit (pos % 64 + j - 64) := by
  unfold BitArrayReader.GetWord
  rw [h0, Option.some_bind]
  have hoff : pos % 64 < 64 := Nat.mod_lt _ (by norm_num)
  have hsh : w0 >>> (pos % 64) < 2 ^ 64 :=
    lt_of_le_of_lt (by rw [Nat.shiftRight_eq_div_pow]; exact Nat.div_le_self _ _) hw0
  by_cases hz : pos % 64 = 0
  · rw [if_neg (by simpa using hz)]
    refine ⟨_, rfl, hsh, fun j hj => ?_⟩
    rw [Nat.testBit_shiftRight, if_pos (by omega)]
  · obtain ⟨w1, hw1⟩ := h1 hz
    rw [if_pos hz, hw1, Option.map_some']
    refine ⟨_, rfl, Nat.or_lt_two_pow hsh (Nat.mod_lt _ (by norm_num)), fun j hj => ?_⟩
    rw [Nat.testBit_or, Nat.testBit_shiftRight, Nat.testBit_mod_two_pow, Nat.testBit_shiftLeft,
      Option.getD_some]
    by_cases hlt : pos % 64 + j < 64
    · have e1 : ¬ j ≥ 64 - pos % 64 := by omega
      simp [hlt, e1]
    · have e1 : j ≥ 64 - pos % 64 := by omega
      have e2 : w0.testBit (pos % 64 + j) = false :=
        Nat.testBit_lt_two_pow (lt_of_lt_of_le hw0 (Nat.pow_le_pow_right (by norm_num) (by omega)))
      have e3 : j - (64 - pos % 64) = pos % 64 + j - 64 := by omega
      simp [hlt, e1, e2, e3, hj]

theorem getWord_array_bit (data : List Nat) (pos : Nat) (hw : ∀ x ∈ data, x < 2 ^ 64)
    (d : Nat → Option Nat) (hd : ∀ k, k < data.length → d k = data[k]?)
    (h0 : pos / 64 < data.length) (h1 : pos % 64 ≠ 0 → ∃ w1, d (pos / 64 + 1) = some w1) :
    ∃ r, BitArrayReader.GetWord d pos = some r ∧ r < 2 ^ 64 ∧
      ∀ j, j < 64 → (pos + j) / 64 < data.length → r.testBit j = array_bit data (pos + j) := by
  have hd0 : d (pos / 64) = some data[pos / 64] := by
    rw [hd _ h0, List.getElem?_eq_getElem h0]
  obtain ⟨r, hr, hlt, hbit⟩ := getWord_testBit d pos _ hd0 (hw _ (List.getElem_mem h0)) h1
  refine ⟨r, hr, hlt, fun j hj hin => ?_⟩
  rw [hbit j hj]
  unfold array_bit
  by_cases hlt2 : pos % 64 + j < 64
  · have e1 : (pos + j) / 64 = pos / 64 := by omega
    have e2 : (pos + j) % 64 = pos % 64 + j := by omega
    rw [if_pos hlt2, e1, e2, List.getD_eq_getElem?_getD, List.getElem?_eq_getElem h0,
      Option.getD_some]
  · have e1 : (pos + j) / 64 = pos / 64 + 1 := by omega
    have e2 : (pos + j) % 64 = pos % 64 + j - 64 := by omega
    rw [if_neg hlt2, e1, e2, List.getD_eq_getElem?_getD, hd _ (by omega)]

/-- C24 (AddBit/GetBit round trip).  For every initial capacity `c` and every sequence of
booleans appended with `AddBit` to a fresh `BitArrayWriter(c)` (both below `2^62`, so that no
64-bit counter wraps), `GetPos()` is the number of appended bits and a reader over the
writer's words returns `GetBit(i) = b_i` for every `i < n`. -/
theorem C24_add_bit_round_trip (c : Nat) (bs : List Bool) (hc : c < 2 ^ 62)
    (hn : bs.length < 2 ^ 62) :
    (bs.foldl BitArrayWriter.AddBit (BitArrayWriter.new c)).GetPos = bs.length ∧
      ∀ i (hi : i < bs.length),
        BitArrayReader.GetBit (bs.foldl BitArrayWriter.AddBit (BitArrayWriter.new c)).GetData i =
          some bs[i] := by
  obtain ⟨⟨hpos, hfit, _, _, hbits⟩, _, _⟩ :=
    holds_foldl_addBit ((c + 63) / 64) (by omega) bs (BitArrayWriter.new c) [] (holds_new c)
      (by simpa using hn)
  simp only [List.nil_append] at hpos hfit hbits
  refine ⟨hpos, fun i hi => ?_⟩
  unfold BitArrayWriter.GetData
  rw [getBit_data _ _ (by omega), hbits, List.getD_eq_getElem?_getD,
    List.getElem?_eq_getElem hi, Option.getD_some]

/-- C24 at a concrete input: five bits appended to a writer of capacity 0. -/
theorem C24_witness :
    ([true, false, true, true, false].foldl BitArrayWriter.AddBit (BitArrayWriter.new 0)).GetPos =
        [true, false, true, true, false].length ∧
      ∀ i (hi : i < [true, false, true, true, false].length),
        BitArrayReader.GetBit
            ([true, false, true, true, false].foldl BitArrayWriter.AddBit
              (BitArrayWriter.new 0)).GetData i =
          some [true, false, true, true, false][i] :=
  C24_add_bit_round_trip 0 [true, false, true, true, false] (by decide) (by decide)

/-- C27 (GetWord stitching).  For every array of 64-bit words and every bit position `pos`
such that word `pos / 64` exists, and word `pos / 64 + 1` too when `pos mod 64 ≠ 0`,
`GetWord(pos)` returns a 64-bit word whose bit `j` is the array bit at position `pos + j`,
for every `j < 64`. -/
theorem C27_get_word_stitching (data : List Nat) (pos : Nat) (hw : ∀ x ∈ data, x < 2 ^ 64)
    (h0 : pos / 64 < data.length) (h1 : pos % 64 ≠ 0 → pos / 64 + 1 < data.length) :
    ∃ r, BitArrayReader.GetWord (fun i => data[i]?) pos = some r ∧ r < 2 ^ 64 ∧
      ∀ j, j < 64 → r.testBit j = array_bit data (pos + j) ∧
        array_bit data (pos + j) = (data.getD ((pos + j) / 64) 0).testBit ((pos + j) % 64) := by
  obtain ⟨r, hr, hlt, hbit⟩ := getWord_array_bit data pos hw (fun i => data[i]?)
    (fun _ _ => rfl) h0 (fun hz => ⟨data[pos / 64 + 1], List.getElem?_eq_getElem (h1 hz)⟩)
  refine ⟨r, hr, hlt, fun j hj => ⟨hbit j hj ?_, rfl⟩⟩
  by_cases hz : pos % 64 = 0
  · omega
  · have := h1 hz
    omega

/-- C27 at a concrete input: position 4 of a two-word array. -/
theorem C27_witness :
    ∃ r, BitArrayReader.GetWord (fun i => [2 ^ 64 - 16, 5][i]?) 4 = some r ∧ r < 2 ^ 64 ∧
      ∀ j, j < 64 → r.testBit j = array_bit [2 ^ 64 - 16, 5] (4 + j) ∧
        array_bit [2 ^ 64 - 16, 5] (4 + j) =
          (([2 ^ 64 - 16, 5] : List Nat).getD ((4 + j) / 64) 0).testBit ((4 + j) % 64) :=
  C27_get_word_stitching [2 ^ 64 - 16, 5] 4 (by decide) (by decide) (by decide)

/-- C29 (capacity granularity).  A `BitArrayWriter` constructed with capacity `c` bits
(`c < 2^61`) holds exactly `ceil(c / 64)` words, and after appending any
`n <= 64 * ceil(c / 64)` bits with `AddBit` the vector still has `ceil(c / 64)` words:
`GetPos() = n` and `GetCapacity() = 8 * ceil(c / 64)`. -/
theorem C29_capacity_granularity (c : Nat) (bs : List Bool) (hc : c < 2 ^ 61)
    (hn : bs.length ≤ 64 * ((c + 63) / 64)) :
    (BitArrayWriter.new c).data.length = (c + 63) / 64 ∧
      (BitArrayWriter.new c).GetCapacity = 8 * ((c + 63) / 64) ∧
      (bs.foldl BitArrayWriter.AddBit (BitArrayWriter.new c)).GetPos = bs.length ∧
      (bs.foldl BitArrayWriter.AddBit (BitArrayWriter.new c)).data.length = (c + 63) / 64 ∧
      (bs.foldl BitArrayWriter.AddBit (BitArrayWriter.new c)).GetCapacity =
        8 * ((c + 63) / 64) := by
  obtain ⟨⟨hpos, _, _, _, _⟩, _, hsame⟩ :=
    holds_foldl_addBit ((c + 63) / 64) (by omega) bs (BitArrayWriter.new c) [] (holds_new c)
      (by simp only [List.length_nil]; omega)
  simp only [List.nil_append, List.length_nil, Nat.zero_add, new_length] at hpos hsame
  have hlen := hsame hn
  refine ⟨new_length c, ?_, hpos, hlen, ?_⟩
  · unfold BitArrayWriter.GetCapacity
    rw [new_length]
    omega
  · unfold BitArrayWriter.GetCapacity
    rw [hlen]
    omega

/-- C29 at a concrete input: capacity 65 bits, 128 appended bits. -/
theorem C29_witness :
    (BitArrayWriter.new 65).data.length = (65 + 63) / 64 ∧
      (BitArrayWriter.new 65).GetCapacity = 8 * ((65 + 63) / 64) ∧
      ((List.replicate 128 true).foldl BitArrayWriter.AddBit (BitArrayWriter.new 65)).GetPos =
        (List.replicate 128 true).length ∧
      ((List.replicate 128 true).foldl BitArrayWriter.AddBit
        (BitArrayWriter.new 65)).data.length = (65 + 63) / 64 ∧
      ((List.replicate 128 true).foldl BitArrayWriter.AddBit
        (BitArrayWriter.new 65)).GetCapacity = 8 * ((65 + 63) / 64) :=
  C29_capacity_granularity 65 (List.replicate 128 true) (by decide) (by simp)

/-! ## `SetBit` and the capacity -/

theorem testBit_not_one_shift (k j : Nat) (hk : k < 64) (hj : j < 64) :
    (2 ^ 64 - 1 - (1 <<< k) % 2 ^ 64).testBit j = !decide (j = k) := by
  have h2 : 2 ^ k < 2 ^ 64 := Nat.pow_lt_pow_right (by norm_num) hk
  rw [Nat.one_shiftLeft, Nat.mod_eq_of_lt h2]
  have e : 2 ^ 64 - 1 - 2 ^ k = 2 ^ 64 - (2 ^ k + 1) := by omega
  rw [e, Nat.testBit_two_pow_sub_succ h2, Nat.testBit_two_pow]
  simp [hj, eq_comm]

theorem array_bit_and_bit (data : List Nat) (pos p : Nat) (h : pos / 64 < data.length) :
    array_bit (and_word data (pos / 64) (2 ^ 64 - 1 - (1 <<< (pos % 64)) % 2 ^ 64)) p =
      (array_bit data p && !decide (p = pos)) := by
  rw [array_bit_and_word _ _ _ _ h,
    testBit_not_one_shift _ _ (Nat.mod_lt _ (by norm_num)) (Nat.mod_lt _ (by norm_num))]
  congr 1
  by_cases h1 : p = pos
  · subst h1
    simp
  · have h2 : ¬ (p / 64 = pos / 64 ∧ p % 64 = pos % 64) := fun e => h1 ((pos_eq_iff p pos).1 e)
    by_cases h3 : p / 64 = pos / 64
    · have h4 : ¬ p % 64 = pos % 64 := fun e => h2 ⟨h3, e⟩
      simp [h1, h3, h4]
    · simp [h1, h3]

theorem array_bit_outside (data : List Nat) (p : Nat) (h : data.length ≤ p / 64) :
    array_bit data p = false := by
  unfold array_bit
  rw [List.getD_eq_getElem?_getD, List.getElem?_eq_none h]
  simp

theorem setBit_spec (w : BitArrayWriter) (pos : Nat) (b : Bool) (hlen : w.data.length < 2 ^ 57)
    (hpos : pos < 2 ^ 62) :
    (w.SetBit pos b).last_bit_pos = w.last_bit_pos ∧
      w.data.length ≤ (w.SetBit pos b).data.length ∧
      pos / 64 < (w.SetBit pos b).data.length ∧
      (w.SetBit pos b).data.length < 2 ^ 58 ∧
      ∀ p, array_bit (w.SetBit pos b).data p = if p = pos then b else array_bit w.data p := by
  have hcap : w.data.length * 64 % 2 ^ 64 = w.data.length * 64 := Nat.mod_eq_of_lt (by omega)
  have hw1 : ∃ w1 : BitArrayWriter,
      (if pos ≥ w.data.length * 64 then w.Resize pos else w) = w1 ∧
      w1.last_bit_pos = w.last_bit_pos ∧ w.data.length ≤ w1.data.length ∧
      pos / 64 < w1.data.length ∧ w1.data.length < 2 ^ 58 ∧
      ∀ p, array_bit w1.data p = array_bit w.data p := by
    by_cases hc : pos ≥ w.data.length * 64
    · rw [if_pos hc]
      obtain ⟨hr0, hr1, hr2, hr3, _, hr5⟩ := resize_spec w pos (by omega) (by omega)
      exact ⟨_, rfl, hr0, Nat.le_of_lt hr1, by omega, by omega, hr5⟩
    · rw [if_neg hc]
      exact ⟨_, rfl, rfl, Nat.le_refl _, by omega, by omega, fun _ => rfl⟩
  obtain ⟨w1, he, h1, h2, h3, h4, h5⟩ := hw1
  unfold BitArrayWriter.SetBit
  simp only [BitArrayWriter.GetBitCapacity, hcap]
  rw [he]
  cases b with
  | false =>
    simp only [Bool.false_eq_true, if_false, and_word_length]
    refine ⟨h1, h2, h3, h4, fun p => ?_⟩
    rw [array_bit_and_bit _ _ _ h3, h5]
    by_cases hp : p = pos <;> simp [hp]
  | true =>
    simp only [if_true, or_word_length]
    refine ⟨h1, h2, h3, h4, fun p => ?_⟩
    have := array_bit_or_bit w1.data pos p true h3
    simp only [if_true] at this
    rw [this, h5]
    by_cases hp : p = pos <;> simp [hp]

/-- C26 (SetBit postcondition and frame).  For every writer state (fewer than `2^57`
words), position `pos < 2^62` and boolean `b`: after `SetBit(pos, b)` the cursor `GetPos()`
is unchanged, the capacity did not shrink and covers `pos`, the bit at `pos` reads `b`,
every other position inside the old capacity reads what it read before, and every other
position the resize added reads 0. -/
theorem C26_set_bit_frame (w : BitArrayWriter) (pos : Nat) (b : Bool)
    (hlen : w.data.length < 2 ^ 57) (hpos : pos < 2 ^ 62) :
    (w.SetBit pos b).GetPos = w.GetPos ∧
      w.GetBitCapacity ≤ (w.SetBit pos b).GetBitCapacity ∧
      pos < (w.SetBit pos b).GetBitCapacity ∧
      BitArrayReader.GetBit (w.SetBit pos b).GetData pos = some b ∧
      ∀ p, p ≠ pos →
        (p < w.GetBitCapacity →
          BitArrayReader.GetBit (w.SetBit pos b).GetData p =
            BitArrayReader.GetBit w.GetData p) ∧
        (w.GetBitCapacity ≤ p → p < (w.SetBit pos b).GetBitCapacity →
          BitArrayReader.GetBit (w.SetBit pos b).GetData p = some false) := by
  obtain ⟨h1, h2, h3, h4, h5⟩ := setBit_spec w pos b hlen hpos
  have hcap : w.data.length * 64 % 2 ^ 64 = w.data.length * 64 := Nat.mod_eq_of_lt (by omega)
  have hcap2 : (w.SetBit pos b).data.length * 64 % 2 ^ 64 = (w.SetBit pos b).data.length * 64 :=
    Nat.mod_eq_of_lt (by omega)
  unfold BitArrayWriter.GetPos BitArrayWriter.GetBitCapacity BitArrayWriter.GetData
  rw [hcap, hcap2]
  refine ⟨h1, by omega, by omega, ?_, fun p hp => ⟨fun hin => ?_, fun hout hin => ?_⟩⟩
  · rw [getBit_data _ _ h3, h5, if_pos rfl]
  · rw [getBit_data _ _ (by omega), getBit_data _ _ (by omega), h5, if_neg hp]
  · rw [getBit_data _ _ (by omega), h5, if_neg hp, array_bit_outside _ _ (by omega)]

/-- C26 at a concrete input: bit 200 set in a one-word writer holding one bit. -/
theorem C26_witness :
    (((BitArrayWriter.new 1).AddBit true).SetBit 200 true).GetPos =
        ((BitArrayWriter.new 1).AddBit true).GetPos ∧
      ((BitArrayWriter.new 1).AddBit true).GetBitCapacity ≤
        (((BitArrayWriter.new 1).AddBit true).SetBit 200 true).GetBitCapacity ∧
      200 < (((BitArrayWriter.new 1).AddBit true).SetBit 200 true).GetBitCapacity ∧
      BitArrayReader.GetBit (((BitArrayWriter.new 1).AddBit true).SetBit 200 true).GetData 200 =
        some true ∧
      ∀ p, p ≠ 200 →
        (p < ((BitArrayWriter.new 1).AddBit true).GetBitCapacity →
          BitArrayReader.GetBit (((BitArrayWriter.new 1).AddBit true).SetBit 200 true).GetData p =
            BitArrayReader.GetBit ((BitArrayWriter.new 1).AddBit true).GetData p) ∧
        (((BitArrayWriter.new 1).AddBit true).GetBitCapacity ≤ p →
          p < (((BitArrayWriter.new 1).AddBit true).SetBit 200 true).GetBitCapacity →
          BitArrayReader.GetBit (((BitArrayWriter.new 1).AddBit true).SetBit 200 true).GetData p =
            some false) :=
  C26_set_bit_frame ((BitArrayWriter.new 1).AddBit true) 200 true (by decide) (by decide)

theorem add_values_loop_length (nbits : Nat) :
    ∀ (values : List Nat) (pos : Nat) (data : List Nat),
      (add_values_loop nbits values pos data).length = data.length := by
  intro values
  induction values with
  | nil => intro pos data; rfl
  | cons v vs ih =>
    intro pos data
    rw [add_values_loop, ih, add_bits_loop_length]

theorem addBit_shape (w : BitArrayWriter) (b : Bool) :
    (w.AddBit b).data.length =
        (if w.last_bit_pos = w.GetBitCapacity then w.Resize 0 else w).data.length ∧
      (w.AddBit b).last_bit_pos =
        ((if w.last_bit_pos = w.GetBitCapacity then w.Resize 0 else w).last_bit_pos + 1) %
          2 ^ 64 := by
  unfold BitArrayWriter.AddBit
  cases b <;> simp [or_word_length]

theorem append_capacity (w : BitArrayWriter) (n : Nat) (data : List Nat)
    (hlen : w.data.length < 2 ^ 57) (hn : w.last_bit_pos + n < 2 ^ 62)
    (hd : data.length =
      (if ({ w with last_bit_pos := (w.last_bit_pos + n) % 2 ^ 64 } :
            BitArrayWriter).GetBitCapacity < (w.last_bit_pos + n) % 2 ^ 64 then
          ({ w with last_bit_pos := (w.last_bit_pos + n) % 2 ^ 64 } : BitArrayWriter).Resize
            ((w.last_bit_pos + n) % 2 ^ 64)
        else { w with last_bit_pos := (w.last_bit_pos + n) % 2 ^ 64 }).data.length) :
    w.data.length ≤ data.length ∧ data.length < 2 ^ 58 ∧
      w.last_bit_pos + n ≤ data.length * 64 := by
  have hcap : w.data.length * 64 % 2 ^ 64 = w.data.length * 64 := Nat.mod_eq_of_lt (by omega)
  have hlast : (w.last_bit_pos + n) % 2 ^ 64 = w.last_bit_pos + n := Nat.mod_eq_of_lt (by omega)
  simp only [BitArrayWriter.GetBitCapacity, hcap, hlast] at hd
  by_cases hc : w.data.length * 64 < w.last_bit_pos + n
  · rw [if_pos hc] at hd
    obtain ⟨_, hr1, hr2, hr3, _, _⟩ := resize_spec
      { w with last_bit_pos := w.last_bit_pos + n } (w.last_bit_pos + n) (by simpa using by omega)
      (by omega)
    simp only at hr1 hr2 hr3
    omega
  · rw [if_neg hc] at hd
    simp only at hd
    omega

/-- C28 (capacity never shrinks and covers the cursor).  For every writer state whose cursor
is within the capacity (fewer than `2^57` words) and every operation `AddBit`, `AddBits` (one
value or an array of values, `nbits <= 64`, cursor staying below `2^62`) or `SetBit`
(`pos < 2^62`): the bit capacity after the operation is at least the one before, and after
each of the three append operations `GetPos() <= GetBitCapacity()`, with `GetPos()` advanced
by the number of appended bits. -/
theorem C28_capacity_monotone (w : BitArrayWriter) (hlen : w.data.length < 2 ^ 57)
    (hinv : w.GetPos ≤ w.GetBitCapacity) :
    (∀ b, w.GetBitCapacity ≤ (w.AddBit b).GetBitCapacity ∧
        (w.AddBit b).GetPos = w.GetPos + 1 ∧
        (w.AddBit b).GetPos ≤ (w.AddBit b).GetBitCapacity) ∧
      (∀ value nbits, nbits ≤ 64 → w.GetPos + nbits < 2 ^ 62 →
        w.GetBitCapacity ≤ (w.AddBits value nbits).GetBitCapacity ∧
        (w.AddBits value nbits).GetPos = w.GetPos + nbits ∧
        (w.AddBits value nbits).GetPos ≤ (w.AddBits value nbits).GetBitCapacity) ∧
      (∀ values nbits, nbits ≤ 64 → values.length * nbits < 2 ^ 62 →
        w.GetPos + values.length * nbits < 2 ^ 62 →
        w.GetBitCapacity ≤ (w.AddBits_values values nbits).GetBitCapacity ∧
        (w.AddBits_values values nbits).GetPos = w.GetPos + values.length * nbits ∧
        (w.AddBits_values values nbits).GetPos ≤
          (w.AddBits_values values nbits).GetBitCapacity) ∧
      (∀ pos b, pos < 2 ^ 62 →
        w.GetBitCapacity ≤ (w.SetBit pos b).GetBitCapacity ∧
        (w.SetBit pos b).GetPos ≤ (w.SetBit pos b).GetBitCapacity) := by
  have hcap : w.data.length * 64 % 2 ^ 64 = w.data.length * 64 := Nat.mod_eq_of_lt (by omega)
  unfold BitArrayWriter.GetPos BitArrayWriter.GetBitCapacity at *
  rw [hcap] at hinv ⊢
  refine ⟨fun b => ?_, fun value nbits _ hn => ?_, fun values nbits _ hv hn => ?_,
    fun pos b hpos => ?_⟩
  · obtain ⟨h1, h2⟩ := addBit_shape w b
    simp only [BitArrayWriter.GetBitCapacity, hcap] at h1 h2
    by_cases hc : w.last_bit_pos = w.data.length * 64
    · rw [if_pos hc] at h1 h2
      obtain ⟨hr0, hr1, hr2, hr3, _, _⟩ := resize_spec w 0 (by omega) (by norm_num)
      rw [hr0] at h2
      rw [h1, h2]
      omega
    · rw [if_neg hc] at h1 h2
      rw [h1, h2]
      omega
  · have hlast : (w.last_bit_pos + nbits) % 2 ^ 64 = w.last_bit_pos + nbits :=
      Nat.mod_eq_of_lt (by omega)
    obtain ⟨k1, k2, k3⟩ := append_capacity w nbits (w.AddBits value nbits).data hlen hn (by
      unfold BitArrayWriter.AddBits
      simp only [add_bits_loop_length])
    have hp : (w.AddBits value nbits).last_bit_pos = w.last_bit_pos + nbits := by
      unfold BitArrayWriter.AddBits
      simp only [hlast]
      split <;> rfl
    rw [hp]
    omega
  · have hlast : (w.last_bit_pos + values.length * nbits % 2 ^ 64) % 2 ^ 64 =
        w.last_bit_pos + values.length * nbits := by
      rw [Nat.mod_eq_of_lt (a := values.length * nbits) (by omega)]
      exact Nat.mod_eq_of_lt (by omega)
    have hv2 : values.length * nbits % 2 ^ 64 = values.length * nbits :=
      Nat.mod_eq_of_lt (by omega)
    obtain ⟨k1, k2, k3⟩ := append_capacity w (values.length * nbits)
      (w.AddBits_values values nbits).data hlen hn (by
        unfold BitArrayWriter.AddBits_values
        simp only [add_values_loop_length, hv2])
    have hp : (w.AddBits_values values nbits).last_bit_pos =
        w.last_bit_pos + values.length * nbits := by
      unfold BitArrayWriter.AddBits_values
      simp only [hlast]
      split <;> rfl
    rw [hp]
    omega
  · obtain ⟨h1, h2, h3, h4, _⟩ := setBit_spec w pos b hlen hpos
    rw [h1]
    omega

/-- C28 at a concrete input: a fresh writer of capacity 100 bits. -/
theorem C28_witness :
    (∀ b, (BitArrayWriter.new 100).GetBitCapacity ≤
          ((BitArrayWriter.new 100).AddBit b).GetBitCapacity ∧
        ((BitArrayWriter.new 100).AddBit b).GetPos = (BitArrayWriter.new 100).GetPos + 1 ∧
        ((BitArrayWriter.new 100).AddBit b).GetPos ≤
          ((BitArrayWriter.new 100).AddBit b).GetBitCapacity) ∧
      (∀ value nbits, nbits ≤ 64 → (BitArrayWriter.new 100).GetPos + nbits < 2 ^ 62 →
        (BitArrayWriter.new 100).GetBitCapacity ≤
          ((BitArrayWriter.new 100).AddBits value nbits).GetBitCapacity ∧
        ((BitArrayWriter.new 100).AddBits value nbits).GetPos =
          (BitArrayWriter.new 100).GetPos + nbits ∧
        ((BitArrayWriter.new 100).AddBits value nbits).GetPos ≤
          ((BitArrayWriter.new 100).AddBits value nbits).GetBitCapacity) ∧
      (∀ values nbits, nbits ≤ 64 → values.length * nbits < 2 ^ 62 →
        (BitArrayWriter.new 100).GetPos + values.length * nbits < 2 ^ 62 →
        (BitArrayWriter.new 100).GetBitCapacity ≤
          ((BitArrayWriter.new 100).AddBits_values values nbits).GetBitCapacity ∧
        ((BitArrayWriter.new 100).AddBits_values values nbits).GetPos =
          (BitArrayWriter.new 100).GetPos + values.length * nbits ∧
        ((BitArrayWriter.new 100).AddBits_values values nbits).GetPos ≤
          ((BitArrayWriter.new 100).AddBits_values values nbits).GetBitCapacity) ∧
      (∀ pos b, pos < 2 ^ 62 →
        (BitArrayWriter.new 100).GetBitCapacity ≤
          ((BitArrayWriter.new 100).SetBit pos b).GetBitCapacity ∧
        ((BitArrayWriter.new 100).SetBit pos b).GetPos ≤
          ((BitArrayWriter.new 100).SetBit pos b).GetBitCapacity) :=
  C28_capacity_monotone (BitArrayWriter.new 100) (by decide) (by decide)

/-! ## Reading a field back -/

theorem getBits_field (d : Nat → Option Nat) (data : List Nat) (pos nb v : Nat)
    (hd : ∀ k, k < data.length → d k = data[k]?) (hwords : ∀ x ∈ data, x < 2 ^ 64)
    (hnb : 1 ≤ nb) (hnb2 : nb ≤ 64) (hfit : pos + nb ≤ 64 * data.length)
    (hnext : pos % 64 ≠ 0 → ∃ w1, d (pos / 64 + 1) = some w1)
    (hv : ∀ j, j < nb → array_bit data (pos + j) = v.testBit j) :
    BitArrayReader.GetBits d pos (2 ^ nb - 1) = some (v % 2 ^ nb) := by
  obtain ⟨r, hr, _, hbit⟩ := getWord_array_bit data pos hwords d hd (by omega) hnext
  unfold BitArrayReader.GetBits
  rw [hr, Option.map_some', Nat.and_pow_two_sub_one_eq_mod]
  congr 1
  apply Nat.eq_of_testBit_eq
  intro j
  rw [Nat.testBit_mod_two_pow, Nat.testBit_mod_two_pow]
  by_cases hj : j < nb
  · rw [hbit j (by omega) (by omega), hv j hj]
  · simp [hj]

theorem sum_take_le (l : List (Nat × Nat)) :
    ∀ (i : Nat) (hi : i < l.length),
      ((l.take i).map Prod.snd).sum + l[i].2 ≤ (l.map Prod.snd).sum := by
  induction l with
  | nil => intro i hi; simp at hi
  | cons e es ih =>
    intro i hi
    cases i with
    | zero => simp
    | succ i =>
      have := ih i (by simpa using hi)
      simp only [List.take_succ_cons, List.map_cons, List.sum_cons, List.getElem_cons_succ]
      omega

theorem packed_bits_getD (l : List (Nat × Nat)) :
    ∀ (i : Nat) (hi : i < l.length) (j : Nat), j < l[i].2 →
      (packed_bits l).getD (((l.take i).map Prod.snd).sum + j) false = l[i].1.testBit j := by
  induction l with
  | nil => intro i hi; simp at hi
  | cons e es ih =>
    intro i hi j hj
    rw [packed_bits, getD_append_bits, bits_of_getD, bits_of_length]
    cases i with
    | zero =>
      simp only [List.getElem_cons_zero] at hj
      have h2 : ¬ e.2 ≤ j := by omega
      simp [hj, h2]
    | succ i =>
      simp only [List.getElem_cons_succ] at hj
      have := ih i (by simpa using hi) j hj
      simp only [List.take_succ_cons, List.map_cons, List.sum_cons, List.getElem_cons_succ]
      have h1 : ¬ e.2 + ((es.take i).map Prod.snd).sum + j < e.2 := by omega
      have h2 : e.2 ≤ e.2 + ((es.take i).map Prod.snd).sum + j := by omega
      have h3 : e.2 + ((es.take i).map Prod.snd).sum + j - e.2 =
          ((es.take i).map Prod.snd).sum + j := by omega
      simp only [h1, h2, h3, decide_False, decide_True, Bool.false_and, Bool.true_and,
        Bool.false_or]
      exact this

/-- The fields written by a sequence of `AddBits` calls on a fresh writer, read back with
`GetBits` through any word array `d` that shows the writer's words and, where the read of a
field touches the word after the one the field starts in, some word there. -/
theorem addBits_read_back (c : Nat) (l : List (Nat × Nat)) (hc : c < 2 ^ 62)
    (hnb : ∀ e ∈ l, 1 ≤ e.2 ∧ e.2 ≤ 64) (hsum : (l.map Prod.snd).sum < 2 ^ 62) :
    (l.foldl (fun w e => w.AddBits e.1 e.2) (BitArrayWriter.new c)).last_bit_pos =
        (l.map Prod.snd).sum ∧
      (l.map Prod.snd).sum ≤
        64 * (l.foldl (fun w e => w.AddBits e.1 e.2) (BitArrayWriter.new c)).data.length ∧
      ((l.map Prod.snd).sum ≤ 64 * ((c + 63) / 64) →
        (l.foldl (fun w e => w.AddBits e.1 e.2) (BitArrayWriter.new c)).data.length =
          (c + 63) / 64) ∧
      (∀ i (hi : i < l.length) (j : Nat), j < l[i].2 →
        array_bit (l.foldl (fun w e => w.AddBits e.1 e.2) (BitArrayWriter.new c)).data
          (((l.take i).map Prod.snd).sum + j) = l[i].1.testBit j) ∧
      ∀ (d : Nat → Option Nat),
        (∀ k, k < (l.foldl (fun w e => w.AddBits e.1 e.2) (BitArrayWriter.new c)).data.length →
          d k = (l.foldl (fun w e => w.AddBits e.1 e.2) (BitArrayWriter.new c)).data[k]?) →
        ∀ i (hi : i < l.length),
          (((l.take i).map Prod.snd).sum % 64 ≠ 0 →
            ∃ w1, d (((l.take i).map Prod.snd).sum / 64 + 1) = some w1) →
          BitArrayReader.GetBits d (((l.take i).map Prod.snd).sum) (2 ^ l[i].2 - 1) =
            some (l[i].1 % 2 ^ l[i].2) := by
  obtain ⟨⟨hpos, hfit, _, hwords, hbits⟩, _, hsame⟩ :=
    holds_foldl_addBits ((c + 63) / 64) (by omega) l (BitArrayWriter.new c) [] (holds_new c)
      (by simpa using hsum)
  simp only [List.nil_append, List.length_nil, Nat.zero_add, new_length,
    packed_bits_length] at hpos hfit hbits hsame
  have hb : ∀ i (hi : i < l.length) (j : Nat), j < l[i].2 →
      array_bit (l.foldl (fun w e => w.AddBits e.1 e.2) (BitArrayWriter.new c)).data
        (((l.take i).map Prod.snd).sum + j) = l[i].1.testBit j := by
    intro i hi j hj
    rw [hbits, packed_bits_getD l i hi j hj]
  refine ⟨hpos, hfit, hsame, hb, fun d hd i hi hnext => ?_⟩
  obtain ⟨h1, h2⟩ := hnb _ (List.getElem_mem hi)
  have hle := sum_take_le l i hi
  exact getBits_field d _ _ _ _ hd hwords h1 h2 (by omega) hnext (hb i hi)

/-- The `AddBits`/`GetBits` round trip where the reads are defined.  For every sequence of
`(value_i, nbits_i)` with `1 <= nbits_i <= 63` appended with `AddBits` to a fresh `BitArrayWriter(c)` (capacity
and total below `2^62`): `GetPos()` is the sum of all `nbits_i`; with `p_i` the sum of the
`nbits_j` for `j < i`, a reader over the writer returns
`GetBits(p_i, 2^nbits_i - 1) = value_i mod 2^nbits_i` whenever `p_i` is a multiple of 64 or
the word after the one holding bit `p_i` is inside the vector; and whatever word `x` stands
right after the vector, a reader over the words followed by `x` returns that value for
every `i`. -/
theorem addBits_round_trip (c : Nat) (l : List (Nat × Nat)) (hc : c < 2 ^ 62)
    (hnb : ∀ e ∈ l, 1 ≤ e.2 ∧ e.2 ≤ 63) (hsum : (l.map Prod.snd).sum < 2 ^ 62) :
    (l.foldl (fun w e => w.AddBits e.1 e.2) (BitArrayWriter.new c)).GetPos =
        (l.map Prod.snd).sum ∧
      ∀ i (hi : i < l.length),
        ((((l.take i).map Prod.snd).sum % 64 = 0 ∨
            ((l.take i).map Prod.snd).sum / 64 + 1 <
              (l.foldl (fun w e => w.AddBits e.1 e.2) (BitArrayWriter.new c)).data.length) →
          BitArrayReader.GetBits
              (l.foldl (fun w e => w.AddBits e.1 e.2) (BitArrayWriter.new c)).GetData
              (((l.take i).map Prod.snd).sum) (2 ^ l[i].2 - 1) =
            some (l[i].1 % 2 ^ l[i].2)) ∧
        ∀ x, BitArrayReader.GetBits
            (fun k =>
              ((l.foldl (fun w e => w.AddBits e.1 e.2) (BitArrayWriter.new c)).data ++ [x])[k]?)
            (((l.take i).map Prod.snd).sum) (2 ^ l[i].2 - 1) =
          some (l[i].1 % 2 ^ l[i].2) := by
  obtain ⟨hpos, hfit, _, _, hread⟩ := addBits_read_back c l hc
    (fun e he => ⟨(hnb e he).1, by have := (hnb e he).2; omega⟩) hsum
  refine ⟨hpos, fun i hi => ⟨fun hin => ?_, fun x => ?_⟩⟩
  · refine hread _ (fun _ _ => rfl) i hi (fun hz => ?_)
    rcases hin with h | h
    · exact absurd h hz
    · exact ⟨_, List.getElem?_eq_getElem h⟩
  · have hle := sum_take_le l i hi
    have h1 := (hnb _ (List.getElem_mem hi)).1
    refine hread _ (fun k hk => List.getElem?_append_left hk) i hi (fun _ => ?_)
    exact ⟨_, List.getElem?_eq_getElem (by
      rw [List.length_append, List.length_singleton]
      omega)⟩

/-- The round trip at a concrete input: two fields of 3 and 4 bits in a writer of capacity 100 bits. -/
theorem addBits_round_trip_example :
    (([((5 : Nat), (3 : Nat)), (9, 4)]).foldl (fun w e => w.AddBits e.1 e.2)
                (BitArrayWriter.new 100)).GetPos =
        (([((5 : Nat), (3 : Nat)), (9, 4)]).map Prod.snd).sum ∧
      ∀ i (hi : i < ([((5 : Nat), (3 : Nat)), (9, 4)]).length),
        ((((([((5 : Nat), (3 : Nat)), (9, 4)]).take i).map Prod.snd).sum % 64 = 0 ∨
            ((([((5 : Nat), (3 : Nat)), (9, 4)]).take i).map Prod.snd).sum / 64 + 1 <
              (([((5 : Nat), (3 : Nat)), (9, 4)]).foldl (fun w e => w.AddBits e.1 e.2)
                (BitArrayWriter.new 100)).data.length) →
          BitArrayReader.GetBits
              (([((5 : Nat), (3 : Nat)), (9, 4)]).foldl (fun w e => w.AddBits e.1 e.2)
                (BitArrayWriter.new 100)).GetData
              (((([((5 : Nat), (3 : Nat)), (9, 4)]).take i).map Prod.snd).sum)
              (2 ^ ([((5 : Nat), (3 : Nat)), (9, 4)])[i].2 - 1) =
            some (([((5 : Nat), (3 : Nat)), (9, 4)])[i].1 %
              2 ^ ([((5 : Nat), (3 : Nat)), (9, 4)])[i].2)) ∧
        ∀ x, BitArrayReader.GetBits
            (fun k =>
              ((([((5 : Nat), (3 : Nat)), (9, 4)]).foldl (fun w e => w.AddBits e.1 e.2)
                (BitArrayWriter.new 100)).data ++ [x])[k]?)
            (((([((5 : Nat), (3 : Nat)), (9, 4)]).take i).map Prod.snd).sum)
              (2 ^ ([((5 : Nat), (3 : Nat)), (9, 4)])[i].2 - 1) =
          some (([((5 : Nat), (3 : Nat)), (9, 4)])[i].1 %
              2 ^ ([((5 : Nat), (3 : Nat)), (9, 4)])[i].2) :=
  addBits_round_trip 100 [(5, 3), (9, 4)] (by decide) (by decide) (by decide)

theorem foldl_chunk {σ α : Type} (f : σ → α → σ) (s t : σ) (l : List α) (m n : Nat)
    (h : ((l.drop m).take n).foldl f s = t) :
    (l.drop m).foldl f s = (l.drop (m + n)).foldl f t := by
  rw [← h, ← List.foldl_append, ← List.drop_drop, List.take_append_drop]

/-- The writer of the repository test `BitArrayMultiBits` after its hundred `AddBits` calls on
`BitArrayWriter(100)`: 24 words, cursor at 1500. -/
theorem multibits_test_state :
    multibits_test.foldl (fun (w : BitArrayWriter) e => w.AddBits e.1 e.2)
        (BitArrayWriter.new 100) =
      { data := [3648694997614269203, 1380964941957738801, 3545074822692899603,
        1374488681025153201, 12768042093239388811, 10021374667682237608, 12155550962798609610,
        14594779990457076812, 5523859767830955204, 14180299290771598412, 5497954724100612804,
        14178680225538452012, 3192010523309847202, 11728715703775335210, 3038887740699652402,
        3648694997614269203, 1380964941957738801, 3545074822692899603, 1374488681025153201,
        12768042093239388811, 10021374667682237608, 12155550962798609610, 14594779990457076812,
        44221636], last_bit_pos := 1500 } := by
  set_option maxRecDepth 100000 in
  have h0 : ((multibits_test.drop 0).take 10).foldl
      (fun (w : BitArrayWriter) e => w.AddBits e.1 e.2)
      (BitArrayWriter.new 100) =
        { data := [3648694997614269203, 1380964941957738801, 690963, 0, 0], last_bit_pos := 150
          } := rfl
  have h1 : ((multibits_test.drop 10).take 10).foldl
      (fun (w : BitArrayWriter) e => w.AddBits e.1 e.2)
      { data := [3648694997614269203, 1380964941957738801, 690963, 0, 0], last_bit_pos := 150 } =
        { data := [3648694997614269203, 1380964941957738801, 3545074822692899603,
          1374488681025153201, 2898109188747], last_bit_pos := 300 } := rfl
  have h2 : ((multibits_test.drop 20).take 10).foldl
      (fun (w : BitArrayWriter) e => w.AddBits e.1 e.2)
      { data := [3648694997614269203, 1380964941957738801, 3545074822692899603,
        1374488681025153201, 2898109188747], last_bit_pos := 300 } =
        { data := [3648694997614269203, 1380964941957738801, 3545074822692899603,
          1374488681025153201, 12768042093239388811, 10021374667682237608,
          12155550962798609610, 0, 0], last_bit_pos := 450 } := rfl
  have h3 : ((multibits_test.drop 30).take 10).foldl
      (fun (w : BitArrayWriter) e => w.AddBits e.1 e.2)
      { data := [3648694997614269203, 1380964941957738801, 3545074822692899603,
        1374488681025153201, 12768042093239388811, 10021374667682237608, 12155550962798609610,
        0, 0], last_bit_pos := 450 } =
        { data := [3648694997614269203, 1380964941957738801, 3545074822692899603,
          1374488681025153201, 12768042093239388811, 10021374667682237608,
          12155550962798609610, 14594779990457076812, 5523859767830955204, 2763852, 0, 0, 0, 0,
          0], last_bit_pos := 600 } := rfl
  have h4 : ((multibits_test.drop 40).take 10).foldl
      (fun (w : BitArrayWriter) e => w.AddBits e.1 e.2)
      { data := [3648694997614269203, 1380964941957738801, 3545074822692899603,
        1374488681025153201, 12768042093239388811, 10021374667682237608, 12155550962798609610,
        14594779990457076812, 5523859767830955204, 2763852, 0, 0, 0, 0, 0], last_bit_pos := 600
        } =
        { data := [3648694997614269203, 1380964941957738801, 3545074822692899603,
          1374488681025153201, 12768042093239388811, 10021374667682237608,
          12155550962798609610, 14594779990457076812, 5523859767830955204,
          14180299290771598412, 5497954724100612804, 11592436754988, 0, 0, 0], last_bit_pos :=
          750 } := rfl
  have h5 : ((multibits_test.drop 50).take 10).foldl
      (fun (w : BitArrayWriter) e => w.AddBits e.1 e.2)
      { data := [3648694997614269203, 1380964941957738801, 3545074822692899603,
        1374488681025153201, 12768042093239388811, 10021374667682237608, 12155550962798609610,
        14594779990457076812, 5523859767830955204, 14180299290771598412, 5497954724100612804,
        11592436754988, 0, 0, 0], last_bit_pos := 750 } =
        { data := [3648694997614269203, 1380964941957738801, 3545074822692899603,
          1374488681025153201, 12768042093239388811, 10021374667682237608,
          12155550962798609610, 14594779990457076812, 5523859767830955204,
          14180299290771598412, 5497954724100612804, 14178680225538452012, 3192010523309847202,
          11728715703775335210, 2], last_bit_pos := 900 } := rfl
  have h6 : ((multibits_test.drop 60).take 10).foldl
      (fun (w : BitArrayWriter) e => w.AddBits e.1 e.2)
      { data := [3648694997614269203, 1380964941957738801, 3545074822692899603,
        1374488681025153201, 12768042093239388811, 10021374667682237608, 12155550962798609610,
        14594779990457076812, 5523859767830955204, 14180299290771598412, 5497954724100612804,
        14178680225538452012, 3192010523309847202, 11728715703775335210, 2], last_bit_pos :=
        900 } =
        { data := [3648694997614269203, 1380964941957738801, 3545074822692899603,
          1374488681025153201, 12768042093239388811, 10021374667682237608,
          12155550962798609610, 14594779990457076812, 5523859767830955204,
          14180299290771598412, 5497954724100612804, 14178680225538452012, 3192010523309847202,
          11728715703775335210, 3038887740699652402, 3648694997614269203, 11055409, 0, 0, 0, 0,
          0, 0, 0], last_bit_pos := 1050 } := rfl
  have h7 : ((multibits_test.drop 70).take 10).foldl
      (fun (w : BitArrayWriter) e => w.AddBits e.1 e.2)
      { data := [3648694997614269203, 1380964941957738801, 3545074822692899603,
        1374488681025153201, 12768042093239388811, 10021374667682237608, 12155550962798609610,
        14594779990457076812, 5523859767830955204, 14180299290771598412, 5497954724100612804,
        14178680225538452012, 3192010523309847202, 11728715703775335210, 3038887740699652402,
        3648694997614269203, 11055409, 0, 0, 0, 0, 0, 0, 0], last_bit_pos := 1050 } =
        { data := [3648694997614269203, 1380964941957738801, 3545074822692899603,
          1374488681025153201, 12768042093239388811, 10021374667682237608,
          12155550962798609610, 14594779990457076812, 5523859767830955204,
          14180299290771598412, 5497954724100612804, 14178680225538452012, 3192010523309847202,
          11728715703775335210, 3038887740699652402, 3648694997614269203, 1380964941957738801,
          3545074822692899603, 46369747019953, 0, 0, 0, 0, 0], last_bit_pos := 1200 } := rfl
  have h8 : ((multibits_test.drop 80).take 10).foldl
      (fun (w : BitArrayWriter) e => w.AddBits e.1 e.2)
      { data := [3648694997614269203, 1380964941957738801, 3545074822692899603,
        1374488681025153201, 12768042093239388811, 10021374667682237608, 12155550962798609610,
        14594779990457076812, 5523859767830955204, 14180299290771598412, 5497954724100612804,
        14178680225538452012, 3192010523309847202, 11728715703775335210, 3038887740699652402,
        3648694997614269203, 1380964941957738801, 3545074822692899603, 46369747019953, 0, 0, 0,
        0, 0], last_bit_pos := 1200 } =
        { data := [3648694997614269203, 1380964941957738801, 3545074822692899603,
          1374488681025153201, 12768042093239388811, 10021374667682237608,
          12155550962798609610, 14594779990457076812, 5523859767830955204,
          14180299290771598412, 5497954724100612804, 14178680225538452012, 3192010523309847202,
          11728715703775335210, 3038887740699652402, 3648694997614269203, 1380964941957738801,
          3545074822692899603, 1374488681025153201, 12768042093239388811, 10021374667682237608,
          10, 0, 0], last_bit_pos := 1350 } := rfl
  have h9 : ((multibits_test.drop 90).take 10).foldl
      (fun (w : BitArrayWriter) e => w.AddBits e.1 e.2)
      { data := [3648694997614269203, 1380964941957738801, 3545074822692899603,
        1374488681025153201, 12768042093239388811, 10021374667682237608, 12155550962798609610,
        14594779990457076812, 5523859767830955204, 14180299290771598412, 5497954724100612804,
        14178680225538452012, 3192010523309847202, 11728715703775335210, 3038887740699652402,
        3648694997614269203, 1380964941957738801, 3545074822692899603, 1374488681025153201,
        12768042093239388811, 10021374667682237608, 10, 0, 0], last_bit_pos := 1350 } =
        { data := [3648694997614269203, 1380964941957738801, 3545074822692899603,
          1374488681025153201, 12768042093239388811, 10021374667682237608,
          12155550962798609610, 14594779990457076812, 5523859767830955204,
          14180299290771598412, 5497954724100612804, 14178680225538452012, 3192010523309847202,
          11728715703775335210, 3038887740699652402, 3648694997614269203, 1380964941957738801,
          3545074822692899603, 1374488681025153201, 12768042093239388811, 10021374667682237608,
          12155550962798609610, 14594779990457076812, 44221636], last_bit_pos := 1500 } := rfl
  exact (foldl_chunk _ _ _ multibits_test 0 10 h0).trans (
    (foldl_chunk _ _ _ multibits_test 10 10 h1).trans (
    (foldl_chunk _ _ _ multibits_test 20 10 h2).trans (
    (foldl_chunk _ _ _ multibits_test 30 10 h3).trans (
    (foldl_chunk _ _ _ multibits_test 40 10 h4).trans (
    (foldl_chunk _ _ _ multibits_test 50 10 h5).trans (
    (foldl_chunk _ _ _ multibits_test 60 10 h6).trans (
    (foldl_chunk _ _ _ multibits_test 70 10 h7).trans (
    (foldl_chunk _ _ _ multibits_test 80 10 h8).trans (
    (foldl_chunk _ _ _ multibits_test 90 10 h9).trans (
    rfl))))))))))

/-- C25, the claim as stated fails where the code reads outside the writer's vector.  In a
writer constructed with capacity 64 bits, after `AddBits(1, 32)` twice the vector has one
word, and `GetBits(32, 2^32 - 1)` over the writer loads the word with index 1, which is
outside the vector: the read is undefined, not the value 1.  The repository test
`BitArrayMultiBits` does the same: after its hundred `AddBits` calls the vector has 24 words
and `GetPos()` is 1500, its last field (`i = 99`, value `0x4545`, 13 bits) starts at bit
1487, and `GetBits(1487, 2^13 - 1)` loads the word with index 24, outside the vector; with
any word `x` standing after the vector the read returns `0x4545 mod 2^13`. -/
theorem C25_read_past_buffer :
    (([((1 : Nat), (32 : Nat)), (1, 32)].foldl (fun w e => w.AddBits e.1 e.2)
        (BitArrayWriter.new 64)).data.length = 1 ∧
      ([((1 : Nat), (32 : Nat)), (1, 32)].foldl (fun w e => w.AddBits e.1 e.2)
        (BitArrayWriter.new 64)).GetPos = 64 ∧
      BitArrayReader.GetBits
          ([((1 : Nat), (32 : Nat)), (1, 32)].foldl (fun w e => w.AddBits e.1 e.2)
            (BitArrayWriter.new 64)).GetData 32 (2 ^ 32 - 1) = none ∧
      BitArrayReader.GetBits
          ([((1 : Nat), (32 : Nat)), (1, 32)].foldl (fun w e => w.AddBits e.1 e.2)
            (BitArrayWriter.new 64)).GetData 32 (2 ^ 32 - 1) ≠ some (1 % 2 ^ 32)) ∧
      (multibits_test.foldl (fun w e => w.AddBits e.1 e.2)
        (BitArrayWriter.new 100)).data.length = 24 ∧
      (multibits_test.foldl (fun w e => w.AddBits e.1 e.2)
        (BitArrayWriter.new 100)).GetPos = 1500 ∧
      multibits_test[99]? = some (0x4545, 13) ∧
      ((multibits_test.take 99).map Prod.snd).sum = 1487 ∧
      BitArrayReader.GetBits
          (multibits_test.foldl (fun w e => w.AddBits e.1 e.2)
            (BitArrayWriter.new 100)).GetData 1487 (2 ^ 13 - 1) = none ∧
      ∀ x, BitArrayReader.GetBits
          (fun k => ((multibits_test.foldl (fun w e => w.AddBits e.1 e.2)
            (BitArrayWriter.new 100)).data ++ [x])[k]?) 1487 (2 ^ 13 - 1) =
        some (0x4545 % 2 ^ 13) := by
  refine ⟨by decide, ?_, ?_, by decide, by decide, ?_, fun x => ?_⟩
  · rw [multibits_test_state]
    rfl
  · rw [multibits_test_state]
    rfl
  · rw [multibits_test_state]
    rfl
  · exact ((addBits_round_trip 100 multibits_test (by decide) (by decide) (by decide)).2 99
      (by decide)).2 x

/-! ## The packed keys of a bucket -/

theorem or_fold_testBit (i : Nat) :
    ∀ (l : List KV) (m : Nat), (m.testBit i = true ∨ ∃ p ∈ l, p.1.testBit i = true) →
      (l.foldl (fun m p => m ||| p.1) m).testBit i = true := by
  intro l
  induction l with
  | nil =>
    intro m h
    rcases h with h | ⟨p, hp, _⟩
    · exact h
    · simp at hp
  | cons q qs ih =>
    intro m h
    rw [List.foldl_cons]
    apply ih
    rcases h with h | ⟨p, hp, hb⟩
    · left
      rw [Nat.testBit_or, h, Bool.true_or]
    · rcases List.mem_cons.1 hp with e | e
      · left
        rw [Nat.testBit_or, ← e, hb, Bool.or_true]
      · exact Or.inr ⟨p, e, hb⟩

theorem reduced_key_lt (l : List KV) (n : Nat) (hk : l.foldl (fun m p => m ||| p.1) 0 < 2 ^ 64) :
    ∀ p ∈ l, p.1 >>> n < 2 ^ maxbits (l.foldl (fun m p => m ||| p.1) 0 >>> n) := by
  intro p hp
  have hv : l.foldl (fun m p => m ||| p.1) 0 >>> n < 2 ^ 64 :=
    lt_of_le_of_lt (by rw [Nat.shiftRight_eq_div_pow]; exact Nat.div_le_self _ _) hk
  have hlt := sigbits_lt_two_pow 64 _ hv
  rw [← maxbits_eq_sigbits] at hlt
  apply Nat.lt_pow_two_of_testBit
  intro i hi
  cases hb : (p.1 >>> n).testBit i with
  | false => rfl
  | true =>
    rw [Nat.testBit_shiftRight] at hb
    have h1 := or_fold_testBit (n + i) l 0 (Or.inr ⟨p, hp, hb⟩)
    rw [← Nat.testBit_shiftRight] at h1
    have h2 : (l.foldl (fun m p => m ||| p.1) 0 >>> n).testBit i = false :=
      Nat.testBit_lt_two_pow (lt_of_lt_of_le hlt (Nat.pow_le_pow_right (by norm_num) hi))
    rw [h1] at h2
    exact absurd h2 (by simp)

theorem sum_take_const (g : KV → Nat) (kbs : Nat) :
    ∀ (s : List KV) (j : Nat), j ≤ s.length →
      (((s.map fun p => (g p, kbs)).take j).map Prod.snd).sum = j * kbs := by
  intro s
  induction s with
  | nil =>
    intro j hj
    have : j = 0 := by simpa using hj
    subst this
    simp
  | cons q qs ih =>
    intro j hj
    cases j with
    | zero => simp
    | succ j =>
      have := ih j (by simpa using hj)
      simp only [List.map_cons, List.take_succ_cons, List.sum_cons]
      rw [this]
      ring

theorem sum_const (g : KV → Nat) (kbs : Nat) (s : List KV) :
    ((s.map fun p => (g p, kbs)).map Prod.snd).sum = s.length * kbs := by
  have := sum_take_const g kbs s s.length (Nat.le_refl _)
  rwa [List.take_of_length_le (by simp)] at this

theorem pack_keys_eq (b : List KV) (kbs rsh : Nat) (hlen : b.length * kbs < 2 ^ 64) :
    EHCMapIndexer.pack_keys b kbs rsh =
      ((sort_bucket b).map fun p => (p.1 >>> rsh, kbs)).foldl (fun w e => w.AddBits e.1 e.2)
        (BitArrayWriter.new (b.length * kbs)) := by
  unfold EHCMapIndexer.pack_keys
  rw [List.foldl_map, Nat.mod_eq_of_lt hlen]

theorem pack_keys_spec (b : List KV) (kbs rsh : Nat) (hk1 : 1 ≤ kbs) (hk2 : kbs < 64)
    (hlen : b.length < 2 ^ 56) :
    (EHCMapIndexer.pack_keys b kbs rsh).last_bit_pos = b.length * kbs ∧
      (EHCMapIndexer.pack_keys b kbs rsh).data.length = (b.length * kbs + 63) / 64 ∧
      ∀ j (hj : j < (sort_bucket b).length),
        (∀ i, i < kbs →
          array_bit (EHCMapIndexer.pack_keys b kbs rsh).data (j * kbs + i) =
            ((sort_bucket b)[j].1 >>> rsh).testBit i) ∧
        ∀ (d : Nat → Option Nat),
          (∀ k, k < (EHCMapIndexer.pack_keys b kbs rsh).data.length →
            d k = (EHCMapIndexer.pack_keys b kbs rsh).data[k]?) →
          ((j * kbs) % 64 ≠ 0 → ∃ w1, d (j * kbs / 64 + 1) = some w1) →
          BitArrayReader.GetBits d (j * kbs) (2 ^ kbs - 1) =
            some (((sort_bucket b)[j].1 >>> rsh) % 2 ^ kbs) := by
  have hprod : b.length * kbs < 2 ^ 62 := by
    have : b.length * kbs ≤ b.length * 64 := Nat.mul_le_mul_left _ (by omega)
    omega
  rw [pack_keys_eq b kbs rsh (by omega)]
  have hsum := sum_const (fun p => p.1 >>> rsh) kbs (sort_bucket b)
  rw [sort_bucket_length] at hsum
  obtain ⟨hpos, _, hsame, hbit, hread⟩ := addBits_read_back (b.length * kbs)
    ((sort_bucket b).map fun p => (p.1 >>> rsh, kbs)) hprod
    (fun e he => by
      obtain ⟨p, _, rfl⟩ := List.mem_map.1 he
      exact ⟨hk1, by omega⟩)
    (by rw [hsum]; exact hprod)
  rw [hsum] at hpos hsame
  refine ⟨hpos, hsame (by omega), fun j hj => ?_⟩
  have hj2 : j < ((sort_bucket b).map fun p => (p.1 >>> rsh, kbs)).length := by simpa using hj
  have htake := sum_take_const (fun p => p.1 >>> rsh) kbs (sort_bucket b) j (Nat.le_of_lt hj)
  have hb := hbit j hj2
  rw [htake] at hb
  simp only [List.getElem_map] at hb
  refine ⟨hb, fun d hd hnext => ?_⟩
  have hr := hread d hd j hj2
  rw [htake] at hr
  simp only [List.getElem_map] at hr
  exact hr hnext

theorem addBits_words_lt (c : Nat) (l : List (Nat × Nat)) (hc : c < 2 ^ 62)
    (hsum : (l.map Prod.snd).sum < 2 ^ 62) :
    ∀ x ∈ (l.foldl (fun w e => w.AddBits e.1 e.2) (BitArrayWriter.new c)).data, x < 2 ^ 64 := by
  obtain ⟨⟨_, _, _, hwords, _⟩, _, _⟩ :=
    holds_foldl_addBits ((c + 63) / 64) (by omega) l (BitArrayWriter.new c) [] (holds_new c)
      (by simpa using hsum)
  exact hwords

theorem pack_keys_words_lt (b : List KV) (kbs rsh : Nat) (hk2 : kbs < 64)
    (hlen : b.length < 2 ^ 56) :
    ∀ x ∈ (EHCMapIndexer.pack_keys b kbs rsh).data, x < 2 ^ 64 := by
  have hprod : b.length * kbs < 2 ^ 62 := by
    have : b.length * kbs ≤ b.length * 64 := Nat.mul_le_mul_left _ (by omega)
    omega
  rw [pack_keys_eq b kbs rsh (by omega)]
  have hsum := sum_const (fun p => p.1 >>> rsh) kbs (sort_bucket b)
  rw [sort_bucket_length] at hsum
  exact addBits_words_lt _ _ hprod (by rw [hsum]; exact hprod)

theorem write_words_length_eq (ws : List Nat) : (write_words ws).length = 8 * ws.length := by
  induction ws with
  | nil => rfl
  | cons w ws ih =>
    rw [write_words, List.length_append, le_bytes_length, ih, List.length_cons]
    omega

theorem write_words_isAt (ws : List Nat) :
    ∀ (k : Nat) (hk : k < ws.length), IsAt (write_words ws) (8 * k) (le_bytes 8 ws[k]) := by
  induction ws with
  | nil => intro k hk; simp at hk
  | cons w ws ih =>
    intro k hk
    cases k with
    | zero => exact isAt_prefix _ _
    | succ k =>
      have h := (ih k (by simpa using hk)).append_left (le_bytes 8 w)
      rw [le_bytes_length] at h
      have e : 8 * (k + 1) = 8 + 8 * k := by ring
      rw [e]
      exact h

/-- The words of a packed-key block, loaded from an image that holds the block followed by at
least `extra` more bytes at byte offset `off`. -/
theorem load_words (img : List Nat) (off : Nat) (ws rest : List Nat)
    (h : IsAt img off (write_words ws ++ rest)) (hw : ∀ x ∈ ws, x < 2 ^ 64) :
    (∀ k, k < ws.length → load img (off + 8 * k) 8 = ws[k]?) ∧
      (8 ≤ rest.length → ∃ w1, load img (off + 8 * ws.length) 8 = some w1) := by
  constructor
  · intro k hk
    have h1 := (write_words_isAt ws k hk).append_right rest
    have h2 := (h.inner h1).load_int
    rw [h2, List.getElem?_eq_getElem hk]
    congr 1
    exact Nat.mod_eq_of_lt (by
      have := hw _ (List.getElem_mem hk)
      norm_num at this ⊢
      exact this)
  · intro hr
    have hb := h.bound
    rw [List.length_append, write_words_length_eq] at hb
    unfold load
    rw [if_pos (by omega)]
    exact ⟨_, rfl⟩

theorem ehc_write_buckets_isAt (vw : IntWidth) (kbs rsh : Nat) :
    ∀ (bs : List (List KV)) (payload : List Nat),
      EHCMapIndexer.write_buckets vw kbs rsh bs = some payload →
      ∀ b ∈ bs, ∀ bytes, EHCMapIndexer.flush_bucket vw b kbs rsh = some bytes →
        ∃ off, IsAt payload off bytes := by
  intro bs
  induction bs with
  | nil => intro payload _ b hb; simp at hb
  | cons c cs ih =>
    intro payload hp b hb bytes hbytes
    rw [EHCMapIndexer.write_buckets] at hp
    cases hc : EHCMapIndexer.flush_bucket vw c kbs rsh with
    | none => rw [hc] at hp; simp at hp
    | some x =>
      rw [hc, Option.some_bind] at hp
      cases hcs : EHCMapIndexer.write_buckets vw kbs rsh cs with
      | none => rw [hcs] at hp; simp at hp
      | some xs =>
        rw [hcs, Option.map_some'] at hp
        cases hp
        rcases List.mem_cons.1 hb with e | e
        · subst e
          rw [hc] at hbytes
          cases hbytes
          exact ⟨0, isAt_prefix _ _⟩
        · obtain ⟨off, hat⟩ := ih xs hcs b e bytes hbytes
          exact ⟨x.length + off, hat.append_left x⟩

theorem reduced_keys_sorted (b : List KV) (n : Nat) :
    List.Sorted (fun a c => a ≤ c) ((sort_bucket b).map Prod.fst) ∧
      List.Sorted (fun a c => a ≤ c) ((sort_bucket b).map fun p => p.1 >>> n) := by
  constructor
  · rw [List.Sorted, List.pairwise_map]
    refine (sort_bucket_sorted b).imp ?_
    intro x y hxy
    unfold kv_le at hxy
    omega
  · rw [List.Sorted, List.pairwise_map]
    refine (sort_bucket_sorted b).imp ?_
    intro x y hxy
    unfold kv_le at hxy
    rw [Nat.shiftRight_eq_div_pow, Nat.shiftRight_eq_div_pow]
    exact Nat.div_le_div_right (by omega)

/-- C23 (packed keys decode to the reduced sorted keys).  For every non-empty input of
fewer than `2^56` pairs whose keys fit the key type, with `N` the shift and `K` the
`key_bits_store` that `EHCMapIndexer::flush_buckets` derives: every inserted key satisfies
`(k >> N) < 2^K` (no set bit is lost); and when `K >= 1`, for every non-empty bucket `b`
there is a list `s`, a permutation of `b` sorted ascending by `(key, value)` (so with
non-decreasing keys and non-decreasing reduced keys), such that the bytes `flush_bucket`
writes are the `ceil(nkeys * K / 64)` words of the packed-key writer followed by the values
of `s`, these bytes lie in the image `get_compacted` returns, and for every `j < nkeys`:
bit `i < K` of element `j` (array bit `j * K + i`, least significant bit first) is bit `i` of
`s[j].key >> N`; `BitArrayAdapter` with element width `K` and mask `2^K - 1` over the
writer's words returns `s[j].key >> N` for element `j`, whatever word follows them; and
`BitArrayAdapter` pointed at the written bytes, wherever an image holds them (as
`HACMapSearcher::search` does with the bucket pointer), returns `s[j].key >> N` for element
`j`. -/
theorem C23_packed_keys_decode (kw vw : IntWidth) (l : List KV) (page : Nat)
    (h1 : SizedFor ((kw.bytes + vw.bytes) * l.length) page) (hne : l ≠ [])
    (hty : ∀ p ∈ l, p.1 < 2 ^ kw.bits) (hlen : l.length < 2 ^ 56) :
    ∃ bs N K, (EHCMapIndexer.new.add_all l).bucket_array kw vw page = some bs ∧
      EHCMapIndexer.key_rshift_by kw bs = N ∧
      EHCMapIndexer.key_bits_store kw (EHCMapIndexer.new.add_all l).kmask bs = K ∧
      (∀ p ∈ l, p.1 >>> N < 2 ^ K) ∧
      (1 ≤ K → ∀ b ∈ bs, b ≠ [] → ∃ s bytes,
        s.Perm b ∧ List.Sorted kv_le s ∧
        List.Sorted (fun a c => a ≤ c) (s.map Prod.fst) ∧
        List.Sorted (fun a c => a ≤ c) (s.map fun p => p.1 >>> N) ∧
        EHCMapIndexer.flush_bucket vw b K N = some bytes ∧
        bytes = write_words (EHCMapIndexer.pack_keys b K N).data ++
          write_range vw.bytes Prod.snd s ∧
        (EHCMapIndexer.pack_keys b K N).data.length = (b.length * K + 63) / 64 ∧
        (∀ img, EHCMapIndexer.image kw vw l page = some img → ∃ off, IsAt img off bytes) ∧
        ∀ j (hj : j < s.length),
          (∀ i, i < K →
            BitArrayReader.GetBit (EHCMapIndexer.pack_keys b K N).GetData (j * K + i) =
              some ((s[j].1 >>> N).testBit i)) ∧
          (∀ x, BitArrayAdapter.get
              (fun k => ((EHCMapIndexer.pack_keys b K N).data ++ [x])[k]?) K ((1 <<< K) - 1) j =
            some (s[j].1 >>> N)) ∧
          ∀ img off, IsAt img off bytes →
            BitArrayAdapter.get (fun k => load img (off + 8 * k) 8) K ((1 <<< K) - 1) j =
              some (s[j].1 >>> N)) := by
  obtain ⟨n, bs, payload, _, _, hbs, hpart, hN, hK, hpay, himage⟩ :=
    ehc_image_spec kw vw l page h1 hne hty
  have hkm : l.foldl (fun m p => m ||| p.1) 0 < 2 ^ 64 :=
    lt_of_lt_of_le (kmask_lt kw.bits l hty 0 (Nat.two_pow_pos _))
      (Nat.pow_le_pow_right (by norm_num) (by cases kw <;> decide))
  have hred := reduced_key_lt l n hkm
  have hKeq : EHCMapIndexer.key_bits_store kw (EHCMapIndexer.new.add_all l).kmask bs =
      maxbits (l.foldl (fun m p => m ||| p.1) 0 >>> n) := by
    unfold EHCMapIndexer.key_bits_store
    rw [hN, ehc_kmask]
  rw [hKeq, hN] at hpay
  rw [hKeq] at himage hK
  refine ⟨bs, n, _, hbs, hN, hKeq, hred, fun hK1 b hb hbne => ?_⟩
  generalize maxbits (l.foldl (fun m p => m ||| p.1) 0 >>> n) = K at hK hred hK1 hpay himage
  obtain ⟨jb, hjb⟩ := List.mem_iff_getElem?.1 hb
  have hjlt : jb < 2 ^ n := by
    rw [← hpart.1]
    by_contra hcon
    rw [List.getElem?_eq_none (by omega)] at hjb
    cases hjb
  have hbeq : b = l.filter (fun p => decide (p.1 &&& (2 ^ n - 1) = jb)) := by
    have := hpart.2 jb hjlt
    rw [hjb] at this
    exact Option.some.inj this
  have hsub : ∀ p ∈ b, p ∈ l := by
    intro p hp
    rw [hbeq] at hp
    exact (List.mem_filter.1 hp).1
  have hblen : b.length ≤ l.length := by
    rw [hbeq]
    exact List.length_filter_le _ _
  obtain ⟨_, hwlen, hel⟩ := pack_keys_spec b K n hK1 hK (by omega)
  have hwords := pack_keys_words_lt b K n hK (by omega)
  have hprod : b.length * K ≤ b.length * 64 := Nat.mul_le_mul_left _ (by omega)
  have hflush : EHCMapIndexer.flush_bucket vw b K n =
      some (write_words (EHCMapIndexer.pack_keys b K n).data ++
        write_range vw.bytes Prod.snd (sort_bucket b)) := by
    unfold EHCMapIndexer.flush_bucket
    have : b.isEmpty = false := by
      cases b with
      | nil => exact absurd rfl hbne
      | cons _ _ => rfl
    simp [this, Nat.not_le.2 hK]
  refine ⟨sort_bucket b, _, sort_bucket_perm b, sort_bucket_sorted b,
    (reduced_keys_sorted b n).1, (reduced_keys_sorted b n).2, hflush, rfl, hwlen, ?_,
    fun j hj => ?_⟩
  · intro img himg
    rw [himage] at himg
    have himg2 := Option.some.inj himg
    subst himg2
    obtain ⟨off, hat⟩ := ehc_write_buckets_isAt vw K n bs payload hpay b hb
      (write_words (EHCMapIndexer.pack_keys b K n).data ++
        write_range vw.bytes Prod.snd (sort_bucket b)) hflush
    exact ⟨(EHCMapIndexer.write_index vw K (8 * bs.length) bs).length + off,
      (hat.append_left
        (EHCMapIndexer.write_index vw K (8 * bs.length) bs)).append_right [K, n ||| 128]⟩
  · obtain ⟨hbits, hread⟩ := hel j hj
    have hj2 : j < b.length := by rwa [sort_bucket_length] at hj
    have hjK : (j + 1) * K ≤ b.length * K := Nat.mul_le_mul_right _ (by omega)
    have hjK2 : (j + 1) * K = j * K + K := by ring
    have hval : ((sort_bucket b)[j].1 >>> n) % 2 ^ K = (sort_bucket b)[j].1 >>> n :=
      Nat.mod_eq_of_lt (hred _ (hsub _ ((mem_sort_bucket b _).1 (List.getElem_mem hj))))
    refine ⟨fun i hi => ?_, fun x => ?_, fun img off hat => ?_⟩
    · unfold BitArrayWriter.GetData
      rw [getBit_data _ _ (by omega), hbits i hi]
    · unfold BitArrayAdapter.get
      rw [Nat.mod_eq_of_lt (by omega), Nat.one_shiftLeft,
        hread _ (fun k hk => List.getElem?_append_left hk) (fun _ =>
          ⟨_, List.getElem?_eq_getElem (by
            rw [List.length_append, List.length_singleton]
            omega)⟩), hval]
    · obtain ⟨hld, hnext⟩ := load_words img off _ _ hat hwords
      unfold BitArrayAdapter.get
      rw [Nat.mod_eq_of_lt (by omega), Nat.one_shiftLeft, hread _ hld (fun hz => ?_), hval]
      by_cases hin : j * K / 64 + 1 < (EHCMapIndexer.pack_keys b K n).data.length
      · exact ⟨_, (hld _ hin).trans (List.getElem?_eq_getElem hin)⟩
      · have hj1 : 1 ≤ j := by
          rcases Nat.eq_zero_or_pos j with h0 | h0
          · subst h0
            simp at hz
          · exact h0
        have hvb : 4 ≤ vw.bytes := by cases vw <;> decide
        have hv8 : 8 ≤ vw.bytes * b.length :=
          le_trans (by omega : 8 ≤ 4 * 2) (Nat.mul_le_mul hvb (by omega))
        have hidx : j * K / 64 + 1 = (EHCMapIndexer.pack_keys b K n).data.length := by omega
        rw [hidx]
        exact hnext (by rw [write_range_length, sort_bucket_length]; exact hv8)

/-- C23 at a concrete input: three pairs with 32-bit keys, default page size. -/
theorem C23_witness :
    ∃ bs N K, (EHCMapIndexer.new.add_all [(5, 7), (2, 9), (4, 1)]).bucket_array .u32 .u32 4096 =
        some bs ∧
      EHCMapIndexer.key_rshift_by .u32 bs = N ∧
      EHCMapIndexer.key_bits_store .u32 (EHCMapIndexer.new.add_all [(5, 7), (2, 9), (4, 1)]).kmask
        bs = K ∧
      (∀ p ∈ [((5 : Nat), (7 : Nat)), (2, 9), (4, 1)], p.1 >>> N < 2 ^ K) ∧
      (1 ≤ K → ∀ b ∈ bs, b ≠ [] → ∃ s bytes,
        s.Perm b ∧ List.Sorted kv_le s ∧
        List.Sorted (fun a c => a ≤ c) (s.map Prod.fst) ∧
        List.Sorted (fun a c => a ≤ c) (s.map fun p => p.1 >>> N) ∧
        EHCMapIndexer.flush_bucket .u32 b K N = some bytes ∧
        bytes = write_words (EHCMapIndexer.pack_keys b K N).data ++
          write_range IntWidth.u32.bytes Prod.snd s ∧
        (EHCMapIndexer.pack_keys b K N).data.length = (b.length * K + 63) / 64 ∧
        (∀ img, EHCMapIndexer.image .u32 .u32 [(5, 7), (2, 9), (4, 1)] 4096 = some img →
          ∃ off, IsAt img off bytes) ∧
        ∀ j (hj : j < s.length),
          (∀ i, i < K →
            BitArrayReader.GetBit (EHCMapIndexer.pack_keys b K N).GetData (j * K + i) =
              some ((s[j].1 >>> N).testBit i)) ∧
          (∀ x, BitArrayAdapter.get
              (fun k => ((EHCMapIndexer.pack_keys b K N).data ++ [x])[k]?) K ((1 <<< K) - 1) j =
            some (s[j].1 >>> N)) ∧
          ∀ img off, IsAt img off bytes →
            BitArrayAdapter.get (fun k => load img (off + 8 * k) 8) K ((1 <<< K) - 1) j =
              some (s[j].1 >>> N)) :=
  C23_packed_keys_decode .u32 .u32 [(5, 7), (2, 9), (4, 1)] 4096
    ⟨by decide, by decide, by decide⟩ (by decide) (by decide) (by decide)

/-! ## Sizes of packed-key blocks and bucket counts of the two build modes -/

/-- For a non-zero bit total (fewer than `2^21` records, at most 64 bits each)
`get_kcompressed_size` is the byte size of the 64-bit words that hold the bits. -/
theorem get_kcompressed_size_pos (nrec kbs : Nat) (hn : nrec < 2 ^ 21) (hk : kbs ≤ 64)
    (h : nrec * kbs ≠ 0) :
    get_kcompressed_size nrec kbs = (nrec * kbs + 63) / 64 * 8 := by
  unfold get_kcompressed_size
  have h1 : nrec * kbs ≤ 2 ^ 21 * 64 :=
    Nat.mul_le_mul (Nat.le_of_lt hn) hk
  have h2 : 1 ≤ nrec * kbs := Nat.pos_of_ne_zero h
  generalize nrec * kbs = t at h1 h2
  omega

/-- C21 (packed-key block size), the code at `key_bits_store = 0`: for one record of 0 bits
`get_kcompressed_size` returns `2^61`, not `ceil(1 * 0 / 64) * 8 = 0`, and likewise for 0
records; `EHCMapIndexer` derives `key_bits_store = 0` for the single pair `(0, 5)`. -/
theorem C21_zero_bits_block_size :
    get_kcompressed_size 1 0 = 2 ^ 61 ∧ get_kcompressed_size 0 7 = 2 ^ 61 ∧
      get_kcompressed_size 1 0 ≠ (1 * 0 + 63) / 64 * 8 ∧
      (EHCMapIndexer.new.add_all [(0, 5)]).bucket_array .u32 .u64 4096 = some [[(0, 5)], []] ∧
      EHCMapIndexer.key_bits_store .u32 (EHCMapIndexer.new.add_all [(0, 5)]).kmask
        [[(0, 5)], []] = 0 := by
  decide

/-- C22 (compressed block size consistency), the code at `key_bits_store = 0`: for the single
pair `(0, 5)` with 32-bit key and 64-bit value the builder derives `key_bits_store = 0`,
`flush_bucket` writes 8 bytes for the bucket (no key word, one value), while
`get_kcompressed_size(1, 0) + 1 * sizeof(V)`, the amount `flush_buckets` adds to the running
offset, is `2^61 + 8`, and the searcher built from the image skips `2^61` bytes to reach the
values. -/
theorem C22_zero_bits_block_mismatch :
    (EHCMapIndexer.new.add_all [(0, 5)]).bucket_array .u32 .u64 4096 = some [[(0, 5)], []] ∧
      EHCMapIndexer.key_bits_store .u32 (EHCMapIndexer.new.add_all [(0, 5)]).kmask
        [[(0, 5)], []] = 0 ∧
      EHCMapIndexer.flush_bucket .u64 [(0, 5)] 0
          (EHCMapIndexer.key_rshift_by .u32 [[(0, 5)], []]) =
        some [5, 0, 0, 0, 0, 0, 0, 0] ∧
      get_kcompressed_size 1 0 + 1 * IntWidth.u64.bytes = 2 ^ 61 + 8 ∧
      ((EHCMapIndexer.image .u32 .u64 [(0, 5)] 4096).bind fun img =>
        (HACMapSearcher.new .u32 img).map fun s => s.bi.get_compressed_keys_size 1) =
        some (2 ^ 61) := by
  decide

/-- C30 (sizing in the two build modes), the code for 32-bit keys with 64-bit values: with
page size 16 and two pairs, the builder constructed with the known count 2 serialises 4
buckets and the builder constructed with unknown count serialises 2; at the default page
size and 512 records the two sizing calls, on `sizeof(pair) * n = 8192` and on
`(sizeof(Key) + sizeof(Value)) * n = 6144` bytes, return 4 and 2. -/
theorem C30_bucket_counts_differ :
    (HAMapIndexer.built_buckets .u32 .u64 2 16 [(0, 1), (1, 2)] 16).map List.length = some 4 ∧
      (HAMapIndexer.built_buckets .u32 .u64 0 16 [(0, 1), (1, 2)] 16).map List.length =
        some 2 ∧
      (HAMapIndexer.image .u32 .u64 2 16 [(0, 1), (1, 2)] 16).bind read_nbuckets =
        some (4, 0) ∧
      (HAMapIndexer.image .u32 .u64 0 16 [(0, 1), (1, 2)] 16).bind read_nbuckets =
        some (2, 0) ∧
      calc_buckets_count (sizeof_kv_pair .u32 .u64 * 512) DEFAULT_PAGE_SIZE = some 4 ∧
      calc_buckets_count ((IntWidth.u32.bytes + IntWidth.u64.bytes) * 512) DEFAULT_PAGE_SIZE =
        some 2 := by
  decide

theorem write_words_length (ws : List Nat) : (write_words ws).length = 8 * ws.length := by
  induction ws with
  | nil => rfl
  | cons w ws ih =>
    rw [write_words, List.length_append, le_bytes_length, ih, List.length_cons]
    omega

/-- For `key_bits_store >= 1` the bytes `EHCMapIndexer::flush_bucket` writes for a non-empty
bucket of fewer than `2^21` pairs are `get_kcompressed_size(nkeys, key_bits_store)` bytes of
packed keys and `nkeys * sizeof(V)` bytes of values. -/
theorem ehc_flush_bucket_length (vw : IntWidth) (b : List KV) (kbs rsh : Nat) (hne : b ≠ [])
    (hk1 : 1 ≤ kbs) (hk2 : kbs < 64) (hlen : b.length < 2 ^ 21) :
    ∃ bytes, EHCMapIndexer.flush_bucket vw b kbs rsh = some bytes ∧
      bytes.length = get_kcompressed_size b.length kbs + b.length * vw.bytes := by
  have hpos : 0 < b.length := List.length_pos.2 hne
  have hprod : b.length * kbs ≠ 0 := Nat.mul_ne_zero (by omega) (by omega)
  obtain ⟨_, hwlen, _⟩ := pack_keys_spec b kbs rsh hk1 hk2 (by omega)
  refine ⟨write_words (EHCMapIndexer.pack_keys b kbs rsh).data ++
    write_range vw.bytes Prod.snd (sort_bucket b), ?_, ?_⟩
  · unfold EHCMapIndexer.flush_bucket
    have : b.isEmpty = false := by
      cases b with
      | nil => exact absurd rfl hne
      | cons _ _ => rfl
    simp [this, Nat.not_le.2 hk2]
  · rw [List.length_append, write_words_length, hwlen, write_range_length, sort_bucket_length,
      get_kcompressed_size_pos _ _ hlen (by omega) hprod]
    ring


/-! ## `HAMapIndexer::clear` -/

theorem clear_presized (kw vw : IntWidth) (s : HAMapIndexer) (h : s.buckets.isEmpty = false) :
    s.clear.buckets = s.buckets ∧ s.clear.unsorted_records = [] ∧ s.clear.size = s.size ∧
      ∀ page, s.get_compacted kw vw page = some (HAMapIndexer.flush_buckets kw vw s.buckets) ∧
        s.clear.get_compacted kw vw page = s.get_compacted kw vw page := by
  refine ⟨rfl, rfl, ?_, fun page => ⟨?_, ?_⟩⟩
  · simp [HAMapIndexer.size, HAMapIndexer.clear, h]
  · simp [HAMapIndexer.get_compacted, HAMapIndexer.compact_and_store,
      HAMapIndexer.bucket_array, h]
  · simp [HAMapIndexer.get_compacted, HAMapIndexer.compact_and_store,
      HAMapIndexer.bucket_array, HAMapIndexer.clear, h]

theorem presized_buckets_nonempty (kw vw : IntWidth) (total page0 : Nat) (l : List KV)
    (h0 : SizedFor (sizeof_kv_pair kw vw * total) page0) (ht : total ≠ 0) :
    ∃ idx, HAMapIndexer.new kw vw total page0 = some idx ∧
      (idx.add_all l).buckets.isEmpty = false := by
  obtain ⟨hp0, hw0, hr0⟩ := h0
  have hz : sizeof_kv_pair kw vw * total ≠ 0 :=
    Nat.mul_ne_zero (by cases kw <;> cases vw <;> decide) ht
  obtain ⟨n, _, _, hcalc⟩ := calc_buckets_count_spec _ page0 hz hp0 hr0
  unfold HAMapIndexer.new
  rw [Nat.mod_eq_of_lt hw0, hcalc]
  refine ⟨_, rfl, ?_⟩
  have hpos : (2 : Nat) ^ n ≠ 0 := by positivity
  have hbne : (List.replicate (2 ^ n) ([] : List KV)) ≠ [] := by
    intro hc
    have := congrArg List.length hc
    simp only [List.length_replicate, List.length_nil] at this
    exact hpos this
  rw [add_all_presized l _ hbne]
  simp only
  cases hc : l.foldl (fun bs p => emplace_back_at bs
      (p.1 &&& if 2 ^ n ≠ 0 then 2 ^ n - 1 else 0) p) (List.replicate (2 ^ n) []) with
  | nil =>
    have := congrArg List.length hc
    simp only [foldl_emplace_length, List.length_replicate, List.length_nil] at this
    exact absurd this hpos
  | cons x xs => rfl

/-- C31 (clear on a pre-sized builder keeps the records).  For a `HAMapIndexer` constructed
with a known count `total > 0` (the sizing call being defined) to which the pairs of `l`
were added: `clear()` leaves the buckets as they are and empties the staging list, `size()`
is unchanged (and is the number of added pairs, for fewer than `2^60` pairs), and
`get_compacted(page)` returns the same bytes before and after, for every page size.  For a
builder constructed with unknown count that received the pairs of `l`, `size()` is the
number of pairs before `clear()` and 0 after it. -/
theorem C31_clear_keeps_presized (kw vw : IntWidth) (total page0 : Nat) (l : List KV)
    (h0 : SizedFor (sizeof_kv_pair kw vw * total) page0) (ht : total ≠ 0) :
    (∃ idx, HAMapIndexer.new kw vw total page0 = some idx ∧
        (idx.add_all l).clear.buckets = (idx.add_all l).buckets ∧
        (idx.add_all l).clear.unsorted_records = [] ∧
        (idx.add_all l).clear.size = (idx.add_all l).size ∧
        (l.length < 2 ^ 60 → (idx.add_all l).size = l.length) ∧
        ∀ page, (idx.add_all l).get_compacted kw vw page =
            some (HAMapIndexer.flush_buckets kw vw (idx.add_all l).buckets) ∧
          (idx.add_all l).clear.get_compacted kw vw page =
            (idx.add_all l).get_compacted kw vw page) ∧
      ∀ page, ∃ idx0, HAMapIndexer.new kw vw 0 page = some idx0 ∧
        (idx0.add_all l).size = l.length ∧ (idx0.add_all l).clear.size = 0 := by
  obtain ⟨idx, hnew, hne⟩ := presized_buckets_nonempty kw vw total page0 l h0 ht
  obtain ⟨c1, c2, c3, c4⟩ := clear_presized kw vw (idx.add_all l) hne
  refine ⟨⟨idx, hnew, c1, c2, c3, fun hl => ?_, c4⟩, fun page => ?_⟩
  · have hb : (kw.bytes + vw.bytes) * l.length < 2 ^ 64 := by
      cases kw <;> cases vw <;> simp only [IntWidth.bytes] <;> omega
    obtain ⟨idx2, hnew2, hsz⟩ := builder_size kw vw total page0
      ((kw.bytes + vw.bytes) * l.length + 1) l h0
      ⟨by omega, hb, by
        have : (kw.bytes + vw.bytes) * l.length + 1 ≤
            2 ^ 31 * ((kw.bytes + vw.bytes) * l.length + 1) := Nat.le_mul_of_pos_left _ (by norm_num)
        omega⟩
    rw [hnew] at hnew2
    cases hnew2
    exact hsz
  · have hnew0 : HAMapIndexer.new kw vw 0 page =
        some { unsorted_records := [], buckets := List.replicate 0 [], hash_mask := 0 } := by
      simp [HAMapIndexer.new, calc_buckets_count]
    refine ⟨_, hnew0, ?_, ?_⟩
    · rw [add_all_staging l _ rfl]
      simp [HAMapIndexer.size]
    · rw [add_all_staging l _ rfl]
      simp [HAMapIndexer.size, HAMapIndexer.clear]

/-- C31 at a concrete input: three pairs added to a builder pre-sized for three records. -/
theorem C31_witness :
    (∃ idx, HAMapIndexer.new .u64 .u32 3 4096 = some idx ∧
        (idx.add_all [(5, 7), (2, 9), (4, 1)]).clear.buckets =
          (idx.add_all [(5, 7), (2, 9), (4, 1)]).buckets ∧
        (idx.add_all [(5, 7), (2, 9), (4, 1)]).clear.unsorted_records = [] ∧
        (idx.add_all [(5, 7), (2, 9), (4, 1)]).clear.size =
          (idx.add_all [(5, 7), (2, 9), (4, 1)]).size ∧
        ([((5 : Nat), (7 : Nat)), (2, 9), (4, 1)].length < 2 ^ 60 →
          (idx.add_all [(5, 7), (2, 9), (4, 1)]).size =
            [((5 : Nat), (7 : Nat)), (2, 9), (4, 1)].length) ∧
        ∀ page, (idx.add_all [(5, 7), (2, 9), (4, 1)]).get_compacted .u64 .u32 page =
            some (HAMapIndexer.flush_buckets .u64 .u32
              (idx.add_all [(5, 7), (2, 9), (4, 1)]).buckets) ∧
          (idx.add_all [(5, 7), (2, 9), (4, 1)]).clear.get_compacted .u64 .u32 page =
            (idx.add_all [(5, 7), (2, 9), (4, 1)]).get_compacted .u64 .u32 page) ∧
      ∀ page, ∃ idx0, HAMapIndexer.new .u64 .u32 0 page = some idx0 ∧
        (idx0.add_all [(5, 7), (2, 9), (4, 1)]).size =
          [((5 : Nat), (7 : Nat)), (2, 9), (4, 1)].length ∧
        (idx0.add_all [(5, 7), (2, 9), (4, 1)]).clear.size = 0 :=
  C31_clear_keeps_presized .u64 .u32 3 4096 [(5, 7), (2, 9), (4, 1)]
    ⟨by decide, by decide, by decide⟩ (by decide)

/-! ## Key reduction -/

theorem key_rshift_by_of_pow (kw : IntWidth) (N : Nat) (hN : N < kw.bits) :
    key_rshift_by_of kw (nshift_of (2 ^ N)) = N := by
  have h64 : N < 64 := by
    cases kw <;> simp only [IntWidth.bits, IntWidth.bytes] at hN <;> omega
  have hs : nshift_of (2 ^ N) = N := by
    unfold nshift_of
    rw [maxbits_two_pow N h64]
    omega
  rw [hs]
  unfold key_rshift_by_of
  cases kw <;> simp only [IntWidth.bits, IntWidth.bytes] at hN ⊢ <;> omega

theorem searcher_mask_pow (kw : IntWidth) (N : Nat) (hN : N < kw.bits) (bi : BucketIndex)
    (hb : bi.nbuckets = 2 ^ N) : bi.get_mask % 2 ^ kw.bits = 2 ^ N - 1 := by
  have h1 : (2 : Nat) ^ N < 2 ^ kw.bits := Nat.pow_lt_pow_right (by norm_num) hN
  have h2 : (2 : Nat) ^ kw.bits ≤ 2 ^ 64 :=
    Nat.pow_le_pow_right (by norm_num) (by cases kw <;> decide)
  have h3 : 0 < (2 : Nat) ^ N := Nat.two_pow_pos N
  unfold BucketIndex.get_mask
  rw [hb]
  generalize (2 : Nat) ^ N = x at h1 h3
  generalize (2 : Nat) ^ kw.bits = y at h1 h2
  have e : (x + 2 ^ 64 - 1) % 2 ^ 64 = x - 1 := by omega
  rw [e]
  exact Nat.mod_eq_of_lt (by omega)

theorem split_key (k N : Nat) : k = ((k >>> N) <<< N) ||| (k &&& (2 ^ N - 1)) := by
  apply Nat.eq_of_testBit_eq
  intro i
  rw [Nat.testBit_or, Nat.testBit_shiftLeft, Nat.testBit_shiftRight, Nat.testBit_and,
    Nat.testBit_two_pow_sub_one]
  by_cases h : i < N
  · have h2 : ¬ i ≥ N := by omega
    simp [h, h2]
  · have h2 : i ≥ N := by omega
    have h3 : N + (i - N) = i := by omega
    simp [h, h2, h3]

/-- C33 (key reduction is injective within a bucket).  For a key width of 32 or 64 bits,
every `N` below the width and every bucket index over `2^N` buckets, with `mask` and
`key_rshift_by` as `HACMapSearcher` derives them (`mask = nbuckets - 1 = 2^N - 1`,
`key_rshift_by = N`): two keys with the same bucket index `k & mask` and the same reduced
key `k >> key_rshift_by` are equal, and every key is
`((k >> key_rshift_by) << key_rshift_by) | (k & mask)`. -/
theorem C33_key_reduction_injective (kw : IntWidth) (N : Nat) (hN : N < kw.bits)
    (bi : BucketIndex) (hb : bi.nbuckets = 2 ^ N) (k1 k2 : Nat) :
    bi.get_mask % 2 ^ kw.bits = 2 ^ N - 1 ∧
      key_rshift_by_of kw (nshift_of bi.nbuckets) = N ∧
      (k1 &&& (bi.get_mask % 2 ^ kw.bits) = k2 &&& (bi.get_mask % 2 ^ kw.bits) →
        k1 >>> key_rshift_by_of kw (nshift_of bi.nbuckets) =
          k2 >>> key_rshift_by_of kw (nshift_of bi.nbuckets) →
        k1 = k2) ∧
      k1 = ((k1 >>> key_rshift_by_of kw (nshift_of bi.nbuckets)) <<<
            key_rshift_by_of kw (nshift_of bi.nbuckets)) |||
          (k1 &&& (bi.get_mask % 2 ^ kw.bits)) := by
  have hm := searcher_mask_pow kw N hN bi hb
  have hr : key_rshift_by_of kw (nshift_of bi.nbuckets) = N := by
    rw [hb]
    exact key_rshift_by_of_pow kw N hN
  rw [hm, hr]
  refine ⟨rfl, rfl, fun h1 h2 => ?_, split_key k1 N⟩
  rw [split_key k1 N, split_key k2 N, h1, h2]

/-- C33 at a concrete input: 32-bit keys, 8 buckets, the keys 0x1235 and 0x1a35. -/
theorem C33_witness :
    BucketIndex.get_mask { data := [], nbuckets := 8, key_bits_store := 0 } % 2 ^ IntWidth.u32.bits =
        2 ^ 3 - 1 ∧
      key_rshift_by_of .u32
        (nshift_of (BucketIndex.nbuckets { data := [], nbuckets := 8, key_bits_store := 0 })) = 3 ∧
      (0x1235 &&& (BucketIndex.get_mask { data := [], nbuckets := 8, key_bits_store := 0 } %
            2 ^ IntWidth.u32.bits) =
          0x1a35 &&& (BucketIndex.get_mask { data := [], nbuckets := 8, key_bits_store := 0 } %
            2 ^ IntWidth.u32.bits) →
        0x1235 >>> key_rshift_by_of .u32
            (nshift_of (BucketIndex.nbuckets { data := [], nbuckets := 8, key_bits_store := 0 })) =
          0x1a35 >>> key_rshift_by_of .u32
            (nshift_of (BucketIndex.nbuckets { data := [], nbuckets := 8, key_bits_store := 0 })) →
        0x1235 = 0x1a35) ∧
      0x1235 = ((0x1235 >>> key_rshift_by_of .u32
            (nshift_of (BucketIndex.nbuckets { data := [], nbuckets := 8, key_bits_store := 0 }))) <<<
            key_rshift_by_of .u32
              (nshift_of (BucketIndex.nbuckets { data := [], nbuckets := 8, key_bits_store := 0 }))) |||
          (0x1235 &&& (BucketIndex.get_mask { data := [], nbuckets := 8, key_bits_store := 0 } %
            2 ^ IntWidth.u32.bits)) :=
  C33_key_reduction_injective .u32 3 (by decide)
    { data := [], nbuckets := 8, key_bits_store := 0 } (by decide) 0x1235 0x1a35

/-! ## `detail::binary_locate_compressed` on misses and on wide keys -/

/-- C32 (compressed locate on a miss), the code at failing inputs: on the one-element array
`[1]` and the absent key `0` the loop lowers `u` to 0 and returns 0, not `nkeys = 1`; on
`[1, 3]` and the absent key `2` it returns 1, not `nkeys = 2`; in both cases the caller's
test `offs < nkeys` holds.  Only a key above every stored key, as `5` here, makes it return
`nkeys`.  The first array is the bucket `EHCMapIndexer` writes for the single pair `(2, 7)`
with 32-bit keys, read through `BitArrayAdapter`. -/
theorem C32_locate_miss_below_nkeys :
    binary_locate_compressed (fun i => [1][i]?) 0 1 0 1 = some 0 ∧
      binary_locate_compressed (fun i => [1, 3][i]?) 2 2 0 2 = some 1 ∧
      binary_locate_compressed (fun i => [1, 3][i]?) 5 2 0 2 = some 2 ∧
      (EHCMapIndexer.pack_keys [(2, 7)] 1 1).data = [1] ∧
      binary_locate_compressed
          (BitArrayAdapter.get (EHCMapIndexer.pack_keys [(2, 7)] 1 1).GetData 1 ((1 <<< 1) - 1))
          (0 >>> 1) 1 0 1 = some 0 := by
  decide

/-- C34 (compressed locate at full width), the code at a failing input: 64-bit keys,
`key_bits_store = 33`, the one-element array `[2^32]` (below `2^33`) and the stored key
`2^32`.  The element is copied into a 32-bit variable, so the loop compares `0` with `2^32`,
moves `l` to 1 and returns `1 = nkeys`: no index `i < nkeys` is returned.  The array is the
bucket `EHCMapIndexer` writes for the single pair `(2^33, 7)`, read through
`BitArrayAdapter`.  Likewise the stored key `2^32 + 1` is not found in `[1, 2^32 + 1]`. -/
theorem C34_locate_truncates_stored_key :
    binary_locate_compressed (fun i => [2 ^ 32][i]?) (2 ^ 32) 1 0 1 = some 1 ∧
      (EHCMapIndexer.pack_keys [(2 ^ 33, 7)] 33 1).data = [2 ^ 32] ∧
      BitArrayAdapter.get (EHCMapIndexer.pack_keys [(2 ^ 33, 7)] 33 1).GetData 33
          ((1 <<< 33) - 1) 0 = some (2 ^ 32) ∧
      binary_locate_compressed
          (BitArrayAdapter.get (EHCMapIndexer.pack_keys [(2 ^ 33, 7)] 33 1).GetData 33
            ((1 <<< 33) - 1))
          (2 ^ 33 >>> 1) 1 0 1 = some 1 ∧
      binary_locate_compressed (fun i => [1, 2 ^ 32 + 1][i]?) (2 ^ 32 + 1) 2 0 2 = some 2 := by
  decide

/-! ## The words `GetBits` loads -/

theorem getWord_some_iff (d : Nat → Option Nat) (pos : Nat) :
    (BitArrayReader.GetWord d pos).isSome = true ↔
      ∀ k ∈ BitArrayReader.GetWord_indices pos, (d k).isSome = true := by
  unfold BitArrayReader.GetWord BitArrayReader.GetWord_indices
  by_cases hz : pos % 64 = 0
  · cases h0 : d (pos / 64) <;> simp [h0, hz]
  · cases h0 : d (pos / 64) with
    | none => simp [h0, hz]
    | some w0 => cases h1 : d (pos / 64 + 1) <;> simp [h0, h1, hz]

/-- The words a field read loads.  For every sequence of `(value_i, nbits_i)`
with `1 <= nbits_i <= 63` appended with `AddBits` to a fresh `BitArrayWriter(c)` (capacity
and total below `2^62`), with `W` the number of words the writer holds and `p_i` the position
of field `i`: `p_i + nbits_i <= GetPos() <= 64 * W`; `GetBits(p_i, 2^nbits_i - 1)` loads the
word with index `p_i / 64`, which is below `W`, and when `p_i mod 64 ≠ 0` the word with index
`p_i / 64 + 1`, and no other; every index it loads is at most `W`; all of them are below `W`
exactly when `p_i` is a multiple of 64 or `p_i / 64 + 1 < W`; and the read over the writer's
words is defined exactly in that case. -/
theorem getBits_word_indices (c : Nat) (l : List (Nat × Nat)) (hc : c < 2 ^ 62)
    (hnb : ∀ e ∈ l, 1 ≤ e.2 ∧ e.2 ≤ 63) (hsum : (l.map Prod.snd).sum < 2 ^ 62) :
    ∀ i (hi : i < l.length),
      ((l.take i).map Prod.snd).sum + l[i].2 ≤
          (l.foldl (fun w e => w.AddBits e.1 e.2) (BitArrayWriter.new c)).GetPos ∧
      (l.foldl (fun w e => w.AddBits e.1 e.2) (BitArrayWriter.new c)).GetPos ≤
          64 * (l.foldl (fun w e => w.AddBits e.1 e.2) (BitArrayWriter.new c)).data.length ∧
      BitArrayReader.GetWord_indices (((l.take i).map Prod.snd).sum) =
        (if ((l.take i).map Prod.snd).sum % 64 ≠ 0 then
          [((l.take i).map Prod.snd).sum / 64, ((l.take i).map Prod.snd).sum / 64 + 1]
        else [((l.take i).map Prod.snd).sum / 64]) ∧
      ((l.take i).map Prod.snd).sum / 64 <
          (l.foldl (fun w e => w.AddBits e.1 e.2) (BitArrayWriter.new c)).data.length ∧
      (∀ k ∈ BitArrayReader.GetWord_indices (((l.take i).map Prod.snd).sum),
        k ≤ (l.foldl (fun w e => w.AddBits e.1 e.2) (BitArrayWriter.new c)).data.length) ∧
      ((∀ k ∈ BitArrayReader.GetWord_indices (((l.take i).map Prod.snd).sum),
          k < (l.foldl (fun w e => w.AddBits e.1 e.2) (BitArrayWriter.new c)).data.length) ↔
        (((l.take i).map Prod.snd).sum % 64 = 0 ∨
          ((l.take i).map Prod.snd).sum / 64 + 1 <
            (l.foldl (fun w e => w.AddBits e.1 e.2) (BitArrayWriter.new c)).data.length)) ∧
      ((BitArrayReader.GetBits (l.foldl (fun w e => w.AddBits e.1 e.2) (BitArrayWriter.new c)).GetData
          (((l.take i).map Prod.snd).sum) (2 ^ l[i].2 - 1)).isSome = true ↔
        ∀ k ∈ BitArrayReader.GetWord_indices (((l.take i).map Prod.snd).sum),
          k < (l.foldl (fun w e => w.AddBits e.1 e.2) (BitArrayWriter.new c)).data.length) := by
  intro i hi
  obtain ⟨hpos, hfit, _, _, _⟩ := addBits_read_back c l hc
    (fun e he => ⟨(hnb e he).1, by have := (hnb e he).2; omega⟩) hsum
  have hle := sum_take_le l i hi
  have h1 := (hnb _ (List.getElem_mem hi)).1
  unfold BitArrayWriter.GetPos BitArrayWriter.GetData
  rw [hpos]
  generalize (l.foldl (fun w e => w.AddBits e.1 e.2) (BitArrayWriter.new c)).data = data at hfit ⊢
  generalize ((l.take i).map Prod.snd).sum = p at hle ⊢
  have hlt : p / 64 < data.length := by omega
  have hind : (∀ k ∈ BitArrayReader.GetWord_indices p, k < data.length) ↔
      (p % 64 = 0 ∨ p / 64 + 1 < data.length) := by
    unfold BitArrayReader.GetWord_indices
    by_cases hz : p % 64 = 0
    · rw [if_neg (by simpa using hz)]
      simp [hz, hlt]
    · rw [if_pos hz]
      simp [hz, hlt]
  refine ⟨hle, hfit, rfl, hlt, ?_, hind, ?_⟩
  · unfold BitArrayReader.GetWord_indices
    intro k hk
    split at hk
    · simp only [List.mem_cons, List.mem_singleton, List.not_mem_nil, or_false] at hk
      omega
    · simp only [List.mem_singleton] at hk
      omega
  · unfold BitArrayReader.GetBits
    rw [Option.isSome_map', getWord_some_iff]
    constructor
    · intro h k hk
      have := h k hk
      by_contra hcon
      have hn : data[k]? = none := List.getElem?_eq_none (by omega)
      simp [hn] at this
    · intro h k hk
      have := h k hk
      simp [List.getElem?_eq_getElem this]

/-- The loaded words at a concrete input: fields of 3 and 61 bits in a writer of capacity 64 bits; the
second field starts at position 3 and its read loads the words 0 and 1 of a one-word
vector. -/
theorem getBits_word_indices_example :
    3 + 61 ≤
        ([((5 : Nat), (3 : Nat)), (9, 61)].foldl (fun w e => w.AddBits e.1 e.2)
          (BitArrayWriter.new 64)).GetPos ∧
      ([((5 : Nat), (3 : Nat)), (9, 61)].foldl (fun w e => w.AddBits e.1 e.2)
          (BitArrayWriter.new 64)).GetPos ≤
        64 * ([((5 : Nat), (3 : Nat)), (9, 61)].foldl (fun w e => w.AddBits e.1 e.2)
          (BitArrayWriter.new 64)).data.length ∧
      BitArrayReader.GetWord_indices 3 = (if 3 % 64 ≠ 0 then [3 / 64, 3 / 64 + 1] else [3 / 64]) ∧
      3 / 64 <
        ([((5 : Nat), (3 : Nat)), (9, 61)].foldl (fun w e => w.AddBits e.1 e.2)
          (BitArrayWriter.new 64)).data.length ∧
      (∀ k ∈ BitArrayReader.GetWord_indices 3,
        k ≤ ([((5 : Nat), (3 : Nat)), (9, 61)].foldl (fun w e => w.AddBits e.1 e.2)
          (BitArrayWriter.new 64)).data.length) ∧
      ((∀ k ∈ BitArrayReader.GetWord_indices 3,
          k < ([((5 : Nat), (3 : Nat)), (9, 61)].foldl (fun w e => w.AddBits e.1 e.2)
          (BitArrayWriter.new 64)).data.length) ↔
        (3 % 64 = 0 ∨
          3 / 64 + 1 <
            ([((5 : Nat), (3 : Nat)), (9, 61)].foldl (fun w e => w.AddBits e.1 e.2)
          (BitArrayWriter.new 64)).data.length)) ∧
      ((BitArrayReader.GetBits
          ([((5 : Nat), (3 : Nat)), (9, 61)].foldl (fun w e => w.AddBits e.1 e.2)
          (BitArrayWriter.new 64)).GetData 3 (2 ^ 61 - 1)).isSome = true ↔
        ∀ k ∈ BitArrayReader.GetWord_indices 3,
          k < ([((5 : Nat), (3 : Nat)), (9, 61)].foldl (fun w e => w.AddBits e.1 e.2)
          (BitArrayWriter.new 64)).data.length) :=
  getBits_word_indices 64 [(5, 3), (9, 61)] (by decide) (by decide) (by decide) 1
    (by decide)

/-- C35, the claim as stated fails.  In a writer constructed with capacity 64 bits, after
`AddBits(1, 32)` twice the vector holds `W = 1` word and `GetPos() = 64 = 64 * W`; the second
field was written at `p = 32` with 32 bits, and `GetBits(32, 2^32 - 1)` loads the words with
indices 0 and 1: index 1 is not below `W`, and the load is outside the vector.  The
repository test `BitArrayMultiBits` does the same: its writer ends with `W = 24` words and
`GetPos() = 1500`, its last field starts at `p = 1487` with 13 bits, and
`GetBits(1487, 2^13 - 1)` loads the words with indices 23 and 24. -/
theorem C35_reads_word_after_buffer :
    (([((1 : Nat), (32 : Nat)), (1, 32)].foldl (fun w e => w.AddBits e.1 e.2)
        (BitArrayWriter.new 64)).data.length = 1 ∧
      ([((1 : Nat), (32 : Nat)), (1, 32)].foldl (fun w e => w.AddBits e.1 e.2)
        (BitArrayWriter.new 64)).GetPos = 64 ∧
      BitArrayReader.GetWord_indices 32 = [0, 1] ∧
      ¬ (∀ k ∈ BitArrayReader.GetWord_indices 32,
          k < ([((1 : Nat), (32 : Nat)), (1, 32)].foldl (fun w e => w.AddBits e.1 e.2)
            (BitArrayWriter.new 64)).data.length) ∧
      ([((1 : Nat), (32 : Nat)), (1, 32)].foldl (fun w e => w.AddBits e.1 e.2)
        (BitArrayWriter.new 64)).GetData 1 = none) ∧
      (multibits_test.foldl (fun w e => w.AddBits e.1 e.2)
        (BitArrayWriter.new 100)).data.length = 24 ∧
      (multibits_test.foldl (fun w e => w.AddBits e.1 e.2)
        (BitArrayWriter.new 100)).GetPos = 1500 ∧
      multibits_test[99]? = some (0x4545, 13) ∧
      ((multibits_test.take 99).map Prod.snd).sum = 1487 ∧
      BitArrayReader.GetWord_indices 1487 = [23, 24] ∧
      ¬ (∀ k ∈ BitArrayReader.GetWord_indices 1487,
          k < (multibits_test.foldl (fun w e => w.AddBits e.1 e.2)
            (BitArrayWriter.new 100)).data.length) ∧
      (multibits_test.foldl (fun w e => w.AddBits e.1 e.2)
        (BitArrayWriter.new 100)).GetData 24 = none := by
  refine ⟨by decide, ?_, ?_, by decide, by decide, by decide, ?_, ?_⟩
  · rw [multibits_test_state]
    rfl
  · rw [multibits_test_state]
    rfl
  · rw [multibits_test_state]
    decide
  · rw [multibits_test_state]
    rfl


/-! ## A bucket of `2^21` pairs -/

/-- A staging builder that receives `m` copies of the pair `(0, 0)`, with `m` a non-zero
multiple of `2^21` below `2^32`: all pairs are in bucket 0, the 21-bit `nkeys` field of
directory entry 0 is written as `m mod 2^21 = 0`, and `search(0)` returns `nullptr`. -/
theorem full_bucket_entry (kw vw : IntWidth) (m page : Nat) (hm : m % 2 ^ 21 = 0)
    (hm32 : m < 2 ^ 32) (hpos : 0 < m)
    (h1 : SizedFor ((kw.bytes + vw.bytes) * m) page) :
    ∃ bs img,
      HAMapIndexer.built_buckets kw vw 0 page (List.replicate m (0, 0)) page = some bs ∧
      HAMapIndexer.image kw vw 0 page (List.replicate m (0, 0)) page = some img ∧
      0 < bs.length ∧ bs[0]? = some (List.replicate m (0, 0)) ∧
      BucketIndex.get { data := img, nbuckets := bs.length, key_bits_store := 0 } 0 =
        some { offset := 8 * bs.length, nkeys := 0 } ∧
      HAMapSearcher.lookup kw vw img 0 = some none := by
  have hl : (List.replicate m ((0 : Nat), (0 : Nat))).length = m := List.length_replicate _ _
  have hne : List.replicate m ((0 : Nat), (0 : Nat)) ≠ [] := by
    intro hc
    have := congrArg List.length hc
    rw [hl] at this
    simp only [List.length_nil] at this
    omega
  obtain ⟨n, bs, hn1, hn, hbs, hpart⟩ := built_buckets_nonempty kw vw 0 page page
    (List.replicate m (0, 0)) ⟨h1.1, by norm_num, by have := h1.1; omega⟩ (by rw [hl]; exact h1)
    (Or.inr hne)
  have himage := image_of_built kw vw 0 page page (List.replicate m (0, 0)) bs hbs
  have hB : 0 < bs.length := by rw [hpart.1]; exact Nat.two_pow_pos n
  have hB31 : bs.length ≤ 2 ^ 31 := by
    rw [hpart.1]
    exact Nat.pow_le_pow_right (by norm_num) hn
  have hb0 : bs[0]? = some (List.replicate m (0, 0)) := by
    rw [hpart.2 0 (Nat.two_pow_pos n)]
    congr 1
    apply List.filter_eq_self.2
    intro p hp
    rw [List.eq_of_mem_replicate hp]
    simp
  have himg_eq := flush_buckets_eq kw vw n bs hn hpart.1
  have hentry : load (HAMapIndexer.flush_buckets kw vw bs) 0 8 =
      some (BucketEntry.word (8 * bs.length) m) := by
    rw [himg_eq]
    cases hbs2 : bs with
    | nil => rw [hbs2] at hB; simp at hB
    | cons b rest =>
      rw [hbs2] at hb0
      simp only [List.getElem?_cons_zero, Option.some.injEq] at hb0
      subst hb0
      rw [HAMapIndexer.write_index, hl, Nat.mod_eq_of_lt hm32]
      have hat : IsAt (le_bytes 8 (BucketEntry.word (8 * (List.replicate m (0, 0) :: rest).length) m) ++
          HAMapIndexer.write_index kw vw
            ((8 * (List.replicate m (0, 0) :: rest).length + m * (kw.bytes + vw.bytes)) % 2 ^ 64)
            rest) 0 (le_bytes 8 (BucketEntry.word (8 * (List.replicate m (0, 0) :: rest).length) m)) :=
        isAt_prefix _ _
      have h2 := (hat.append_right
        (HAMapIndexer.write_buckets kw vw (List.replicate m (0, 0) :: rest) ++ [n])).load_int
      rw [h2]
      congr 1
      exact Nat.mod_eq_of_lt (by
        have := word_lt (8 * (List.replicate m ((0 : Nat), (0 : Nat)) :: rest).length) m
        norm_num at this ⊢
        exact this)
  have hget : BucketIndex.get
      { data := HAMapIndexer.flush_buckets kw vw bs, nbuckets := bs.length, key_bits_store := 0 } 0 =
      some { offset := 8 * bs.length, nkeys := 0 } := by
    unfold BucketIndex.get
    simp only [Nat.mul_zero]
    rw [hentry, Option.map_some', ofWord_word, hm, Nat.mod_eq_of_lt (by omega)]
  refine ⟨bs, _, hbs, himage, hB, hb0, hget, ?_⟩
  have hnew : BucketIndex.new (HAMapIndexer.flush_buckets kw vw bs) =
      some { data := HAMapIndexer.flush_buckets kw vw bs, nbuckets := bs.length,
             key_bits_store := 0 } := by
    unfold BucketIndex.new
    rw [himg_eq, ← List.append_assoc, read_nbuckets_plain _ n hn, Option.map_some', hpart.1]
  unfold HAMapSearcher.lookup
  rw [hnew, Option.some_bind]
  unfold HAMapSearcher.search
  rw [Nat.zero_and, hget, Option.some_bind, binary_locate_done _ _ _ _ _ (Nat.lt_irrefl 0)]
  rfl

/-- C7, the claim as stated fails: `2^21` copies of the pair `(0, 0)` added to a
`HAMapIndexer<uint32_t, uint32_t>` in staging mode with the default page size all land in
bucket 0, whose 21-bit `nkeys` field is written as 0; the key 0 occurs in the list and
`search(0)` over the image returns `nullptr`, not a pointer to an inserted value. -/
theorem C7_full_bucket_key_missed :
    0 ∈ (List.replicate (2 ^ 21) ((0 : Nat), (0 : Nat))).map Prod.fst ∧
      ∃ img, HAMapIndexer.image .u32 .u32 0 DEFAULT_PAGE_SIZE
            (List.replicate (2 ^ 21) (0, 0)) DEFAULT_PAGE_SIZE = some img ∧
        HAMapSearcher.lookup .u32 .u32 img 0 = some none ∧
        ¬ ∃ v, HAMapSearcher.lookup .u32 .u32 img 0 = some (some v) := by
  obtain ⟨bs, img, _, himg, _, _, _, hlook⟩ := full_bucket_entry .u32 .u32 (2 ^ 21)
    DEFAULT_PAGE_SIZE (by decide) (by decide) (by decide) ⟨by decide, by decide, by decide⟩
  refine ⟨List.mem_map.2 ⟨(0, 0), List.mem_replicate.2 ⟨by decide, rfl⟩, rfl⟩,
    img, himg, hlook, ?_⟩
  rintro ⟨v, hv⟩
  rw [hlook] at hv
  cases hv

/-- C17, the claim as stated fails: for `2^21` copies of the pair `(0, 0)` added to a
`HAMapIndexer<uint32_t, uint32_t>` in staging mode with the default page size, bucket 0 holds
`2^21` pairs and directory entry 0 of the image is `(8 * B, 0)`, not `(8 * B, 2^21)`. -/
theorem C17_full_bucket_entry_wraps :
    ∃ bs img, HAMapIndexer.built_buckets .u32 .u32 0 DEFAULT_PAGE_SIZE
          (List.replicate (2 ^ 21) (0, 0)) DEFAULT_PAGE_SIZE = some bs ∧
      HAMapIndexer.image .u32 .u32 0 DEFAULT_PAGE_SIZE
          (List.replicate (2 ^ 21) (0, 0)) DEFAULT_PAGE_SIZE = some img ∧
      0 < bs.length ∧ bs[0]?.map List.length = some (2 ^ 21) ∧
      BucketIndex.get { data := img, nbuckets := bs.length, key_bits_store := 0 } 0 =
        some { offset := 8 * bs.length, nkeys := 0 } ∧
      BucketIndex.get { data := img, nbuckets := bs.length, key_bits_store := 0 } 0 ≠
        some { offset := 8 * bs.length, nkeys := 2 ^ 21 } := by
  obtain ⟨bs, img, hbs, himg, hB, hb0, hget, _⟩ := full_bucket_entry .u32 .u32 (2 ^ 21)
    DEFAULT_PAGE_SIZE (by decide) (by decide) (by decide) ⟨by decide, by decide, by decide⟩
  refine ⟨bs, img, hbs, himg, hB, ?_, hget, ?_⟩
  · rw [hb0, Option.map_some', List.length_replicate]
  · rw [hget]
    intro hc
    have := congrArg BucketEntry.nkeys (Option.some.inj hc)
    simp only at this
    omega

end Hacmap
